import Mathlib

/-!
Verification of the TrieMap radix-tree implementation (src/trie-map.ts).

Strings are modelled as lists of characters (the source matches per UTF-16
code unit).  Values are modelled as natural numbers; the JavaScript
truthiness test that the source applies to a `T | null` value corresponds to
`v ≠ 0` on `some v` (`0` is falsy) and `false` on `Option.none` (`null`).
Node parent back-references are represented by paths of child indices from
the root; a separate arena model with explicit parent indices is used for
the heap-shape invariants.
-/

set_option maxHeartbeats 1000000

namespace TrieMap

/-- Source `TrieMapKeyPointer`: a zero-copy view over `data` describing the
half-open range `[pos, posMax)`. -/
structure KeyPointer where
  data : List Char
  pos : Nat
  posMax : Nat
deriving DecidableEq, Repr

/-- Source `TrieMapMatchType`: `'full' | 'none' | { index }`.  `noMatch`
models the string `'none'` and `prefixMatch i` models `{ index: i }`. -/
inductive MatchType where
  | full
  | noMatch
  | prefixMatch (index : Nat)
deriving DecidableEq, Repr

/-- Source `isPrefixMatch`: the match is an `{ index }` record. -/
def isPrefixMatch : MatchType → Bool
  | .prefixMatch _ => true
  | _ => false

/-- Reading `.index` of a match; the source only reads it on prefix matches. -/
def MatchType.index : MatchType → Nat
  | .prefixMatch i => i
  | _ => 0

/-- Source `TrieMapNode<T>` with `T = Nat`: a key segment, an optional value
(`null` = `Option.none`) and the ordered list of children.  The `parent`
back-reference is represented externally by paths from the root. -/
inductive Node where
  | mk (key : List Char) (value : Option Nat) (children : List Node)

def Node.key : Node → List Char
  | .mk k _ _ => k

def Node.value : Node → Option Nat
  | .mk _ v _ => v

def Node.children : Node → List Node
  | .mk _ _ c => c

instance : Inhabited Node := ⟨.mk [] Option.none []⟩

@[simp] theorem Node.key_mk (k : List Char) (v : Option Nat) (c : List Node) :
    (Node.mk k v c).key = k := rfl

@[simp] theorem Node.value_mk (k : List Char) (v : Option Nat) (c : List Node) :
    (Node.mk k v c).value = v := rfl

@[simp] theorem Node.children_mk (k : List Char) (v : Option Nat) (c : List Node) :
    (Node.mk k v c).children = c := rfl

/-- JavaScript truthiness of a `T | null` value in the `Nat` model. -/
def truthy : Option Nat → Bool
  | some v => v != 0
  | Option.none => false

@[simp] theorem truthy_none : truthy Option.none = false := rfl

@[simp] theorem truthy_some (v : Nat) : truthy (some v) = (v != 0) := rfl

/-- Source `charsEqual`: the stored-side character `a` equal to the wildcard
matches anything; otherwise plain equality, where the case-insensitive trie
lower-cases only the search side `b` (stored keys are lower-cased at
insertion). -/
def charsEqual (caseSensitive : Bool) (a b : Char) : Bool :=
  if caseSensitive then a == '*' || a == b
  else a == '*' || a == b.toLower

/-- One iteration of the source `matchPrefix` loop at position `index`;
`rem` counts the remaining iterations (`posMax - (pos + index)`), so the
loop guard `pos + index < posMax` corresponds to `rem > 0`; a malformed
window with `pos > posMax` gives `rem = 0` immediately and the post-loop
test then yields `prefixMatch 0`, exactly as in the source. -/
def matchPrefixGo (ce : Char → Char → Bool) (pre : List Char) (kp : KeyPointer) :
    Nat → Nat → MatchType
  | index, 0 =>
      if kp.pos + index = kp.posMax ∧ index = pre.length then .full
      else .prefixMatch index
  | index, rem+1 =>
      if pre.length ≤ index ∨ ce (pre.getD index ' ') (kp.data.getD (kp.pos + index) ' ') = false then
        if 0 < index ∨ pre.length = 0 then .prefixMatch index else .noMatch
      else matchPrefixGo ce pre kp (index+1) rem

/-- Source `matchPrefix`: compare the node key segment `pre` against the
window starting at its current position. -/
def matchPrefix (ce : Char → Char → Bool) (pre : List Char) (kp : KeyPointer) : MatchType :=
  matchPrefixGo ce pre kp 0 (kp.posMax - kp.pos)

/-- Source `TrieMapClosestMatchingNode`: the candidate node, its match, the
accumulated full key and the accumulated index.  `path` is the list of child
indices from the root to `node` — the functional image of the source's
object reference plus its parent chain. -/
structure ClosestResult where
  node : Node
  path : List Nat
  mtch : MatchType
  fullKey : List Char
  sumIndex : Nat

mutual

/-- The `while` loop of `findClosestMatchingNode`: the candidate node `n`
matched `prefixMatch i`; `kp.pos` has been advanced past the matched part.
When `i` consumes the whole key segment the loop scans the children,
otherwise the candidate is returned (the wrapper restores `pos`). -/
def fcmnGo (ce : Char → Char → Bool) (n : Node) (i : Nat) (kp : KeyPointer)
    (path : List Nat) (fullKey : List Char) (sumIndex : Nat) :
    ClosestResult × KeyPointer :=
  match n with
  | .mk k v ch =>
    if i = k.length then
      fcmnScan ce (.mk k v ch) i kp path fullKey sumIndex ch 0
    else
      (⟨.mk k v ch, path, .prefixMatch i, fullKey, sumIndex⟩, kp)

/-- The `for` loop over `candidateNode.children`: `j` is the index of the
scanned suffix's head within the children list.  A full child match returns
at once, with the pointer still advanced (the source skips the restore on
this path); the first prefix match continues the traversal from that child;
otherwise the scan moves on, and an exhausted scan returns the candidate. -/
def fcmnScan (ce : Char → Char → Bool) (n : Node) (i : Nat) (kp : KeyPointer)
    (path : List Nat) (fullKey : List Char) (sumIndex : Nat) :
    List Node → Nat → ClosestResult × KeyPointer
  | [], _ => (⟨n, path, .prefixMatch i, fullKey, sumIndex⟩, kp)
  | c :: cs, j =>
    match matchPrefix ce c.key kp with
    | .full => (⟨c, path ++ [j], .full, fullKey ++ c.key, 0⟩, kp)
    | .prefixMatch jIdx =>
        fcmnGo ce c jIdx { kp with pos := kp.pos + jIdx }
          (path ++ [j]) (fullKey ++ c.key) (sumIndex + jIdx)
    | .noMatch => fcmnScan ce n i kp path fullKey sumIndex cs (j+1)

end

/-- Source `TrieMap<T>` with `T = Nat`: the optional root and the
case-sensitivity flag (the derived character-equality function is
`charsEqual caseSensitive`). -/
structure Trie where
  root : Option Node
  caseSensitive : Bool

/-- The trie's derived character-equality predicate. -/
def Trie.ce (t : Trie) : Char → Char → Bool := charsEqual t.caseSensitive

/-- Source `findClosestMatchingNode`.  Besides the result, the returned
`KeyPointer` is the state in which the call leaves the (mutated-in-place)
pointer: the source restores `pos` before the normal return, but the early
return on a full child match skips the restore. -/
def findClosestMatchingNode (t : Trie) (kp : KeyPointer) :
    Option ClosestResult × KeyPointer :=
  match t.root with
  | Option.none => (Option.none, kp)
  | some r =>
    match matchPrefix t.ce r.key kp with
    | .noMatch => (Option.none, kp)
    | .full => (some ⟨r, [], .full, r.key, 0⟩, kp)
    | .prefixMatch i =>
      let rk := fcmnGo t.ce r i { kp with pos := kp.pos + i } [] r.key i
      match rk.1.mtch with
      | .full => (some rk.1, rk.2)
      | _ => (some rk.1, { rk.2 with pos := kp.pos })

/-- Source `keyAsPointer` on a plain string: the full-range pointer. -/
def keyAsPointer (key : List Char) : KeyPointer := ⟨key, 0, key.length⟩

/-- Source `get`: the value when the traversal reports a full match. -/
def get (t : Trie) (kp : KeyPointer) : Option Nat :=
  match (findClosestMatchingNode t kp).1 with
  | some res => if res.mtch = .full then res.node.value else Option.none
  | Option.none => Option.none

/-- `get` on a plain string key. -/
def getS (t : Trie) (key : List Char) : Option Nat := get t (keyAsPointer key)

/-- Replace the subtree at `path` (child indices) by its image under `f`. -/
def updateAt (f : Node → Node) : Node → List Nat → Node
  | n, [] => f n
  | n, j :: p =>
    match n with
    | .mk k v ch => .mk k v (ch.set j (updateAt f (ch.getD j default) p))

/-- The node at `path` below `n`. -/
def nodeAt : Node → List Nat → Node
  | n, [] => n
  | n, j :: p => nodeAt (n.children.getD j default) p

/-- The structural edit `set` performs at the matched node, selected by the
traversal result: insert a parent holding the value (the new key was fully
consumed, `match.index === posMax - pos`, i.e. `index = keyString.length`
for the fresh full-range pointer `set` uses); split the node (with the value
on the truncated node exactly when `sumIndex` consumed the whole new key,
else adding a fresh leaf for the remainder); append a fresh leaf child; or —
on a full match — overwrite the value in place. -/
def setEdit (keyString : List Char) (value : Nat) (res : ClosestResult) : Node → Node :=
  match res.mtch with
  | .prefixMatch i =>
    if i = keyString.length then
      -- insert a parent node
      fun node => .mk (node.key.take i) (some value)
        [.mk (node.key.drop i) node.value node.children]
    else if i < res.node.key.length then
      -- split a parent node with a smaller key
      fun node => .mk (node.key.take i)
        (if res.sumIndex = keyString.length then some value else Option.none)
        (.mk (node.key.drop i) node.value node.children ::
          (if res.sumIndex = keyString.length then []
           else [.mk (keyString.drop res.sumIndex) (some value) []]))
    else
      -- add the new node to children
      fun node => .mk node.key node.value
        (node.children ++ [.mk (keyString.drop res.sumIndex) (some value) []])
  | _ =>
      -- update existing node value
      fun node => .mk node.key (some value) node.children

/-- Source `set`.  The structural edits that the source performs through the
result node's object reference and its parent pointer (`children[indexOf
node] = newNode`, `this.root = newNode`, …) are the replacement of the
subtree at the result's path by its image under `setEdit`. -/
def set (t : Trie) (key : List Char) (value : Nat) : Trie :=
  let keyString := if t.caseSensitive then key else key.map Char.toLower
  match t.root with
  | Option.none => { t with root := some (.mk keyString (some value) []) }
  | some r =>
    let kp := keyAsPointer keyString
    match (findClosestMatchingNode t kp).1 with
    | Option.none =>
        -- split the root: a new empty-key virtual root over the old root and a fresh leaf
        { t with root := some (.mk [] Option.none [r, .mk keyString (some value) []]) }
    | some res =>
        { t with root := some (updateAt (setEdit keyString value res) r res.path) }

/-- `set` on a plain string key (the source folds pointers to strings first). -/
def mkTrie (caseSensitive : Bool) : Trie := ⟨Option.none, caseSensitive⟩

/-- Bulk construction from a list of entries, as the constructor does. -/
def buildTrie (caseSensitive : Bool) (entries : List (List Char × Nat)) : Trie :=
  entries.foldl (fun t e => set t e.1 e.2) (mkTrie caseSensitive)

/-- A full result of `matchPrefix` consumes the window exactly: the loop can
only report `full` when `pos + pre.length = posMax`. -/
theorem matchPrefixGo_full (ce : Char → Char → Bool) (pre : List Char) (kp : KeyPointer) :
    ∀ (rem index : Nat), matchPrefixGo ce pre kp index rem = .full →
      kp.pos + pre.length = kp.posMax := by
  intro rem
  induction rem with
  | zero =>
    intro index h
    simp only [matchPrefixGo] at h
    split at h
    · omega
    · exact absurd h (by simp)
  | succ m ih =>
    intro index h
    simp only [matchPrefixGo] at h
    split at h
    · split at h <;> exact absurd h (by simp)
    · exact ih (index + 1) h

theorem matchPrefix_full (ce : Char → Char → Bool) (pre : List Char) (kp : KeyPointer)
    (h : matchPrefix ce pre kp = .full) : kp.pos + pre.length = kp.posMax :=
  matchPrefixGo_full ce pre kp _ 0 h

theorem fcmnGo_eq_scan (ce : Char → Char → Bool) (k : List Char) (v : Option Nat)
    (ch : List Node) (kp : KeyPointer) (path : List Nat) (fullKey : List Char)
    (sumIndex : Nat) :
    fcmnGo ce (.mk k v ch) k.length kp path fullKey sumIndex =
      fcmnScan ce (.mk k v ch) k.length kp path fullKey sumIndex ch 0 := by
  simp [fcmnGo]

theorem fcmnGo_eq_stop (ce : Char → Char → Bool) (k : List Char) (v : Option Nat)
    (ch : List Node) (i : Nat) (kp : KeyPointer) (path : List Nat)
    (fullKey : List Char) (sumIndex : Nat) (h : i ≠ k.length) :
    fcmnGo ce (.mk k v ch) i kp path fullKey sumIndex =
      (⟨.mk k v ch, path, .prefixMatch i, fullKey, sumIndex⟩, kp) := by
  simp [fcmnGo, h]

theorem fcmnScan_nil (ce : Char → Char → Bool) (n : Node) (i : Nat) (kp : KeyPointer)
    (path : List Nat) (fullKey : List Char) (sumIndex : Nat) (j : Nat) :
    fcmnScan ce n i kp path fullKey sumIndex [] j =
      (⟨n, path, .prefixMatch i, fullKey, sumIndex⟩, kp) := by
  simp [fcmnScan]

theorem fcmnScan_cons_full (ce : Char → Char → Bool) (n : Node) (i : Nat)
    (kp : KeyPointer) (path : List Nat) (fullKey : List Char) (sumIndex : Nat)
    (c : Node) (cs : List Node) (j : Nat) (h : matchPrefix ce c.key kp = .full) :
    fcmnScan ce n i kp path fullKey sumIndex (c :: cs) j =
      (⟨c, path ++ [j], .full, fullKey ++ c.key, 0⟩, kp) := by
  simp [fcmnScan, h]

theorem fcmnScan_cons_prefixM (ce : Char → Char → Bool) (n : Node) (i : Nat)
    (kp : KeyPointer) (path : List Nat) (fullKey : List Char) (sumIndex : Nat)
    (c : Node) (cs : List Node) (j jIdx : Nat)
    (h : matchPrefix ce c.key kp = .prefixMatch jIdx) :
    fcmnScan ce n i kp path fullKey sumIndex (c :: cs) j =
      fcmnGo ce c jIdx { kp with pos := kp.pos + jIdx }
        (path ++ [j]) (fullKey ++ c.key) (sumIndex + jIdx) := by
  simp [fcmnScan, h]

theorem fcmnScan_cons_none (ce : Char → Char → Bool) (n : Node) (i : Nat)
    (kp : KeyPointer) (path : List Nat) (fullKey : List Char) (sumIndex : Nat)
    (c : Node) (cs : List Node) (j : Nat) (h : matchPrefix ce c.key kp = .noMatch) :
    fcmnScan ce n i kp path fullKey sumIndex (c :: cs) j =
      fcmnScan ce n i kp path fullKey sumIndex cs (j + 1) := by
  simp [fcmnScan, h]

/-- The frame property of the traversal loop: the pointer's `data` and
`posMax` are never changed, and a full result consumed the window exactly
(stated with `P0`, the position at which the whole accumulated `fullKey`
started). -/
def GoFrame (ce : Char → Char → Bool) (n : Node) (i : Nat) (kp : KeyPointer)
    (path : List Nat) (fullKey : List Char) (sumIndex : Nat) : Prop :=
  (fcmnGo ce n i kp path fullKey sumIndex).2.posMax = kp.posMax ∧
  (fcmnGo ce n i kp path fullKey sumIndex).2.data = kp.data ∧
  ((fcmnGo ce n i kp path fullKey sumIndex).1.mtch = .full →
    path.length < (fcmnGo ce n i kp path fullKey sumIndex).1.path.length) ∧
  ∀ P0, kp.pos + n.key.length = P0 + fullKey.length + i →
    (fcmnGo ce n i kp path fullKey sumIndex).1.mtch = .full →
      P0 + (fcmnGo ce n i kp path fullKey sumIndex).1.fullKey.length = kp.posMax ∧
      P0 ≤ (fcmnGo ce n i kp path fullKey sumIndex).2.pos

/-- The frame property of the children scan (same statement for `fcmnScan`). -/
def ScanFrame (ce : Char → Char → Bool) (n : Node) (i : Nat) (kp : KeyPointer)
    (path : List Nat) (fullKey : List Char) (sumIndex : Nat)
    (l : List Node) (j : Nat) : Prop :=
  (fcmnScan ce n i kp path fullKey sumIndex l j).2.posMax = kp.posMax ∧
  (fcmnScan ce n i kp path fullKey sumIndex l j).2.data = kp.data ∧
  ((fcmnScan ce n i kp path fullKey sumIndex l j).1.mtch = .full →
    path.length < (fcmnScan ce n i kp path fullKey sumIndex l j).1.path.length) ∧
  ∀ P0, kp.pos = P0 + fullKey.length →
    (fcmnScan ce n i kp path fullKey sumIndex l j).1.mtch = .full →
      P0 + (fcmnScan ce n i kp path fullKey sumIndex l j).1.fullKey.length = kp.posMax ∧
      P0 ≤ (fcmnScan ce n i kp path fullKey sumIndex l j).2.pos

theorem fcmnGo_frame (ce : Char → Char → Bool) :
    ∀ (n : Node) (i : Nat) (kp : KeyPointer) (path : List Nat)
      (fullKey : List Char) (sumIndex : Nat),
      GoFrame ce n i kp path fullKey sumIndex := by
  refine fcmnGo.induct ce (GoFrame ce) (ScanFrame ce) ?_ ?_ ?_ ?_ ?_ ?_
  · intro kp path fullKey sumIndex k v ch ih
    unfold GoFrame
    rw [fcmnGo_eq_scan]
    obtain ⟨h1, h2, hp, h3⟩ := ih
    refine ⟨h1, h2, hp, ?_⟩
    intro P0 hP0 hfull
    refine h3 P0 ?_ hfull
    simp only [Node.key_mk] at hP0
    omega
  · intro i kp path fullKey sumIndex k v ch hne
    unfold GoFrame
    rw [fcmnGo_eq_stop ce k v ch i kp path fullKey sumIndex hne]
    refine ⟨rfl, rfl, ?_, ?_⟩
    · intro hfull; exact absurd hfull (by simp)
    intro P0 _ hfull
    exact absurd hfull (by simp)
  · intro n i kp path fullKey sumIndex x
    unfold ScanFrame
    rw [fcmnScan_nil]
    refine ⟨rfl, rfl, ?_, ?_⟩
    · intro hfull; exact absurd hfull (by simp)
    intro P0 _ hfull
    exact absurd hfull (by simp)
  · intro n i kp path fullKey sumIndex c cs j hm
    unfold ScanFrame
    rw [fcmnScan_cons_full ce n i kp path fullKey sumIndex c cs j hm]
    refine ⟨rfl, rfl, ?_, ?_⟩
    · intro _; simp
    intro P0 hP0 _
    have := matchPrefix_full _ _ _ hm
    dsimp only
    constructor
    · simp only [List.length_append]; omega
    · omega
  · intro n i kp path fullKey sumIndex c cs j jIdx hm ih
    unfold ScanFrame
    rw [fcmnScan_cons_prefixM ce n i kp path fullKey sumIndex c cs j jIdx hm]
    obtain ⟨h1, h2, hp, h3⟩ := ih
    refine ⟨h1, h2, ?_, ?_⟩
    · intro hfull
      have := hp hfull
      simp only [List.length_append, List.length_cons, List.length_nil] at this
      omega
    intro P0 hP0 hfull
    refine h3 P0 ?_ hfull
    simp only [List.length_append]
    omega
  · intro n i kp path fullKey sumIndex c cs j hm ih
    unfold ScanFrame
    rw [fcmnScan_cons_none ce n i kp path fullKey sumIndex c cs j hm]
    exact ih

/-- `findClosestMatchingNode` never changes `data` or `posMax`, and restores
`pos` whenever the result is not a full match. -/
theorem fcmn_frame (t : Trie) (kp : KeyPointer) :
    (findClosestMatchingNode t kp).2.posMax = kp.posMax ∧
    (findClosestMatchingNode t kp).2.data = kp.data ∧
    (∀ res, (findClosestMatchingNode t kp).1 = some res → res.mtch ≠ .full →
      (findClosestMatchingNode t kp).2.pos = kp.pos) ∧
    ((findClosestMatchingNode t kp).1 = Option.none →
      (findClosestMatchingNode t kp).2.pos = kp.pos) := by
  cases h0 : t.root with
  | none => simp [findClosestMatchingNode, h0]
  | some r =>
    cases h1 : matchPrefix t.ce r.key kp with
    | noMatch => simp [findClosestMatchingNode, h0, h1]
    | full => simp [findClosestMatchingNode, h0, h1]
    | prefixMatch i =>
      have hg := fcmnGo_frame t.ce r i { kp with pos := kp.pos + i } [] r.key i
      obtain ⟨hp, hd, _⟩ := hg
      cases h2 : (fcmnGo t.ce r i { kp with pos := kp.pos + i } [] r.key i).1.mtch with
      | full =>
        simp only [findClosestMatchingNode, h0, h1, h2]
        refine ⟨by simpa using hp, by simpa using hd, ?_, by intro hx; cases hx⟩
        intro res hres hne
        injection hres with h3
        exact absurd (h3 ▸ h2) hne
      | noMatch =>
        simp only [findClosestMatchingNode, h0, h1, h2]
        exact ⟨by simpa using hp, by simpa using hd, by simp, by simp⟩
      | prefixMatch k =>
        simp only [findClosestMatchingNode, h0, h1, h2]
        exact ⟨by simpa using hp, by simpa using hd, by simp, by simp⟩

/-- A full match consumed the window exactly: `pos + |fullKey| = posMax`,
and the pointer is left at or beyond its entry position. -/
theorem fcmn_full_consumed (t : Trie) (kp : KeyPointer) (res : ClosestResult)
    (h : (findClosestMatchingNode t kp).1 = some res) (hfull : res.mtch = .full) :
    kp.pos + res.fullKey.length = kp.posMax ∧
    kp.pos ≤ (findClosestMatchingNode t kp).2.pos := by
  cases h0 : t.root with
  | none => rw [findClosestMatchingNode] at h; simp [h0] at h
  | some r =>
    cases h1 : matchPrefix t.ce r.key kp with
    | noMatch => rw [findClosestMatchingNode] at h; simp [h0, h1] at h
    | full =>
      rw [findClosestMatchingNode] at h
      simp only [h0, h1] at h
      cases h
      simp only [findClosestMatchingNode, h0, h1]
      have := matchPrefix_full _ _ _ h1
      exact ⟨this, le_refl _⟩
    | prefixMatch i =>
      have hg := fcmnGo_frame t.ce r i { kp with pos := kp.pos + i } [] r.key i
      obtain ⟨hp, hd, _, hful⟩ := hg
      cases h2 : (fcmnGo t.ce r i { kp with pos := kp.pos + i } [] r.key i).1.mtch with
      | full =>
        rw [findClosestMatchingNode] at h
        simp only [h0, h1, h2] at h
        cases h
        have hc := hful kp.pos (by dsimp only; omega) h2
        simp only [findClosestMatchingNode, h0, h1, h2]
        refine ⟨hc.1, ?_⟩
        have := hc.2
        omega
      | noMatch =>
        rw [findClosestMatchingNode] at h
        simp only [h0, h1, h2] at h
        cases h
        exact absurd hfull (by rw [h2]; simp)
      | prefixMatch k =>
        rw [findClosestMatchingNode] at h
        simp only [h0, h1, h2] at h
        cases h
        exact absurd hfull (by rw [h2]; simp)

/-- The chain of nodes from the root along a path of child indices: the
functional image of following `children` downward; reversing it yields the
source's chain of `parent` references upward. -/
def pathNodes (r : Node) : List Nat → List Node
  | [] => [r]
  | j :: p => r :: pathNodes (r.children.getD j default) p

/-- JavaScript `fullKey.slice(0, -len)`: for `len = 0` this is
`slice(0, 0) = ""` (not the whole string), which the walk relies on never
observing; modelled exactly. -/
def sliceNegEnd (l : List Char) (n : Nat) : List Char :=
  if n = 0 then [] else l.take (l.length - n)

/-- The upward walk of `findByLongestPrefix`: starting from the matched node
(head of the reversed chain), trim the accumulated full key by the current
node's key length, step to the parent, and stop at the first parent whose
value is truthy; fail when the chain is exhausted (`node = null`). -/
def walkUp : List Node → List Char → Option (Node × List Char)
  | [], _ => Option.none
  | n :: rest, fullKey =>
    let fk := sliceNegEnd fullKey n.key.length
    match rest with
    | [] => Option.none
    | p :: _ => if truthy p.value then some (p, fk) else walkUp rest fk

/-- The regex `/[A-Z]/i` test of `isNonBoundary`: the character at `pos` is
an ASCII letter (only the letter class, not digits). -/
def isNonBoundary (src : List Char) (pos : Nat) : Bool :=
  let c := src.getD pos ' '
  (decide ('A' ≤ c) && decide (c ≤ 'Z')) || (decide ('a' ≤ c) && decide (c ≤ 'z'))

/-- The body of `findByLongestPrefix` up to the word-boundary handling: the
traversal, the `none`/null-value guards and the upward fallback walk.
Returns the candidate `(fullKey, raw value)` — the final truthiness check on
the value is applied by the caller, as in the source — together with the
pointer state in which the traversal left the search pointer. -/
def longestPrefixCandidate (t : Trie) (kp : KeyPointer) :
    Option (List Char × Nat) × KeyPointer :=
  let rk := findClosestMatchingNode t kp
  (match rk.1 with
   | Option.none => Option.none
   | some res =>
     if res.mtch = .noMatch then Option.none
     else
       match res.node.value with
       | Option.none => Option.none
       | some v =>
         if res.mtch ≠ .full ∧ res.mtch.index ≠ res.node.key.length then
           match walkUp ((pathNodes (t.root.getD default) res.path).reverse) res.fullKey with
           | Option.none => Option.none
           | some nf => some (nf.2, nf.1.value.getD 0)
         else some (res.fullKey, v),
   rk.2)

theorem longestPrefixCandidate_snd (t : Trie) (kp : KeyPointer) :
    (longestPrefixCandidate t kp).2 = (findClosestMatchingNode t kp).2 := rfl

/-- Source `findByLongestPrefix`.  The word-boundary retry narrows the
pointer's `posMax` to `pos + keyLen - 1` and recurses; the `pos` it uses is
the state in which the traversal left the pointer (restored except after a
full child match). -/
def findByLongestPrefix (t : Trie) (kp : KeyPointer) (wordBoundaryOnly : Bool) :
    Option (List Char × Nat) :=
  let ck := longestPrefixCandidate t kp
  match ck.1 with
  | Option.none => Option.none
  | some fv =>
    if wordBoundaryOnly then
      if h : ck.2.pos + fv.1.length < ck.2.posMax ∧
          isNonBoundary ck.2.data (ck.2.pos + fv.1.length) = true then
        findByLongestPrefix t ⟨ck.2.data, ck.2.pos, ck.2.pos + fv.1.length - 1⟩ true
      else if fv.2 != 0 then some fv else Option.none
    else if fv.2 != 0 then some fv else Option.none
termination_by kp.posMax
decreasing_by
  have hpm : (longestPrefixCandidate t kp).2.posMax = kp.posMax := by
    rw [longestPrefixCandidate_snd]
    exact (fcmn_frame t kp).1
  have e1 : ck.2.pos = (longestPrefixCandidate t kp).2.pos := rfl
  have e2 : ck.2.posMax = (longestPrefixCandidate t kp).2.posMax := rfl
  omega

/-- `findByLongestPrefix` on a plain string. -/
def findByLongestPrefixS (t : Trie) (key : List Char) (wordBoundaryOnly : Bool) :
    Option (List Char × Nat) :=
  findByLongestPrefix t (keyAsPointer key) wordBoundaryOnly

/-- Iteration order of `iterate`. -/
inductive IterOrder where
  | bfs
  | dfs
deriving DecidableEq

mutual

def nodeSize : Node → Nat
  | .mk _ _ ch => 1 + nodesSize ch

def nodesSize : List Node → Nat
  | [] => 0
  | c :: cs => nodeSize c + nodesSize cs

end

/-- Total node size of a work list (termination measure for `runWork`). -/
def qSize (q : List (Node × List Char)) : Nat := (q.map fun x => nodeSize x.1).sum

theorem nodesSize_eq_sum (l : List Node) : nodesSize l = (l.map nodeSize).sum := by
  induction l with
  | nil => simp [nodesSize]
  | cons c cs ih => simp [nodesSize, ih]

theorem qSize_append (a b : List (Node × List Char)) :
    qSize (a ++ b) = qSize a + qSize b := by
  simp [qSize]

theorem qSize_cons (x : Node × List Char) (l : List (Node × List Char)) :
    qSize (x :: l) = nodeSize x.1 + qSize l := by
  simp [qSize]

/-- The children of a dequeued node paired with their full keys, as pushed
onto the work list (`node.children.map(child => [child, fullKey + child.key])`). -/
def childEntries (x : Node × List Char) : List (Node × List Char) :=
  x.1.children.map fun c => (c, x.2 ++ c.key)

/-- The pair yielded for a dequeued node: one `(fullKey, value)` pair when
its value is truthy, nothing otherwise. -/
def yieldOf (x : Node × List Char) : List (List Char × Nat) :=
  if truthy x.1.value then [(x.2, x.1.value.getD 0)] else []

theorem qSize_childEntries (x : Node × List Char) :
    qSize (childEntries x) = nodesSize x.1.children := by
  simp [qSize, childEntries, List.map_map, nodesSize_eq_sum]
  rfl

theorem nodesSize_children_lt (n : Node) : nodesSize n.children < nodeSize n := by
  cases n
  simp [nodeSize]

/-- The generator's work-list loop: `bfs` shifts from the front of the queue
(`q.shift()`), `dfs` pops from the back (`q.pop()`); a dequeued node with a
truthy value yields its pair, and its children are then appended at the back
with their accumulated full keys. -/
def runWork (order : IterOrder) (q : List (Node × List Char)) : List (List Char × Nat) :=
  match q with
  | [] => []
  | y :: q2 =>
    let x := match order with
      | .bfs => y
      | .dfs => (y :: q2).getLast (List.cons_ne_nil y q2)
    let rest := match order with
      | .bfs => q2
      | .dfs => (y :: q2).dropLast
    yieldOf x ++ runWork order (rest ++ childEntries x)
termination_by qSize q
decreasing_by
  rw [qSize_append, qSize_childEntries]
  cases order with
  | bfs =>
    dsimp only
    rw [qSize_cons]
    have := nodesSize_children_lt y.1
    omega
  | dfs =>
    dsimp only
    have hsplit : qSize (y :: q2) =
        qSize ((y :: q2).dropLast) +
          nodeSize (((y :: q2).getLast (List.cons_ne_nil y q2)).1) := by
      conv_lhs => rw [← List.dropLast_append_getLast (List.cons_ne_nil y q2)]
      rw [qSize_append, qSize_cons]
      simp [qSize]
    have := nodesSize_children_lt ((y :: q2).getLast (List.cons_ne_nil y q2)).1
    omega

/-- Source `iterate`: the optional prefix seeds the work list with the
closest matching node and its full key (regardless of the match quality, as
in the source); without a prefix the root seeds the list. -/
def iterate (t : Trie) (pre : Option KeyPointer) (order : IterOrder) :
    List (List Char × Nat) :=
  match t.root with
  | Option.none => []
  | some r =>
    match pre with
    | Option.none => runWork order [(r, r.key)]
    | some p =>
      match (findClosestMatchingNode t p).1 with
      | Option.none => []
      | some res => runWork order [(res.node, res.fullKey)]

theorem runWork_nil (order : IterOrder) : runWork order [] = [] := by
  rw [runWork.eq_def]

theorem runWork_cons_bfs (x : Node × List Char) (q : List (Node × List Char)) :
    runWork .bfs (x :: q) = yieldOf x ++ runWork .bfs (q ++ childEntries x) := by
  rw [runWork.eq_def]

theorem runWork_concat_dfs (q : List (Node × List Char)) (x : Node × List Char) :
    runWork .dfs (q ++ [x]) = yieldOf x ++ runWork .dfs (q ++ childEntries x) := by
  rw [runWork.eq_def]
  split
  next heq => simp at heq
  next y q2 heq =>
    dsimp only
    have hg : (y :: q2).getLast (List.cons_ne_nil y q2) = x := by
      have h1 : (y :: q2).getLast? = some x := by
        rw [← heq, List.getLast?_concat]
      rwa [List.getLast?_eq_getLast (y :: q2) (List.cons_ne_nil y q2), Option.some_inj] at h1
    have hd : (y :: q2).dropLast = q := by
      rw [← heq, List.dropLast_concat]
    rw [hg, hd]

/-! ## Closed forms of the two iteration orders -/

mutual

/-- One `(fullKey, value)` pair per truthy-valued node, parent first and
children in insertion order: the reference enumeration each order must yield
exactly once (as a permutation). -/
def collectValued : Node → List Char → List (List Char × Nat)
  | .mk k v ch, fk => yieldOf (.mk k v ch, fk) ++ collectList ch fk

def collectList : List Node → List Char → List (List Char × Nat)
  | [], _ => []
  | c :: cs, fk => collectValued c (fk ++ c.key) ++ collectList cs fk

end

mutual

/-- The depth-first output: a node's own pair first, then the subtrees of
its children in reverse insertion order (`q.pop()` takes the most recently
pushed child first). -/
def dfsOut : Node → List Char → List (List Char × Nat)
  | .mk k v ch, fk => yieldOf (.mk k v ch, fk) ++ dfsList ch fk

def dfsList : List Node → List Char → List (List Char × Nat)
  | [], _ => []
  | c :: cs, fk => dfsList cs fk ++ dfsOut c (fk ++ c.key)

end

/-- The output contributed by a work-list suffix under `dfs`: the last entry's
whole subtree first. -/
def entsOut : List (Node × List Char) → List (List Char × Nat)
  | [] => []
  | e :: es => entsOut es ++ dfsOut e.1 e.2

def collectQ (q : List (Node × List Char)) : List (List Char × Nat) :=
  (q.map fun x => collectValued x.1 x.2).flatten

def yieldsQ (q : List (Node × List Char)) : List (List Char × Nat) :=
  (q.map yieldOf).flatten

def expandQ (q : List (Node × List Char)) : List (Node × List Char) :=
  (q.map childEntries).flatten

theorem qSize_expandQ_le (q : List (Node × List Char)) : qSize (expandQ q) ≤ qSize q := by
  induction q with
  | nil => simp [expandQ, qSize]
  | cons x rest ih =>
    have h1 : expandQ (x :: rest) = childEntries x ++ expandQ rest := by
      simp [expandQ]
    rw [h1, qSize_append, qSize_cons, qSize_childEntries]
    have := nodesSize_children_lt x.1
    omega

theorem qSize_expandQ_lt (q : List (Node × List Char)) (h : q ≠ []) :
    qSize (expandQ q) < qSize q := by
  cases q with
  | nil => exact absurd rfl h
  | cons x rest =>
    have h1 : expandQ (x :: rest) = childEntries x ++ expandQ rest := by
      simp [expandQ]
    rw [h1, qSize_append, qSize_cons, qSize_childEntries]
    have h2 := nodesSize_children_lt x.1
    have h3 := qSize_expandQ_le rest
    omega

/-- The breadth-first output organized by levels: the pairs of all current
entries in order, followed by the pairs of all their children, and so on. -/
def bfsLevels (q : List (Node × List Char)) : List (List Char × Nat) :=
  match h : q with
  | [] => []
  | _ :: _ => yieldsQ q ++ bfsLevels (expandQ q)
termination_by qSize q
decreasing_by
  rw [← h]
  exact qSize_expandQ_lt q (by rw [h]; simp)

theorem bfsLevels_nil : bfsLevels [] = [] := by
  rw [bfsLevels.eq_def]

theorem bfsLevels_cons (x : Node × List Char) (rest : List (Node × List Char)) :
    bfsLevels (x :: rest) = yieldsQ (x :: rest) ++ bfsLevels (expandQ (x :: rest)) := by
  rw [bfsLevels.eq_def]

theorem runWork_bfs_append (q : List (Node × List Char)) :
    ∀ extra, runWork .bfs (q ++ extra) = yieldsQ q ++ runWork .bfs (extra ++ expandQ q) := by
  induction q with
  | nil =>
    intro extra
    simp [yieldsQ, expandQ]
  | cons x rest ih =>
    intro extra
    have h1 : (x :: rest) ++ extra = x :: (rest ++ extra) := rfl
    rw [h1, runWork_cons_bfs, List.append_assoc, ih (extra ++ childEntries x)]
    have h2 : yieldsQ (x :: rest) = yieldOf x ++ yieldsQ rest := by simp [yieldsQ]
    have h3 : expandQ (x :: rest) = childEntries x ++ expandQ rest := by simp [expandQ]
    rw [h2, h3, List.append_assoc, List.append_assoc]

theorem runWork_bfs_levels (q : List (Node × List Char)) :
    runWork .bfs q = bfsLevels q := by
  generalize hn : qSize q = N
  induction N using Nat.strong_induction_on generalizing q with
  | _ N ih =>
    cases hq : q with
    | nil => rw [runWork_nil, bfsLevels_nil]
    | cons x rest =>
      subst hq
      rw [bfsLevels_cons]
      have h1 : runWork .bfs (x :: rest) = runWork .bfs ((x :: rest) ++ []) := by
        rw [List.append_nil]
      rw [h1, runWork_bfs_append (x :: rest) [], List.nil_append]
      have hlt : qSize (expandQ (x :: rest)) < N := by
        rw [← hn]
        exact qSize_expandQ_lt (x :: rest) (by simp)
      rw [ih (qSize (expandQ (x :: rest))) hlt (expandQ (x :: rest)) rfl]

theorem entsOut_append (a b : List (Node × List Char)) :
    entsOut (a ++ b) = entsOut b ++ entsOut a := by
  induction a with
  | nil => simp [entsOut]
  | cons e es ih => simp [entsOut, ih]

theorem entsOut_childEntries (ch : List Node) (fk : List Char) :
    entsOut (ch.map fun c => (c, fk ++ c.key)) = dfsList ch fk := by
  induction ch with
  | nil => simp [entsOut, dfsList]
  | cons c cs ih => simp [entsOut, dfsList, ih]

theorem nodeSize_pos (n : Node) : 1 ≤ nodeSize n := by
  cases n
  simp [nodeSize]

theorem runWork_dfs_ents (es : List (Node × List Char)) :
    ∀ q, runWork .dfs (q ++ es) = entsOut es ++ runWork .dfs q := by
  generalize hn : qSize es = N
  induction N using Nat.strong_induction_on generalizing es with
  | _ N ih =>
    rcases List.eq_nil_or_concat es with hnil | ⟨es2, x, hx⟩
    · subst hnil
      intro q
      simp [entsOut]
    · subst hx
      rw [List.concat_eq_append] at hn
      intro q
      rw [List.concat_eq_append, ← List.append_assoc,
        runWork_concat_dfs (q ++ es2) x]
      have hx1 : qSize (childEntries x) < N := by
        rw [← hn, qSize_append, qSize_cons, qSize_childEntries]
        have := nodesSize_children_lt x.1
        simp [qSize]
        omega
      have hx2 : qSize es2 < N := by
        rw [← hn, qSize_append, qSize_cons]
        have := nodeSize_pos x.1
        simp [qSize]
        omega
      rw [ih (qSize (childEntries x)) hx1 (childEntries x) rfl (q ++ es2)]
      rw [ih (qSize es2) hx2 es2 rfl q]
      rw [entsOut_append es2 [x]]
      have hout : entsOut [x] = dfsOut x.1 x.2 := by simp [entsOut]
      rw [hout]
      have hdfs : dfsOut x.1 x.2 = yieldOf x ++ entsOut (childEntries x) := by
        obtain ⟨x1, fk⟩ := x
        cases x1 with
        | mk k v c =>
          show dfsOut (Node.mk k v c) fk =
            yieldOf (Node.mk k v c, fk) ++ entsOut (childEntries (Node.mk k v c, fk))
          have h2 : childEntries (Node.mk k v c, fk) = c.map fun d => (d, fk ++ d.key) := by
            simp [childEntries]
          rw [h2, entsOut_childEntries, dfsOut]
      rw [hdfs]
      simp [List.append_assoc]

theorem runWork_dfs_out (n : Node) (fk : List Char) :
    runWork .dfs [(n, fk)] = dfsOut n fk := by
  have h := runWork_dfs_ents [(n, fk)] []
  simpa [entsOut, runWork_nil] using h

theorem collectQ_cons (x : Node × List Char) (q : List (Node × List Char)) :
    collectQ (x :: q) = collectValued x.1 x.2 ++ collectQ q := by
  simp [collectQ]

theorem collectQ_childEntries (ch : List Node) (fk : List Char) :
    collectQ (ch.map fun c => (c, fk ++ c.key)) = collectList ch fk := by
  induction ch with
  | nil => simp [collectQ, collectList]
  | cons c cs ih =>
    rw [List.map_cons, collectQ_cons, ih]
    simp [collectList]

theorem collectQ_append (a b : List (Node × List Char)) :
    collectQ (a ++ b) = collectQ a ++ collectQ b := by
  simp [collectQ]

theorem collectValued_eq (n : Node) (fk : List Char) :
    collectValued n fk = yieldOf (n, fk) ++ collectList n.children fk := by
  cases n
  rw [collectValued]
  simp

/-- Both work-list orders produce a permutation of the reference
enumeration of the queue's truthy-valued nodes. -/
theorem runWork_perm (order : IterOrder) (q : List (Node × List Char)) :
    (runWork order q).Perm (collectQ q) := by
  generalize hn : qSize q = N
  induction N using Nat.strong_induction_on generalizing q with
  | _ N ih =>
    cases order with
    | bfs =>
      cases hq : q with
      | nil => simp [runWork_nil, collectQ]
      | cons x rest =>
        subst hq
        rw [runWork_cons_bfs]
        have hlt : qSize (rest ++ childEntries x) < N := by
          rw [← hn, qSize_append, qSize_cons, qSize_childEntries]
          have := nodesSize_children_lt x.1
          omega
        have hperm := ih _ hlt (rest ++ childEntries x) rfl
        refine List.Perm.trans (hperm.append_left (yieldOf x)) ?_
        rw [collectQ_append,
          show collectQ (childEntries x) = collectList x.1.children x.2 from by
            rw [childEntries, collectQ_childEntries],
          collectQ_cons, collectValued_eq, List.append_assoc]
        exact (List.perm_append_comm).append_left _
    | dfs =>
      rcases List.eq_nil_or_concat q with hnil | ⟨q2, x, hx⟩
      · subst hnil
        simp [runWork_nil, collectQ]
      · subst hx
        rw [List.concat_eq_append] at hn ⊢
        rw [runWork_concat_dfs]
        have hlt : qSize (q2 ++ childEntries x) < N := by
          rw [← hn, qSize_append, qSize_append, qSize_cons, qSize_childEntries]
          have := nodesSize_children_lt x.1
          simp [qSize]
          omega
        have hperm := ih _ hlt (q2 ++ childEntries x) rfl
        refine List.Perm.trans (hperm.append_left (yieldOf x)) ?_
        rw [collectQ_append,
          show collectQ (childEntries x) = collectList x.1.children x.2 from by
            rw [childEntries, collectQ_childEntries],
          collectQ_append, collectQ_cons, collectValued_eq,
          show collectQ [] = [] from by simp [collectQ], List.append_nil,
          ← List.append_assoc, ← List.append_assoc]
        exact List.Perm.append List.perm_append_comm (List.Perm.refl _)

/-! ## Concrete tries used by the counterexamples and code-bug evaluations -/

/-- `set('ab', 1); set('abcde', 2); set('abcdf', 3)`: the root is `ab` (value
1), below it the branch node `cd` (no value) with leaf children `e` and `f`. -/
def trieC1 : Trie :=
  buildTrie false [(['a', 'b'], 1), (['a', 'b', 'c', 'd', 'e'], 2), (['a', 'b', 'c', 'd', 'f'], 3)]

/-- `set('ab', 1); set('abcd', 2)`: root `ab` (value 1) with one child `cd`. -/
def trieC3 : Trie := buildTrie false [(['a', 'b'], 1), (['a', 'b', 'c', 'd'], 2)]

def trieC5 : Trie := buildTrie true [(['a', 'b'], 1)]

def trieC5w : Trie := buildTrie true [(['a', '*', 'b'], 1)]

def trieC4a : Trie := buildTrie false [(['A', 'B'], 1), (['a', 'b'], 2)]

def trieC4b : Trie := buildTrie true [(['a', '*'], 1), (['a', 'b'], 2)]

/-- `set('a', 1); set('b', 2)`: a virtual empty-key root whose children are
the leaves `a` and `b`, in that insertion order. -/
def trieC6 : Trie := buildTrie false [(['a'], 1), (['b'], 2)]

/-- `set('a', 0)`: one value-bearing node whose value is falsy. -/
def trieC6f : Trie := buildTrie false [(['a'], 0)]

/-- C1: the code, with boundary mode disabled, fails on the window `abcx`
although the stored, value-bearing key `ab` is a prefix of the window's
content: the traversal's deepest node is the valueless branch `cd`, the
`value === null` guard fires before the fallback walk, and the search
returns absent instead of `('ab', 1)`. -/
theorem longestPrefix_misses_shorter_stored_key :
    findByLongestPrefixS trieC1 ['a', 'b', 'c', 'x'] false = Option.none ∧
    getS trieC1 ['a', 'b'] = some 1 ∧
    ['a', 'b'] <+: ['a', 'b', 'c', 'x'] ∧ truthy (some 1) = true := by
  refine ⟨?_, by decide, by decide, by decide⟩
  rw [findByLongestPrefixS, findByLongestPrefix]
  norm_num
  rfl

/-- C2: at the window `abcx` the traversal's deepest matched node is the
branch `cd` with no value, matched only on its first character (index 1 of a
2-character segment, i.e. the match fell short within the node's own
segment), and the valued ancestor `ab` exists — yet `findByLongestPrefix`
returns absent: the `value === null` guard precedes the fallback walk, so
the walk the claim describes never runs. -/
theorem longestPrefix_no_walk_when_value_null :
    ((findClosestMatchingNode trieC1 (keyAsPointer ['a', 'b', 'c', 'x'])).1.map
        (fun r => (r.node.value, r.mtch, r.node.key.length))) =
      some (Option.none, .prefixMatch 1, 2) ∧
    getS trieC1 ['a', 'b'] = some 1 ∧
    findByLongestPrefixS trieC1 ['a', 'b', 'c', 'x'] false = Option.none := by
  refine ⟨by decide, by decide, ?_⟩
  rw [findByLongestPrefixS, findByLongestPrefix]
  norm_num
  rfl

/-- C3: counterexample — on an exact match at a non-root node the traversal
returns with the pointer's `pos` advanced to 2, not restored to the entry
value 0 (the early return on a full child match skips the restore). -/
theorem fcmn_full_child_pos_not_restored :
    (findClosestMatchingNode trieC3 ⟨['a', 'b', 'c', 'd'], 0, 4⟩).2.pos = 2 ∧
    ((findClosestMatchingNode trieC3 ⟨['a', 'b', 'c', 'd'], 0, 4⟩).1.map
        ClosestResult.mtch) = some .full ∧
    (2 : Nat) ≠ 0 := by decide

/-- C3 (amended): the traversal never changes the window's `data` or
`posMax`, and restores `pos` on every return path — no result, a partial
result, or a full match at the root — except the early return on a full
match at a non-root node, where `pos` is left advanced. -/
theorem fcmn_pointer_frame :
    ∀ (t : Trie) (kp : KeyPointer),
      (findClosestMatchingNode t kp).2.data = kp.data ∧
      (findClosestMatchingNode t kp).2.posMax = kp.posMax ∧
      (∀ res, (findClosestMatchingNode t kp).1 = some res → res.mtch ≠ .full →
        (findClosestMatchingNode t kp).2.pos = kp.pos) ∧
      ((findClosestMatchingNode t kp).1 = Option.none →
        (findClosestMatchingNode t kp).2.pos = kp.pos) ∧
      (∀ res, (findClosestMatchingNode t kp).1 = some res → res.mtch = .full →
        res.path = [] → (findClosestMatchingNode t kp).2.pos = kp.pos) := by
  intro t kp
  obtain ⟨h1, h2, h3, h4⟩ := fcmn_frame t kp
  refine ⟨h2, h1, h3, h4, ?_⟩
  intro res hres hfull hpath
  cases h0 : t.root with
  | none => rw [findClosestMatchingNode] at hres; simp [h0] at hres
  | some r =>
    cases h1 : matchPrefix t.ce r.key kp with
    | noMatch => rw [findClosestMatchingNode] at hres; simp [h0, h1] at hres
    | full => simp [findClosestMatchingNode, h0, h1]
    | prefixMatch i =>
      obtain ⟨_, _, hplen, _⟩ := fcmnGo_frame t.ce r i { kp with pos := kp.pos + i } [] r.key i
      rw [findClosestMatchingNode] at hres
      simp only [h0, h1] at hres
      cases h2 : (fcmnGo t.ce r i { kp with pos := kp.pos + i } [] r.key i).1.mtch with
      | full =>
        simp only [h2] at hres
        cases hres
        have := hplen h2
        rw [hpath] at this
        simp at this
      | noMatch =>
        simp only [h2] at hres
        cases hres
        rw [h2] at hfull
        cases hfull
      | prefixMatch k =>
        simp only [h2] at hres
        cases hres
        rw [h2] at hfull
        cases hfull

/-- C3 witness: on a window whose content matches nothing of `trieC3`, the
traversal returns with `pos` unchanged. -/
theorem fcmn_pointer_frame_witness :
    (findClosestMatchingNode trieC3 (keyAsPointer ['z', 'z'])).2.pos = 0 :=
  (fcmn_pointer_frame trieC3 (keyAsPointer ['z', 'z'])).2.2.2.1 rfl

/-- C5: counterexample — a wildcard on the search side is not treated as
equal to a non-wildcard stored character (`charsEqual` tests only the stored
side against `'*'`), so `get('a*')` on a trie storing `ab` is absent. -/
theorem search_side_wildcard_not_equal :
    charsEqual true 'a' '*' = false ∧ charsEqual false 'a' '*' = false ∧
    getS trieC5 ['a', '*'] = Option.none := by decide

/-- C5 (amended): in the segment matcher's character comparison only the
stored-side character being the wildcard `'*'` makes the pair equal: a
stored wildcard matches any search character (during `get`/prefix search),
while a search-window wildcard matches only a stored wildcard. -/
theorem stored_wildcard_matches_any :
    (∀ (cs : Bool) (b : Char), charsEqual cs '*' b = true) ∧
    (∀ (cs : Bool) (a : Char), a ≠ '*' → charsEqual cs a '*' = false) ∧
    (∀ c : Char, getS trieC5w ['a', c, 'b'] = some 1) := by
  refine ⟨?_, ?_, ?_⟩
  · intro cs b
    cases cs <;> simp [charsEqual]
  · intro cs a h
    cases cs <;> simp [charsEqual, h]
  · intro c
    rfl

/-- C5 witness: the amended statement applied at concrete characters. -/
theorem stored_wildcard_matches_any_witness :
    charsEqual true '*' 'q' = true ∧ charsEqual false 'q' '*' = false ∧
    getS trieC5w ['a', 'q', 'b'] = some 1 :=
  ⟨stored_wildcard_matches_any.1 true 'q',
   stored_wildcard_matches_any.2.1 false 'q' (by decide),
   stored_wildcard_matches_any.2.2 'q'⟩

/-- C8: in the default case-insensitive mode lookups are insensitive to
letter case on both sides: `set("ABC", v); get("abc") = v` and
`set("abc", v); get("ABC") = v`, for every value `v` — the stored key is
lower-cased at insertion and matching lower-cases the search side. -/
theorem case_insensitive_both_sides :
    ∀ v : Nat, getS (set (mkTrie false) ['A', 'B', 'C'] v) ['a', 'b', 'c'] = some v ∧
      getS (set (mkTrie false) ['a', 'b', 'c'] v) ['A', 'B', 'C'] = some v := by
  intro v
  exact ⟨rfl, rfl⟩

/-- C4: counterexample — two sequences of `set` calls with pairwise distinct
keys for which `get` does not return the most recently set value of the key:
`AB`/`ab` collide after default case folding, and `a*`/`ab` collide through
the stored wildcard (a full match overwrites the wildcard node's value). -/
theorem set_get_distinct_key_collisions :
    getS trieC4a ['A', 'B'] = some 2 ∧ getS trieC4b ['a', '*'] = some 2 ∧
    (2 : Nat) ≠ 1 := by decide

/-- C6: counterexample — with children inserted in the order `a`, `b`, the
`dfs` order yields the later-inserted sibling's subtree first
(`[('b',2), ('a',1)]`), because `q.pop()` takes from the back of the work
list; `bfs` does follow insertion order.  Additionally, a value-bearing node
whose value is falsy (0) is skipped entirely, so "each value-bearing node
exactly once" holds only for truthy values. -/
theorem iterate_dfs_reverses_siblings :
    iterate trieC6 Option.none .dfs = [(['b'], 2), (['a'], 1)] ∧
    iterate trieC6 Option.none .bfs = [(['a'], 1), (['b'], 2)] ∧
    (trieC6.root.map fun r => r.children.map Node.key) = some [['a'], ['b']] ∧
    iterate trieC6f Option.none .bfs = [] ∧
    (trieC6f.root.map fun r => r.value) = some (some 0) := by
  refine ⟨?_, ?_, by decide, ?_, by decide⟩
  · rw [show iterate trieC6 Option.none IterOrder.dfs =
        runWork .dfs [(Node.mk [] Option.none
          [Node.mk ['a'] (some 1) [], Node.mk ['b'] (some 2) []], [])] from rfl,
      runWork_dfs_out]
    decide
  · rw [show iterate trieC6 Option.none IterOrder.bfs =
        runWork .bfs [(Node.mk [] Option.none
          [Node.mk ['a'] (some 1) [], Node.mk ['b'] (some 2) []], [])] from rfl]
    simp [runWork_cons_bfs, runWork_nil, childEntries, yieldOf]
  · rw [show iterate trieC6f Option.none IterOrder.bfs =
        runWork .bfs [(Node.mk ['a'] (some 0) [], ['a'])] from rfl]
    simp [runWork_cons_bfs, runWork_nil, childEntries, yieldOf]

/-- C6 (amended): for every trie, both orders of `iterate` yield the
`(fullKey, value)` pair of each truthy-valued node exactly once — each is a
permutation of the reference enumeration `collectValued`, so the two orders
agree as multisets and differ only in sequence; `bfs` is level order with
the entries of each level (hence siblings) in children-insertion order,
while `dfs` yields a node's pair before its descendants with the sibling
subtrees in reverse insertion order. -/
theorem iterate_orders_characterized :
    ∀ (t : Trie),
      (t.root = Option.none →
        iterate t Option.none .bfs = [] ∧ iterate t Option.none .dfs = []) ∧
      ∀ r, t.root = some r →
        (iterate t Option.none .bfs).Perm (collectValued r r.key) ∧
        (iterate t Option.none .dfs).Perm (collectValued r r.key) ∧
        iterate t Option.none .dfs = dfsOut r r.key ∧
        iterate t Option.none .bfs = bfsLevels [(r, r.key)] := by
  intro t
  constructor
  · intro h
    constructor <;> simp [iterate, h]
  · intro r h
    have hbase : iterate t Option.none .bfs = runWork .bfs [(r, r.key)] := by
      simp [iterate, h]
    have hbased : iterate t Option.none .dfs = runWork .dfs [(r, r.key)] := by
      simp [iterate, h]
    refine ⟨?_, ?_, ?_, ?_⟩
    · rw [hbase]
      simpa [collectQ] using runWork_perm .bfs [(r, r.key)]
    · rw [hbased]
      simpa [collectQ] using runWork_perm .dfs [(r, r.key)]
    · rw [hbased, runWork_dfs_out]
    · rw [hbase, runWork_bfs_levels]

/-- C6 witness: the characterization applied to a concrete two-leaf trie. -/
theorem iterate_orders_characterized_witness :
    iterate trieC6 Option.none .dfs =
      dfsOut (Node.mk [] Option.none
        [Node.mk ['a'] (some 1) [], Node.mk ['b'] (some 2) []]) [] :=
  ((iterate_orders_characterized trieC6).2 _ rfl).2.2.1

/-- A candidate result leaves the search pointer either restored
(`pos` unchanged) or — only on a full match, which consumed the window
exactly (`pos + |fullKey| = posMax`) — advanced. -/
theorem longestPrefixCandidate_pos (t : Trie) (kp : KeyPointer) (fv : List Char × Nat)
    (h : (longestPrefixCandidate t kp).1 = some fv) :
    ((findClosestMatchingNode t kp).2.pos = kp.pos) ∨
    (kp.pos + fv.1.length = kp.posMax ∧ kp.pos ≤ (findClosestMatchingNode t kp).2.pos) := by
  unfold longestPrefixCandidate at h
  cases hres : (findClosestMatchingNode t kp).1 with
  | none => simp [hres] at h
  | some res =>
    simp only [hres] at h
    by_cases hnm : res.mtch = .noMatch
    · simp [hnm] at h
    · rw [if_neg hnm] at h
      cases hval : res.node.value with
      | none => simp [hval] at h
      | some v =>
        simp only [hval] at h
        by_cases hw : res.mtch ≠ .full ∧ res.mtch.index ≠ res.node.key.length
        · left
          exact (fcmn_frame t kp).2.2.1 res hres hw.1
        · rw [if_neg hw] at h
          by_cases hfull : res.mtch = .full
          · right
            have hc := fcmn_full_consumed t kp res hres hfull
            injection h with h'
            constructor
            · rw [← h']
              exact hc.1
            · exact hc.2
          · left
            exact (fcmn_frame t kp).2.2.1 res hres hfull

/-- C7: with `wordBoundaryOnly` enabled, `findByLongestPrefix` equals the
boundary-filtered search: it computes the same candidate as a plain pass
(traversal, guards and fallback walk); whenever the position in the data
buffer immediately after the matched prefix — `pos + keyLen` computed from
the caller's window — lies before the window's end and holds an ASCII
letter, the candidate is rejected and the whole search is retried
recursively on the window narrowed to `posMax = pos + keyLen - 1`,
returning absent when the shrinking retries exhaust; otherwise the
candidate is returned (subject to the final truthiness check).  The
statement uses the caller's `pos`/`posMax`/`data`, which shows the check is
unaffected by the pointer state the traversal leaves behind. -/
theorem boundary_retry_characterization :
    ∀ (t : Trie) (kp : KeyPointer),
      findByLongestPrefix t kp true =
        match (longestPrefixCandidate t kp).1 with
        | Option.none => Option.none
        | some fv =>
          if kp.pos + fv.1.length < kp.posMax ∧
              isNonBoundary kp.data (kp.pos + fv.1.length) = true then
            findByLongestPrefix t ⟨kp.data, kp.pos, kp.pos + fv.1.length - 1⟩ true
          else if fv.2 != 0 then some fv else Option.none := by
  intro t kp
  cases hc : (longestPrefixCandidate t kp).1 with
  | none =>
    rw [findByLongestPrefix.eq_def]
    simp [hc]
  | some fv =>
    obtain ⟨hpm, hdata, _, _⟩ := fcmn_frame t kp
    rcases longestPrefixCandidate_pos t kp fv hc with hsame | ⟨hfull1, hfull2⟩
    · rw [findByLongestPrefix.eq_def]
      simp only [hc, longestPrefixCandidate_snd, hsame, hdata, hpm, if_true]
      exact dite_eq_ite
    · have hcondR : ¬(kp.pos + fv.1.length < kp.posMax ∧
          isNonBoundary kp.data (kp.pos + fv.1.length) = true) := by
        intro hcon
        have := hcon.1
        omega
      have hcondL : ¬((findClosestMatchingNode t kp).2.pos + fv.1.length <
            (findClosestMatchingNode t kp).2.posMax ∧
          isNonBoundary (findClosestMatchingNode t kp).2.data
            ((findClosestMatchingNode t kp).2.pos + fv.1.length) = true) := by
        intro hcon
        have h1 := hcon.1
        rw [hpm] at h1
        omega
      rw [findByLongestPrefix.eq_def]
      simp only [hc, longestPrefixCandidate_snd, if_true]
      rw [dif_neg hcondL, if_neg hcondR]

/-! ## A list-level restatement of the segment matcher

`matchL ce pre s` is `matchPrefix` applied to a window whose remaining
content is the list `s`; the content bridge below identifies the two on
well-formed windows.  All reasoning about `set`/`get` happens at this
level. -/

def matchLGo (ce : Char → Char → Bool) (pre : List Char) : Nat → List Char → MatchType
  | index, [] => if index = pre.length then .full else .prefixMatch index
  | index, b :: s =>
      if pre.length ≤ index ∨ ce (pre.getD index ' ') b = false then
        if 0 < index ∨ pre.length = 0 then .prefixMatch index else .noMatch
      else matchLGo ce pre (index+1) s

def matchL (ce : Char → Char → Bool) (pre s : List Char) : MatchType :=
  matchLGo ce pre 0 s

/-- The content bridge at the loop level: when the window is well formed,
each remaining iteration consumes one character of the remaining content. -/
theorem matchPrefixGo_eq_matchLGo (ce : Char → Char → Bool) (pre : List Char)
    (kp : KeyPointer) :
    ∀ (rem index : Nat), rem = kp.posMax - (kp.pos + index) →
      kp.pos + index ≤ kp.posMax → kp.posMax ≤ kp.data.length →
      matchPrefixGo ce pre kp index rem =
        matchLGo ce pre index ((kp.data.drop (kp.pos + index)).take rem) := by
  intro rem
  induction rem with
  | zero =>
    intro index hrem hle hmax
    have hpos : kp.pos + index = kp.posMax := by omega
    simp only [matchPrefixGo, List.take_zero, matchLGo, hpos]
    simp
  | succ m ih =>
    intro index hrem hle hmax
    have hlt : kp.pos + index < kp.data.length := by omega
    have hdrop := List.drop_eq_getElem_cons hlt
    rw [hdrop, List.take_succ_cons]
    simp only [matchPrefixGo, matchLGo]
    have hget := List.getD_eq_getElem kp.data ' ' hlt
    rw [hget]
    split
    · rfl
    · rw [ih (index + 1) (by omega) (by omega) hmax]
      have : kp.pos + (index + 1) = kp.pos + index + 1 := by omega
      rw [this]

/-- The content bridge: on a well-formed window, `matchPrefix` is `matchL`
on the window's content. -/
theorem matchPrefix_eq_matchL (ce : Char → Char → Bool) (pre : List Char)
    (kp : KeyPointer) (hle : kp.pos ≤ kp.posMax) (hmax : kp.posMax ≤ kp.data.length) :
    matchPrefix ce pre kp =
      matchL ce pre ((kp.data.drop kp.pos).take (kp.posMax - kp.pos)) := by
  rw [matchPrefix, matchL,
    matchPrefixGo_eq_matchLGo ce pre kp (kp.posMax - kp.pos) 0 (by omega) (by omega) hmax]
  simp

/-- A prefix match's index is bounded by both the segment length and the
content length (the loop is entered with `index ≤ pre.length` and only
advances while that is strict). -/
theorem matchLGo_prefixMatch_le (ce : Char → Char → Bool) (pre : List Char) :
    ∀ (s : List Char) (index i : Nat), index ≤ pre.length →
      matchLGo ce pre index s = .prefixMatch i →
      index ≤ i ∧ i ≤ pre.length ∧ i ≤ index + s.length := by
  intro s
  induction s with
  | nil =>
    intro index i hidx h
    simp only [matchLGo] at h
    split at h
    · cases h
    · cases h
      omega
  | cons b s ih =>
    intro index i hidx h
    simp only [matchLGo] at h
    split at h
    next hstop =>
      split at h
      · injection h with h2
        subst h2
        exact ⟨le_refl _, hidx, by omega⟩
      · cases h
    next hcont =>
      push_neg at hcont
      have := ih (index + 1) i (by omega) h
      refine ⟨by omega, this.2.1, by simp only [List.length_cons]; omega⟩

theorem matchL_prefixMatch_le (ce : Char → Char → Bool) (pre s : List Char) (i : Nat)
    (h : matchL ce pre s = .prefixMatch i) : i ≤ pre.length ∧ i ≤ s.length := by
  have := matchLGo_prefixMatch_le ce pre s 0 i (by omega) h
  exact ⟨this.2.1, by omega⟩

/-! ## The recursive models of lookup and insertion

`lookupGo`/`lookupScan` replay exactly the traversal-plus-full-check that
`get` performs, and `insertGo`/`insertScan`/`setM` replay the
traversal-plus-edit that `set` performs, but as plain structural recursion
over the tree and the remaining key content.  The bridge theorems below
prove them equal to the operational definitions. -/

mutual

def lookupGo (ce : Char → Char → Bool) : Node → List Char → Option Nat
  | .mk k v ch, s =>
    match matchL ce k s with
    | .full => v
    | .noMatch => Option.none
    | .prefixMatch i =>
      if i = k.length then lookupScan ce ch (s.drop i)
      else Option.none

def lookupScan (ce : Char → Char → Bool) : List Node → List Char → Option Nat
  | [], _ => Option.none
  | c :: cs, s =>
    match matchL ce c.key s with
    | .noMatch => lookupScan ce cs s
    | _ => lookupGo ce c s

end

/-- The root wrapper of the lookup model. -/
def lookupM (ce : Char → Char → Bool) (t : Option Node) (s : List Char) : Option Nat :=
  match t with
  | Option.none => Option.none
  | some r =>
    match matchL ce r.key s with
    | .noMatch => Option.none
    | _ => lookupGo ce r s

mutual

def insertGo (ce : Char → Char → Bool) (v : Nat) : Node → List Char → Node
  | .mk k nv ch, s =>
    match matchL ce k s with
    | .full => .mk k (some v) ch
    | .noMatch => .mk k nv ch
    | .prefixMatch i =>
      if i = k.length then
        match insertScan ce v ch (s.drop i) with
        | some ch2 => .mk k nv ch2
        | Option.none => .mk k nv (ch ++ [.mk (s.drop i) (some v) []])
      else
        if i = s.length then
          .mk (k.take i) (some v) [.mk (k.drop i) nv ch]
        else
          .mk (k.take i) Option.none
            [.mk (k.drop i) nv ch, .mk (s.drop i) (some v) []]

def insertScan (ce : Char → Char → Bool) (v : Nat) : List Node → List Char → Option (List Node)
  | [], _ => Option.none
  | c :: cs, s =>
    match matchL ce c.key s with
    | .noMatch => (insertScan ce v cs s).map (c :: ·)
    | _ => some (insertGo ce v c s :: cs)

end

/-- The root wrapper of the insertion model. -/
def setM (ce : Char → Char → Bool) (t : Option Node) (s : List Char) (v : Nat) : Option Node :=
  match t with
  | Option.none => some (.mk s (some v) [])
  | some r =>
    match matchL ce r.key s with
    | .noMatch => some (.mk [] Option.none [r, .mk s (some v) []])
    | _ => some (insertGo ce v r s)

theorem lookupGo_eq (ce : Char → Char → Bool) (n : Node) (s : List Char) :
    lookupGo ce n s =
      match matchL ce n.key s with
      | .full => n.value
      | .noMatch => Option.none
      | .prefixMatch i =>
        if i = n.key.length then lookupScan ce n.children (s.drop i)
        else Option.none := by
  cases n
  rw [lookupGo]
  rfl

theorem insertGo_eq (ce : Char → Char → Bool) (v : Nat) (n : Node) (s : List Char) :
    insertGo ce v n s =
      match matchL ce n.key s with
      | .full => .mk n.key (some v) n.children
      | .noMatch => n
      | .prefixMatch i =>
        if i = n.key.length then
          match insertScan ce v n.children (s.drop i) with
          | some ch => .mk n.key n.value ch
          | Option.none => .mk n.key n.value (n.children ++ [.mk (s.drop i) (some v) []])
        else
          if i = s.length then
            .mk (n.key.take i) (some v) [.mk (n.key.drop i) n.value n.children]
          else
            .mk (n.key.take i) Option.none
              [.mk (n.key.drop i) n.value n.children, .mk (s.drop i) (some v) []] := by
  cases n
  rw [insertGo]
  rfl

theorem updateAt_nil (f : Node → Node) (n : Node) : updateAt f n [] = f n := rfl

theorem updateAt_cons (f : Node → Node) (k : List Char) (v : Option Nat)
    (ch : List Node) (j : Nat) (p : List Nat) :
    updateAt f (.mk k v ch) (j :: p) = .mk k v (ch.set j (updateAt f (ch.getD j default) p)) := rfl

/-- A prefix match that consumed the whole content cannot also have consumed
the whole segment (that would be a full match). -/
theorem matchLGo_prefixMatch_ne (ce : Char → Char → Bool) (pre : List Char) :
    ∀ (s : List Char) (index i : Nat), matchLGo ce pre index s = .prefixMatch i →
      i = index + s.length → i ≠ pre.length := by
  intro s
  induction s with
  | nil =>
    intro index i h hlen
    simp only [matchLGo] at h
    split at h
    · cases h
    next hc =>
      injection h with h2
      subst h2
      intro hcon
      exact hc hcon
  | cons b s ih =>
    intro index i h hlen
    simp only [matchLGo] at h
    split at h
    · split at h
      · injection h with h2
        subst h2
        simp only [List.length_cons] at hlen
        omega
      · cases h
    · exact ih (index + 1) i h (by simp only [List.length_cons] at hlen ⊢; omega)

theorem matchL_prefixMatch_ne (ce : Char → Char → Bool) (pre s : List Char) (i : Nat)
    (h : matchL ce pre s = .prefixMatch i) (hlen : i = s.length) : i ≠ pre.length :=
  matchLGo_prefixMatch_ne ce pre s 0 i h (by omega)

/-- On a full-range window (`posMax = data.length`), the remaining content
is just `data.drop pos`. -/
theorem matchPrefix_full_range (ce : Char → Char → Bool) (pre : List Char)
    (kp : KeyPointer) (hmax : kp.posMax = kp.data.length) (hle : kp.pos ≤ kp.posMax) :
    matchPrefix ce pre kp = matchL ce pre (kp.data.drop kp.pos) := by
  rw [matchPrefix_eq_matchL ce pre kp hle (by omega)]
  congr 1
  apply List.take_of_length_le
  simp
  omega

/-! ## The bridge from `set` to the recursive insertion model -/

/-- The bridge invariant for `fcmnGo`, stated for the fresh full-range
pointers `set` uses: `sumIndex` equals the window position, the node's
segment matched `prefixMatch i` on the content starting where the segment
started (`pos - i`), and then replacing the subtree at the result's path by
`setEdit` is exactly the recursive insertion at this node. -/
def SetGoProp (ce : Char → Char → Bool) (v : Nat) (n : Node) (i : Nat) (kp : KeyPointer)
    (path : List Nat) (fullKey : List Char) (sumIndex : Nat) : Prop :=
  kp.posMax = kp.data.length → i ≤ kp.pos → kp.pos ≤ kp.posMax → sumIndex = kp.pos →
  matchL ce n.key (kp.data.drop (kp.pos - i)) = .prefixMatch i →
  path <+: (fcmnGo ce n i kp path fullKey sumIndex).1.path ∧
  updateAt (setEdit kp.data v (fcmnGo ce n i kp path fullKey sumIndex).1) n
      ((fcmnGo ce n i kp path fullKey sumIndex).1.path.drop path.length) =
    insertGo ce v n (kp.data.drop (kp.pos - i))

/-- The bridge invariant for the children scan. -/
def SetScanProp (ce : Char → Char → Bool) (v : Nat) (n : Node) (i : Nat) (kp : KeyPointer)
    (path : List Nat) (fullKey : List Char) (sumIndex : Nat)
    (l : List Node) (j : Nat) : Prop :=
  kp.posMax = kp.data.length → kp.pos ≤ kp.posMax → sumIndex = kp.pos →
  (insertScan ce v l (kp.data.drop kp.pos) = Option.none ∧
    (fcmnScan ce n i kp path fullKey sumIndex l j).1 =
      ⟨n, path, .prefixMatch i, fullKey, sumIndex⟩) ∨
  (∃ idx rel, (fcmnScan ce n i kp path fullKey sumIndex l j).1.path = path ++ (j + idx) :: rel ∧
    insertScan ce v l (kp.data.drop kp.pos) =
      some (l.set idx (updateAt
        (setEdit kp.data v (fcmnScan ce n i kp path fullKey sumIndex l j).1)
        (l.getD idx default) rel)))

theorem insertScan_cons (ce : Char → Char → Bool) (v : Nat) (c : Node) (cs : List Node)
    (s : List Char) :
    insertScan ce v (c :: cs) s =
      match matchL ce c.key s with
      | .noMatch => (insertScan ce v cs s).map (c :: ·)
      | _ => some (insertGo ce v c s :: cs) := by
  rw [insertScan]

theorem lookupScan_cons (ce : Char → Char → Bool) (c : Node) (cs : List Node)
    (s : List Char) :
    lookupScan ce (c :: cs) s =
      match matchL ce c.key s with
      | .noMatch => lookupScan ce cs s
      | _ => lookupGo ce c s := by
  rw [lookupScan]

theorem setGo_bridge (ce : Char → Char → Bool) (v : Nat) :
    ∀ (n : Node) (i : Nat) (kp : KeyPointer) (path : List Nat)
      (fullKey : List Char) (sumIndex : Nat),
      SetGoProp ce v n i kp path fullKey sumIndex := by
  refine fcmnGo.induct ce (SetGoProp ce v) (SetScanProp ce v) ?_ ?_ ?_ ?_ ?_ ?_
  · -- the loop continues: i consumed the whole segment, scan the children
    intro kp path fullKey sumIndex k nv ch ih
    unfold SetGoProp
    intro hmax hile hpos hsum hmatch
    simp only [Node.key_mk] at hmatch
    rw [fcmnGo_eq_scan]
    have hdd : (kp.data.drop (kp.pos - k.length)).drop k.length = kp.data.drop kp.pos := by
      rw [List.drop_drop]
      congr 1
      omega
    have hslen : (kp.data.drop (kp.pos - k.length)).length =
        kp.data.length - (kp.pos - k.length) := by simp
    rcases ih hmax hpos hsum with ⟨hnone, hres⟩ | ⟨idx, rel, hpath, hsome⟩
    · constructor
      · rw [hres]
      · rw [hres]
        have hds : path.drop path.length = [] := by simp
        rw [hds, updateAt_nil]
        have hne1 : k.length ≠ kp.data.length := by
          intro hcon
          have hb := matchL_prefixMatch_le ce k _ _ hmatch
          have : k.length = (kp.data.drop (kp.pos - k.length)).length := by omega
          exact matchL_prefixMatch_ne ce k _ _ hmatch this rfl
        rw [insertGo_eq]
        simp only [Node.key_mk, Node.value_mk, Node.children_mk, hmatch]
        rw [if_true, hdd, hnone]
        simp only [setEdit, if_neg hne1]
        rw [if_neg (by simp)]
        rw [hsum]
        rfl
    · constructor
      · rw [hpath]
        exact ⟨_, rfl⟩
      · rw [hpath]
        have hdl : (path ++ (0 + idx) :: rel).drop path.length = (0 + idx) :: rel :=
          List.drop_left path _
        rw [hdl, updateAt_cons, insertGo_eq]
        simp only [Node.key_mk, Node.value_mk, Node.children_mk, hmatch]
        rw [if_true, hdd, hsome]
        simp only [Nat.zero_add]
  · -- the loop stops inside the segment: i < key length
    intro i kp path fullKey sumIndex k nv ch hne
    unfold SetGoProp
    intro hmax hile hpos hsum hmatch
    simp only [Node.key_mk] at hmatch
    rw [fcmnGo_eq_stop ce k nv ch i kp path fullKey sumIndex hne]
    refine ⟨List.prefix_refl _, ?_⟩
    have hds : path.drop path.length = [] := by simp
    simp only [hds, updateAt_nil]
    have hb := matchL_prefixMatch_le ce k _ _ hmatch
    have hik : i < k.length := lt_of_le_of_ne hb.1 hne
    have hslen : (kp.data.drop (kp.pos - i)).length = kp.data.length - (kp.pos - i) := by simp
    rw [insertGo_eq]
    simp only [Node.key_mk, Node.value_mk, Node.children_mk, hmatch]
    rw [if_neg hne]
    by_cases hid : i = kp.data.length
    · -- insert a parent node: the whole new key was consumed
      have hpi : kp.pos = i := by omega
      have hsl : i = (kp.data.drop (kp.pos - i)).length := by omega
      simp only [setEdit, Node.key_mk, if_pos hid]
      rw [if_pos hsl]
      rfl
    · -- split the node
      simp only [setEdit, Node.key_mk, if_neg hid]
      rw [if_pos hik]
      by_cases hex : kp.pos = kp.data.length
      · simp only [if_pos (show sumIndex = kp.data.length by omega),
          if_pos (show i = (kp.data.drop (kp.pos - i)).length by omega)]
        rfl
      · simp only [if_neg (show ¬sumIndex = kp.data.length by omega),
          if_neg (show ¬i = (kp.data.drop (kp.pos - i)).length by omega)]
        have hdr : kp.data.drop sumIndex = (kp.data.drop (kp.pos - i)).drop i := by
          rw [List.drop_drop]
          congr 1
          omega
        rw [hdr]
        rfl
  · -- scan exhausted
    intro n i kp path fullKey sumIndex x
    unfold SetScanProp
    intro hmax hpos hsum
    left
    rw [fcmnScan_nil]
    exact ⟨rfl, rfl⟩
  · -- full match at a child: overwrite in place
    intro n i kp path fullKey sumIndex c cs j hm
    unfold SetScanProp
    intro hmax hpos hsum
    right
    have hml : matchL ce c.key (kp.data.drop kp.pos) = .full := by
      rw [← matchPrefix_full_range ce c.key kp hmax hpos]
      exact hm
    refine ⟨0, [], ?_, ?_⟩
    · rw [fcmnScan_cons_full ce n i kp path fullKey sumIndex c cs j hm]
      simp
    · rw [insertScan_cons, hml, fcmnScan_cons_full ce n i kp path fullKey sumIndex c cs j hm]
      simp only [List.set_cons_zero, List.getD_cons_zero, updateAt_nil]
      cases c with
      | mk ck cv cch =>
        rw [insertGo_eq]
        simp only [Node.key_mk] at hml
        simp only [Node.key_mk, Node.value_mk, Node.children_mk, hml]
        rfl
  · -- prefix match at a child: descend
    intro n i kp path fullKey sumIndex c cs j jIdx hm ih
    unfold SetScanProp
    intro hmax hpos hsum
    right
    have hml : matchL ce c.key (kp.data.drop kp.pos) = .prefixMatch jIdx := by
      rw [← matchPrefix_full_range ce c.key kp hmax hpos]
      exact hm
    have hb := matchL_prefixMatch_le ce c.key _ _ hml
    have hjle : kp.pos + jIdx ≤ kp.posMax := by
      have : (kp.data.drop kp.pos).length = kp.data.length - kp.pos := by simp
      omega
    unfold SetGoProp at ih
    have hGo := ih hmax (by simp; try omega) (by simpa using hjle)
      (by simp [hsum]) (by simpa using hml)
    obtain ⟨hpre, hupd⟩ := hGo
    obtain ⟨rel, hrel⟩ := hpre
    rw [fcmnScan_cons_prefixM ce n i kp path fullKey sumIndex c cs j jIdx hm]
    refine ⟨0, rel, ?_, ?_⟩
    · rw [← hrel]
      simp
    · rw [insertScan_cons, hml]
      simp only [List.set_cons_zero, List.getD_cons_zero]
      have hdl : (fcmnGo ce c jIdx { kp with pos := kp.pos + jIdx }
          (path ++ [j]) (fullKey ++ c.key) (sumIndex + jIdx)).1.path.drop (path ++ [j]).length
          = rel := by
        rw [← hrel, List.drop_left]
      rw [hdl] at hupd
      rw [hupd]
      simp
  · -- no match at this child: move to the next sibling
    intro n i kp path fullKey sumIndex c cs j hm ih
    unfold SetScanProp
    intro hmax hpos hsum
    have hml : matchL ce c.key (kp.data.drop kp.pos) = .noMatch := by
      rw [← matchPrefix_full_range ce c.key kp hmax hpos]
      exact hm
    rw [fcmnScan_cons_none ce n i kp path fullKey sumIndex c cs j hm, insertScan_cons, hml]
    rcases ih hmax hpos hsum with ⟨hn, hres⟩ | ⟨idx, rel, hpath, hsome⟩
    · left
      rw [hn, hres]
      exact ⟨rfl, rfl⟩
    · right
      refine ⟨idx + 1, rel, ?_, ?_⟩
      · rw [hpath]
        have : j + 1 + idx = j + (idx + 1) := by omega
        rw [this]
      · rw [hsome]
        simp

/-! ## The top-level bridges: `set` to `setM`, `get` to `lookupM` -/

/-- The key actually stored and searched: folded to lower case unless the
map is case-sensitive (`set`'s and `get`'s `keyString`). -/
def foldK (caseSensitive : Bool) (key : List Char) : List Char :=
  if caseSensitive then key else key.map Char.toLower

theorem fcmn_fst_none (t : Trie) (kp : KeyPointer) (r : Node)
    (hr : t.root = some r) (hm : matchPrefix t.ce r.key kp = .noMatch) :
    (findClosestMatchingNode t kp).1 = Option.none := by
  unfold findClosestMatchingNode
  rw [hr]
  simp only [hm]

theorem fcmn_fst_full (t : Trie) (kp : KeyPointer) (r : Node)
    (hr : t.root = some r) (hm : matchPrefix t.ce r.key kp = .full) :
    (findClosestMatchingNode t kp).1 = some ⟨r, [], .full, r.key, 0⟩ := by
  unfold findClosestMatchingNode
  rw [hr]
  simp only [hm]

theorem fcmn_fst_prefixM (t : Trie) (kp : KeyPointer) (r : Node) (i : Nat)
    (hr : t.root = some r) (hm : matchPrefix t.ce r.key kp = .prefixMatch i) :
    (findClosestMatchingNode t kp).1 =
      some (fcmnGo t.ce r i { kp with pos := kp.pos + i } [] r.key i).1 := by
  unfold findClosestMatchingNode
  rw [hr]
  simp only [hm]
  cases hmt : (fcmnGo t.ce r i { kp with pos := kp.pos + i } [] r.key i).1.mtch <;>
    simp [hmt]

/-- `set` computes exactly the recursive insertion model `setM` on the
folded key. -/
theorem set_eq_setM (t : Trie) (key : List Char) (v : Nat) :
    (set t key v).root = setM t.ce t.root (foldK t.caseSensitive key) v := by
  have hks : (if t.caseSensitive then key else key.map Char.toLower)
      = foldK t.caseSensitive key := rfl
  cases hr : t.root with
  | none =>
    simp only [set, setM, hr, hks]
  | some r =>
    have hmp : matchPrefix t.ce r.key (keyAsPointer (foldK t.caseSensitive key))
        = matchL t.ce r.key (foldK t.caseSensitive key) := by
      rw [matchPrefix_full_range t.ce r.key _ rfl (Nat.zero_le _)]
      simp [keyAsPointer]
    simp only [set, setM, hr, hks]
    cases hml : matchL t.ce r.key (foldK t.caseSensitive key) with
    | noMatch =>
      rw [fcmn_fst_none t _ r hr (by rw [hmp, hml])]
    | full =>
      rw [fcmn_fst_full t _ r hr (by rw [hmp, hml]), insertGo_eq, hml]
      rfl
    | prefixMatch i =>
      have hle : i ≤ (foldK t.caseSensitive key).length :=
        (matchL_prefixMatch_le t.ce r.key _ i hml).2
      rw [fcmn_fst_prefixM t _ r i hr (by rw [hmp, hml])]
      dsimp only
      have hbr := setGo_bridge t.ce v r i
        { keyAsPointer (foldK t.caseSensitive key) with
          pos := (keyAsPointer (foldK t.caseSensitive key)).pos + i } [] r.key i
        rfl (by simp [keyAsPointer]) (by simp [keyAsPointer]; omega)
        (by simp [keyAsPointer]) (by simp [keyAsPointer]; exact hml)
      obtain ⟨hpre, hupd⟩ := hbr
      simp only [keyAsPointer, List.length_nil, List.drop_zero, Nat.zero_add,
        Nat.add_sub_cancel, Nat.sub_self] at hupd
      simp only [keyAsPointer, Nat.zero_add]
      rw [hupd]

/-- The value `get` extracts from a traversal result. -/
def gv (res : ClosestResult) : Option Nat :=
  if res.mtch = .full then res.node.value else Option.none

/-- The lookup bridge invariant for `fcmnGo`. -/
def LookupGoProp (ce : Char → Char → Bool) (n : Node) (i : Nat) (kp : KeyPointer)
    (path : List Nat) (fullKey : List Char) (sumIndex : Nat) : Prop :=
  kp.posMax = kp.data.length → i ≤ kp.pos → kp.pos ≤ kp.posMax →
  matchL ce n.key (kp.data.drop (kp.pos - i)) = .prefixMatch i →
  gv (fcmnGo ce n i kp path fullKey sumIndex).1 = lookupGo ce n (kp.data.drop (kp.pos - i))

/-- The lookup bridge invariant for the children scan. -/
def LookupScanProp (ce : Char → Char → Bool) (n : Node) (i : Nat) (kp : KeyPointer)
    (path : List Nat) (fullKey : List Char) (sumIndex : Nat)
    (l : List Node) (j : Nat) : Prop :=
  kp.posMax = kp.data.length → kp.pos ≤ kp.posMax →
  gv (fcmnScan ce n i kp path fullKey sumIndex l j).1 = lookupScan ce l (kp.data.drop kp.pos)

theorem lookupGo_bridge (ce : Char → Char → Bool) :
    ∀ (n : Node) (i : Nat) (kp : KeyPointer) (path : List Nat)
      (fullKey : List Char) (sumIndex : Nat),
      LookupGoProp ce n i kp path fullKey sumIndex := by
  refine fcmnGo.induct ce (LookupGoProp ce) (LookupScanProp ce) ?_ ?_ ?_ ?_ ?_ ?_
  · -- the loop continues: i consumed the whole segment, scan the children
    intro kp path fullKey sumIndex k nv ch ih
    unfold LookupGoProp
    intro hmax hile hpos hmatch
    simp only [Node.key_mk] at hmatch
    rw [fcmnGo_eq_scan]
    have hdd : (kp.data.drop (kp.pos - k.length)).drop k.length = kp.data.drop kp.pos := by
      rw [List.drop_drop]
      congr 1
      omega
    rw [lookupGo_eq]
    simp only [Node.key_mk, Node.children_mk, hmatch]
    rw [if_true, hdd]
    exact ih hmax hpos
  · -- the loop stops inside the segment: i < key length
    intro i kp path fullKey sumIndex k nv ch hne
    unfold LookupGoProp
    intro hmax hile hpos hmatch
    simp only [Node.key_mk] at hmatch
    rw [fcmnGo_eq_stop ce k nv ch i kp path fullKey sumIndex hne]
    rw [lookupGo_eq]
    simp only [Node.key_mk, hmatch]
    rw [if_neg hne]
    rfl
  · -- scan exhausted
    intro n i kp path fullKey sumIndex x
    unfold LookupScanProp
    intro hmax hpos
    rw [fcmnScan_nil]
    rfl
  · -- full match at a child
    intro n i kp path fullKey sumIndex c cs j hm
    unfold LookupScanProp
    intro hmax hpos
    have hml : matchL ce c.key (kp.data.drop kp.pos) = .full := by
      rw [← matchPrefix_full_range ce c.key kp hmax hpos]
      exact hm
    rw [fcmnScan_cons_full ce n i kp path fullKey sumIndex c cs j hm, lookupScan_cons]
    simp only [hml]
    rw [lookupGo_eq]
    simp only [hml]
    rfl
  · -- prefix match at a child: descend
    intro n i kp path fullKey sumIndex c cs j jIdx hm ih
    unfold LookupScanProp
    intro hmax hpos
    have hml : matchL ce c.key (kp.data.drop kp.pos) = .prefixMatch jIdx := by
      rw [← matchPrefix_full_range ce c.key kp hmax hpos]
      exact hm
    have hb := matchL_prefixMatch_le ce c.key _ _ hml
    have hjle : kp.pos + jIdx ≤ kp.posMax := by
      have : (kp.data.drop kp.pos).length = kp.data.length - kp.pos := by simp
      omega
    unfold LookupGoProp at ih
    have hGo := ih hmax (by simp; try omega) (by simpa using hjle) (by simpa using hml)
    rw [fcmnScan_cons_prefixM ce n i kp path fullKey sumIndex c cs j jIdx hm, lookupScan_cons]
    simp only [hml]
    simp only [Nat.add_sub_cancel] at hGo
    exact hGo
  · -- no match at this child: move to the next sibling
    intro n i kp path fullKey sumIndex c cs j hm ih
    unfold LookupScanProp
    intro hmax hpos
    have hml : matchL ce c.key (kp.data.drop kp.pos) = .noMatch := by
      rw [← matchPrefix_full_range ce c.key kp hmax hpos]
      exact hm
    rw [fcmnScan_cons_none ce n i kp path fullKey sumIndex c cs j hm, lookupScan_cons]
    simp only [hml]
    exact ih hmax hpos

/-- `get` computes exactly the recursive lookup model `lookupM` (no key
folding: the case-insensitive comparison folds the search side on the fly). -/
theorem getS_eq_lookupM (t : Trie) (key : List Char) :
    getS t key = lookupM t.ce t.root key := by
  cases hr : t.root with
  | none =>
    have hf : (findClosestMatchingNode t (keyAsPointer key)).1 = Option.none := by
      unfold findClosestMatchingNode
      rw [hr]
    simp only [getS, get, lookupM, hr, hf]
  | some r =>
    have hmp : matchPrefix t.ce r.key (keyAsPointer key) = matchL t.ce r.key key := by
      rw [matchPrefix_full_range t.ce r.key _ rfl (Nat.zero_le _)]
      simp [keyAsPointer]
    simp only [getS, get, lookupM, hr]
    cases hml : matchL t.ce r.key key with
    | noMatch =>
      rw [fcmn_fst_none t _ r hr (by rw [hmp, hml])]
    | full =>
      rw [fcmn_fst_full t _ r hr (by rw [hmp, hml])]
      dsimp only
      rw [lookupGo_eq]
      simp only [hml, if_true]
    | prefixMatch i =>
      have hle : i ≤ key.length := (matchL_prefixMatch_le t.ce r.key _ i hml).2
      rw [fcmn_fst_prefixM t _ r i hr (by rw [hmp, hml])]
      dsimp only
      have hbr := lookupGo_bridge t.ce r i
        { keyAsPointer key with pos := (keyAsPointer key).pos + i } [] r.key i
        rfl (by simp [keyAsPointer]) (by simp [keyAsPointer]; omega)
        (by simp [keyAsPointer]; exact hml)
      simp only [keyAsPointer, Nat.zero_add, Nat.sub_self, List.drop_zero,
        Nat.add_sub_cancel] at hbr
      simp only [keyAsPointer, Nat.zero_add]
      exact hbr

/-! ## Pure matching lemmas for the map-correctness argument -/

/-- Plain character equality (the comparison the stored-side data sees once
wildcards are excluded and the search side is pre-folded). -/
def ceq (a b : Char) : Bool := a == b

theorem getD_take_eq (l : List Char) (i j : Nat) (hji : j < i) :
    (l.take i).getD j ' ' = l.getD j ' ' := by
  by_cases hjl : j < l.length
  · rw [List.getD_eq_getElem l ' ' hjl,
      List.getD_eq_getElem (l.take i) ' ' (by rw [List.length_take]; omega)]
    exact List.getElem_take l
  · rw [List.getD_eq_default _ _ (by rw [List.length_take]; omega),
      List.getD_eq_default _ _ (by omega)]

theorem getD_drop_eq (l : List Char) (i j : Nat) :
    (l.drop i).getD j ' ' = l.getD (i + j) ' ' := by
  by_cases h : i + j < l.length
  · rw [List.getD_eq_getElem l ' ' h,
      List.getD_eq_getElem (l.drop i) ' ' (by rw [List.length_drop]; omega)]
    exact List.getElem_drop l
  · rw [List.getD_eq_default _ _ (by rw [List.length_drop]; omega),
      List.getD_eq_default _ _ (by omega)]

theorem matchLGo_refl (ce : Char → Char → Bool) (pre : List Char) :
    ∀ (s : List Char) (index : Nat), index ≤ pre.length → pre.drop index = s →
      (∀ a ∈ s, ce a a = true) → matchLGo ce pre index s = .full := by
  intro s
  induction s with
  | nil =>
    intro index hle hd _
    have : pre.length ≤ index := by
      have := congrArg List.length hd
      simp at this
      omega
    have hix : index = pre.length := by omega
    simp [matchLGo, hix]
  | cons b t ih =>
    intro index hle hd hrefl
    have hlt : index < pre.length := by
      by_contra hcon
      rw [List.drop_eq_nil_of_le (by omega)] at hd
      cases hd
    have hget : pre.getD index ' ' = b := by
      have h1 := getD_drop_eq pre index 0
      rw [hd] at h1
      simpa using h1.symm
    have hd2 : pre.drop (index + 1) = t := by
      have := congrArg (List.drop 1) hd
      rw [List.drop_drop] at this
      simpa [Nat.add_comm] using this
    simp only [matchLGo, hget]
    rw [if_neg]
    · exact ih (index + 1) (by omega) hd2 (fun a ha => hrefl a (List.mem_cons_of_mem _ ha))
    · push_neg
      refine ⟨by omega, ?_⟩
      rw [hrefl b (List.mem_cons_self b t)]
      simp

theorem matchL_refl (ce : Char → Char → Bool) (s : List Char)
    (hrefl : ∀ a ∈ s, ce a a = true) : matchL ce s s = .full :=
  matchLGo_refl ce s s 0 (by omega) (by simp) hrefl

theorem matchLGo_take_stop (ce : Char → Char → Bool) (pre : List Char) :
    ∀ (s : List Char) (index i : Nat), index ≤ pre.length →
      matchLGo ce pre index s = .prefixMatch i → i ≤ pre.length →
      matchLGo ce (pre.take i) index s =
        if i = index + s.length then .full else .prefixMatch i := by
  intro s
  induction s with
  | nil =>
    intro index i hidx h hip
    simp only [matchLGo] at h
    split at h
    · cases h
    next hne =>
      injection h with h2
      subst h2
      have hl : (pre.take index).length = index := by
        rw [List.length_take]
        omega
      simp [matchLGo, hl]
  | cons b t ih =>
    intro index i hidx h hip
    simp only [matchLGo] at h
    split at h
    next hstop =>
      split at h
      next hpm =>
        injection h with h2
        subst h2
        have hl : (pre.take index).length = index := by
          rw [List.length_take]
          omega
        simp only [matchLGo]
        rw [if_pos (Or.inl (by rw [hl]))]
        rw [if_pos]
        · rw [if_neg (by simp only [List.length_cons]; omega)]
        · rcases hpm with h1 | h1
          · exact Or.inl h1
          · exact Or.inr (by rw [List.length_take]; omega)
      · cases h
    next hcont =>
      push_neg at hcont
      have hlow := matchLGo_prefixMatch_le ce pre t (index + 1) i (by omega) h
      simp only [matchLGo]
      rw [if_neg]
      · rw [ih (index + 1) i (by omega) h hip]
        by_cases hc : i = index + 1 + t.length
        · rw [if_pos hc, if_pos (by simp only [List.length_cons]; omega)]
        · rw [if_neg hc, if_neg (by simp only [List.length_cons]; omega)]
      · push_neg
        refine ⟨by rw [List.length_take]; omega, ?_⟩
        rw [getD_take_eq pre i index (by omega)]
        exact hcont.2

theorem matchL_take_stop (ce : Char → Char → Bool) (pre s : List Char) (i : Nat)
    (h : matchL ce pre s = .prefixMatch i) (hip : i ≤ pre.length) :
    matchL ce (pre.take i) s = if i = s.length then .full else .prefixMatch i := by
  have := matchLGo_take_stop ce pre s 0 i (by omega) h hip
  simpa using this

theorem matchLGo_take_above (ce : Char → Char → Bool) (pre : List Char) :
    ∀ (s : List Char) (index j i : Nat), index ≤ pre.length →
      matchLGo ce pre index s = .prefixMatch j → j < i →
      matchLGo ce (pre.take i) index s = .prefixMatch j := by
  intro s
  induction s with
  | nil =>
    intro index j i hidx h hji
    simp only [matchLGo] at h
    split at h
    · cases h
    next hne =>
      injection h with h2
      subst h2
      simp only [matchLGo]
      rw [if_neg (by rw [List.length_take]; omega)]
  | cons b t ih =>
    intro index j i hidx h hji
    simp only [matchLGo] at h
    split at h
    next hstop =>
      split at h
      next hpm =>
        injection h with h2
        subst h2
        simp only [matchLGo]
        rw [if_pos, if_pos]
        · rcases hpm with h1 | h1
          · exact Or.inl h1
          · exact Or.inr (by rw [List.length_take]; omega)
        · by_cases hli : pre.length ≤ index
          · exact Or.inl (by rw [List.length_take]; omega)
          · rcases hstop with h1 | h1
            · omega
            · refine Or.inr ?_
              rw [getD_take_eq pre i index (by omega)]
              exact h1
      · cases h
    next hcont =>
      push_neg at hcont
      have hlow := matchLGo_prefixMatch_le ce pre t (index + 1) j (by omega) h
      simp only [matchLGo]
      rw [if_neg]
      · exact ih (index + 1) j i (by omega) h hji
      · push_neg
        refine ⟨by rw [List.length_take]; omega, ?_⟩
        rw [getD_take_eq pre i index (by omega)]
        exact hcont.2

theorem matchL_take_above (ce : Char → Char → Bool) (pre s : List Char) (j i : Nat)
    (h : matchL ce pre s = .prefixMatch j) (hji : j < i) :
    matchL ce (pre.take i) s = .prefixMatch j :=
  matchLGo_take_above ce pre s 0 j i (by omega) h hji

theorem matchLGo_stop_mismatch (ce : Char → Char → Bool) (pre : List Char) :
    ∀ (s : List Char) (index j : Nat), index ≤ pre.length →
      matchLGo ce pre index s = .prefixMatch j → j < pre.length →
      j < index + s.length →
      ce (pre.getD j ' ') (s.getD (j - index) ' ') = false := by
  intro s
  induction s with
  | nil =>
    intro index j hidx h hjp hjs
    simp only [matchLGo] at h
    split at h
    · cases h
    · injection h with h2
      simp only [List.length_nil] at hjs
      omega
  | cons b t ih =>
    intro index j hidx h hjp hjs
    simp only [matchLGo] at h
    split at h
    next hstop =>
      split at h
      next hpm =>
        injection h with h2
        subst h2
        rcases hstop with h1 | h1
        · omega
        · simpa using h1
      · cases h
    next hcont =>
      push_neg at hcont
      have hlow := matchLGo_prefixMatch_le ce pre t (index + 1) j (by omega) h
      have hrec := ih (index + 1) j (by omega) h hjp
        (by simp only [List.length_cons] at hjs; omega)
      have hsub : j - index = (j - (index + 1)) + 1 := by omega
      rw [hsub, List.getD_cons_succ]
      exact hrec

theorem matchL_stop_mismatch (ce : Char → Char → Bool) (pre s : List Char) (j : Nat)
    (h : matchL ce pre s = .prefixMatch j) (hjp : j < pre.length) (hjs : j < s.length) :
    ce (pre.getD j ' ') (s.getD j ' ') = false := by
  have := matchLGo_stop_mismatch ce pre s 0 j (by omega) h hjp (by omega)
  simpa using this

theorem matchL_noMatch_head (ce : Char → Char → Bool) (pre s : List Char)
    (hp : pre ≠ []) (hs : s ≠ [])
    (hm : ce (pre.getD 0 ' ') (s.getD 0 ' ') = false) : matchL ce pre s = .noMatch := by
  cases pre with
  | nil => exact absurd rfl hp
  | cons p pt =>
    cases s with
    | nil => exact absurd rfl hs
    | cons b st =>
      simp only [List.getD_cons_zero] at hm
      simp only [matchL, matchLGo, List.getD_cons_zero, hm]
      simp

theorem matchL_prefixMatch_zero (ce : Char → Char → Bool) (pre s : List Char)
    (h : matchL ce pre s = .prefixMatch 0) : pre = [] ∨ s = [] := by
  cases pre with
  | nil => exact Or.inl rfl
  | cons p pt =>
    cases s with
    | nil => exact Or.inr rfl
    | cons b st =>
      exfalso
      simp only [matchL, matchLGo] at h
      split at h
      · split at h
        next hpm =>
          rcases hpm with h1 | h1
          · omega
          · simp at h1
        · exact MatchType.noConfusion h
      · have := matchLGo_prefixMatch_le ce (p :: pt) st 1 0
          (by simp only [List.length_cons]; omega) h
        omega

theorem ceq_refl (a : Char) : ceq a a = true := by simp [ceq]

theorem ceq_eq_true_iff (a b : Char) : ceq a b = true ↔ a = b := by simp [ceq]

theorem matchLGo_shift (ce : Char → Char → Bool) (p : Char) (pre : List Char) :
    ∀ (s : List Char) (index j : Nat),
      matchLGo ce (p :: pre) (index + 1) s = .prefixMatch j → 2 ≤ j →
      matchLGo ce pre index s = .prefixMatch (j - 1) := by
  intro s
  induction s with
  | nil =>
    intro index j h hj
    simp only [matchLGo, List.length_cons] at h
    split at h
    · cases h
    next hne =>
      injection h with h2
      subst h2
      simp only [matchLGo]
      rw [if_neg (by omega)]
      have hi1 : index + 1 - 1 = index := by omega
      rw [hi1]
  | cons b t ih =>
    intro index j h hj
    simp only [matchLGo] at h
    split at h
    next hstop =>
      split at h
      next hpm =>
        injection h with h2
        subst h2
        simp only [List.length_cons, List.getD_cons_succ] at hstop
        have hstop2 : pre.length ≤ index ∨ ce (pre.getD index ' ') b = false := by
          rcases hstop with h1 | h1
          · exact Or.inl (by omega)
          · exact Or.inr h1
        simp only [matchLGo]
        rw [if_pos hstop2, if_pos (Or.inl (by omega))]
        have hi1 : index + 1 - 1 = index := by omega
        rw [hi1]
      · exact MatchType.noConfusion h
    next hcont =>
      push_neg at hcont
      simp only [List.length_cons, List.getD_cons_succ] at hcont
      simp only [matchLGo]
      rw [if_neg (by push_neg; exact ⟨by omega, hcont.2⟩)]
      exact ih (index + 1) j h hj

theorem matchL_drop_one (ce : Char → Char → Bool) (pre s : List Char) (j : Nat)
    (h : matchL ce pre s = .prefixMatch j) (hj : 2 ≤ j) :
    matchL ce (pre.drop 1) (s.drop 1) = .prefixMatch (j - 1) := by
  have hle := matchL_prefixMatch_le ce pre s j h
  cases pre with
  | nil => simp at hle; omega
  | cons p pt =>
    cases s with
    | nil => simp at hle; omega
    | cons b st =>
      simp only [matchL, matchLGo] at h
      split at h
      · split at h
        · injection h with h2
          omega
        · cases h
      · simpa [matchL] using matchLGo_shift ce p pt st 0 j h hj

theorem matchL_drop_shift (ce : Char → Char → Bool) :
    ∀ (i j : Nat) (pre s : List Char), i < j → matchL ce pre s = .prefixMatch j →
      matchL ce (pre.drop i) (s.drop i) = .prefixMatch (j - i) := by
  intro i
  induction i with
  | zero =>
    intro j pre s hij h
    simpa using h
  | succ m ih =>
    intro j pre s hij h
    have hstep := matchL_drop_one ce pre s j h (by omega)
    have := ih (j - 1) (pre.drop 1) (s.drop 1) (by omega) hstep
    rw [List.drop_drop, List.drop_drop] at this
    have harith : j - 1 - m = j - (m + 1) := by omega
    rw [harith, show 1 + m = m + 1 from by omega] at this
    exact this

theorem matchLGo_ceq_prefix (pre : List Char) :
    ∀ (s : List Char) (index : Nat), index ≤ pre.length →
      pre.drop index = s.take (pre.length - index) → pre.length - index < s.length →
      matchLGo ceq pre index s = .prefixMatch pre.length := by
  intro s
  induction s with
  | nil =>
    intro index hle hd hlt
    simp only [List.length_nil] at hlt
    omega
  | cons b t ih =>
    intro index hle hd hlt
    by_cases hip : index = pre.length
    · simp only [matchLGo]
      rw [if_pos (Or.inl (by omega))]
      rw [if_pos (by omega)]
      rw [hip]
    · have hix : index < pre.length := by omega
      have hm : pre.length - index = (pre.length - index - 1) + 1 := by omega
      rw [hm, List.take_succ_cons] at hd
      have hget : pre.getD index ' ' = b := by
        have h1 := getD_drop_eq pre index 0
        rw [hd] at h1
        simpa using h1.symm
      have hd2 : pre.drop (index + 1) = t.take (pre.length - (index + 1)) := by
        have h5 := congrArg (List.drop 1) hd
        rw [List.drop_drop] at h5
        simp only [List.drop_succ_cons, List.drop_zero] at h5
        rw [h5]
        congr 1
        try omega
      simp only [matchLGo, hget]
      rw [if_neg (by push_neg; exact ⟨by omega, by rw [ceq_refl]; simp⟩)]
      exact ih (index + 1) (by omega) hd2 (by simp only [List.length_cons] at hlt ⊢; omega)

theorem matchL_ceq_take_prefix (k u : List Char) (i : Nat) (hik : i ≤ k.length)
    (hiu : i < u.length) (ht : u.take i = k.take i) :
    matchL ceq (k.take i) u = .prefixMatch i := by
  have hlen : (k.take i).length = i := by rw [List.length_take]; omega
  have := matchLGo_ceq_prefix (k.take i) u 0 (by omega)
    (by rw [List.drop_zero, Nat.sub_zero, hlen, ht]) (by rw [Nat.sub_zero, hlen]; omega)
  rw [hlen] at this
  exact this

theorem matchLGo_ceq_full (pre : List Char) :
    ∀ (s : List Char) (index : Nat), matchLGo ceq pre index s = .full →
      pre.drop index = s := by
  intro s
  induction s with
  | nil =>
    intro index h
    simp only [matchLGo] at h
    split at h
    next he => exact List.drop_eq_nil_of_le (by omega)
    · cases h
  | cons b t ih =>
    intro index h
    simp only [matchLGo] at h
    split at h
    · split at h <;> cases h
    next hcont =>
      push_neg at hcont
      have hlt : index < pre.length := by omega
      have hget : pre.getD index ' ' = b := by
        have := hcont.2
        rw [Bool.ne_false_iff] at this
        exact (ceq_eq_true_iff _ _).1 this
      have hd2 := ih (index + 1) h
      have hdec : pre.drop index = pre[index] :: pre.drop (index + 1) :=
        List.drop_eq_getElem_cons hlt
      rw [hdec, hd2, ← List.getD_eq_getElem pre ' ' hlt, hget]

theorem matchL_ceq_full_eq (pre s : List Char) (h : matchL ceq pre s = .full) :
    pre = s := by
  have := matchLGo_ceq_full pre s 0 h
  simpa using this

theorem matchLGo_ceq_take_eq (pre : List Char) :
    ∀ (s : List Char) (index j : Nat), index ≤ pre.length →
      matchLGo ceq pre index s = .prefixMatch j →
      (pre.drop index).take (j - index) = s.take (j - index) := by
  intro s
  induction s with
  | nil =>
    intro index j hle h
    simp only [matchLGo] at h
    split at h
    · cases h
    · injection h with h2
      subst h2
      simp
  | cons b t ih =>
    intro index j hle h
    simp only [matchLGo] at h
    split at h
    next hstop =>
      split at h
      next hpm =>
        injection h with h2
        subst h2
        simp
      · cases h
    next hcont =>
      push_neg at hcont
      have hlt : index < pre.length := by omega
      have hget : pre.getD index ' ' = b := by
        have := hcont.2
        rw [Bool.ne_false_iff] at this
        exact (ceq_eq_true_iff _ _).1 this
      have hlow := matchLGo_prefixMatch_le ceq pre t (index + 1) j (by omega) h
      have hrec := ih (index + 1) j (by omega) h
      have hdec : pre.drop index = pre[index] :: pre.drop (index + 1) :=
        List.drop_eq_getElem_cons hlt
      have hm : j - index = (j - (index + 1)) + 1 := by omega
      rw [hm, hdec, List.take_succ_cons, List.take_succ_cons, hrec,
        ← List.getD_eq_getElem pre ' ' hlt, hget]

theorem matchL_ceq_take_eq (pre s : List Char) (j : Nat)
    (h : matchL ceq pre s = .prefixMatch j) : pre.take j = s.take j := by
  have := matchLGo_ceq_take_eq pre s 0 j (by omega) h
  simpa using this

/-! ## Same-key correctness of the insertion model -/

theorem matchL_nil_ne_noMatch (ce : Char → Char → Bool) (pre : List Char) :
    matchL ce pre [] ≠ .noMatch := by
  intro h
  simp only [matchL, matchLGo] at h
  split at h <;> cases h

theorem lookupM_some (ce : Char → Char → Bool) (n : Node) (s : List Char) :
    lookupM ce (some n) s = lookupGo ce n s := by
  cases hm : matchL ce n.key s <;>
    simp [lookupM, hm, lookupGo_eq]

theorem insertScan_none_forall (ce : Char → Char → Bool) (v : Nat) :
    ∀ (l : List Node) (s : List Char), insertScan ce v l s = Option.none →
      ∀ c ∈ l, matchL ce c.key s = .noMatch := by
  intro l
  induction l with
  | nil =>
    intro s _ c hc
    cases hc
  | cons d ds ih =>
    intro s h c hc
    rw [insertScan_cons] at h
    cases hm : matchL ce d.key s with
    | noMatch =>
      rw [hm] at h
      have h2 : insertScan ce v ds s = Option.none := by
        cases hrec : insertScan ce v ds s with
        | none => rfl
        | some l2 =>
          rw [hrec] at h
          cases h
      rcases List.mem_cons.mp hc with heq | hc2
      · subst heq
        exact hm
      · exact ih s h2 c hc2
    | full =>
      rw [hm] at h
      cases h
    | prefixMatch i =>
      rw [hm] at h
      cases h

theorem lookupScan_append_noMatch (ce : Char → Char → Bool) :
    ∀ (l l2 : List Node) (s : List Char),
      (∀ c ∈ l, matchL ce c.key s = .noMatch) →
      lookupScan ce (l ++ l2) s = lookupScan ce l2 s := by
  intro l
  induction l with
  | nil =>
    intro l2 s _
    rfl
  | cons d ds ih =>
    intro l2 s hall
    rw [List.cons_append, lookupScan_cons, hall d (List.mem_cons_self d ds)]
    exact ih l2 s (fun c hc => hall c (List.mem_cons_of_mem _ hc))

theorem matchL_insertGo_key_ne (ce : Char → Char → Bool) (v : Nat) (c : Node)
    (s : List Char) (h : matchL ce c.key s ≠ .noMatch) :
    matchL ce (insertGo ce v c s).key s ≠ .noMatch := by
  rw [insertGo_eq]
  cases hm : matchL ce c.key s with
  | noMatch => exact absurd hm h
  | full =>
    dsimp only
    simp only [Node.key_mk]
    exact h
  | prefixMatch i =>
    have hle := matchL_prefixMatch_le ce c.key s i hm
    dsimp only
    by_cases hik : i = c.key.length
    · rw [if_pos hik]
      cases hsc : insertScan ce v c.children (s.drop i) <;>
        · simp only [Node.key_mk]
          rw [hm]
          simp
    · rw [if_neg hik]
      by_cases his : i = s.length
      · rw [if_pos his]
        simp only [Node.key_mk]
        rw [matchL_take_stop ce c.key s i hm hle.1, if_pos his]
        simp
      · rw [if_neg his]
        simp only [Node.key_mk]
        rw [matchL_take_stop ce c.key s i hm hle.1, if_neg his]
        simp

/-- The same-key invariant for `insertGo`: inserting `v` at content `s` and
looking the same content up again yields `v`. -/
def InsSameGo (ce : Char → Char → Bool) (v : Nat) (n : Node) (s : List Char) : Prop :=
  (∀ a ∈ s, ce a a = true) → matchL ce n.key s ≠ .noMatch →
  lookupGo ce (insertGo ce v n s) s = some v

/-- The same-key invariant for `insertScan`. -/
def InsSameScan (ce : Char → Char → Bool) (v : Nat) (l : List Node) (s : List Char) : Prop :=
  (∀ a ∈ s, ce a a = true) →
  ∀ ch2, insertScan ce v l s = some ch2 → lookupScan ce ch2 s = some v

theorem insert_lookup_same_go (ce : Char → Char → Bool) (v : Nat) :
    ∀ (n : Node) (s : List Char), InsSameGo ce v n s := by
  refine insertGo.induct ce v (InsSameGo ce v) (InsSameScan ce v) ?_ ?_ ?_ ?_ ?_ ?_ ?_ ?_ ?_
  · -- full match: overwrite the value
    intro k nv ch fk h
    unfold InsSameGo
    intro hrefl hnm
    rw [insertGo_eq]
    simp only [Node.key_mk, h]
    rw [lookupGo_eq]
    simp only [Node.key_mk, Node.value_mk, h]
  · -- no match: excluded
    intro k nv ch fk h
    unfold InsSameGo
    intro hrefl hnm
    exact absurd h hnm
  · -- key consumed, a child accepted the remainder
    intro k nv ch fk ch2 h hscan ih
    unfold InsSameGo
    intro hrefl hnm
    unfold InsSameScan at ih
    rw [insertGo_eq]
    simp only [Node.key_mk, Node.value_mk, Node.children_mk, h, if_true]
    rw [hscan]
    rw [lookupGo_eq]
    simp only [Node.key_mk, Node.children_mk, h, if_true]
    exact ih (fun a ha => hrefl a (List.drop_subset _ _ ha)) ch2 hscan
  · -- key consumed, no child matched: append a fresh leaf
    intro k nv ch fk h hscan ih
    unfold InsSameGo
    intro hrefl hnm
    rw [insertGo_eq]
    simp only [Node.key_mk, Node.value_mk, Node.children_mk, h, if_true]
    rw [hscan]
    rw [lookupGo_eq]
    simp only [Node.key_mk, Node.children_mk, h, if_true]
    rw [lookupScan_append_noMatch ce ch _ _ (insertScan_none_forall ce v ch _ hscan)]
    have hfull : matchL ce (fk.drop k.length) (fk.drop k.length) = .full :=
      matchL_refl ce _ (fun a ha => hrefl a (List.drop_subset _ _ ha))
    rw [lookupScan_cons]
    simp only [Node.key_mk, hfull]
    rw [lookupGo_eq]
    simp only [Node.key_mk, Node.value_mk, hfull]
  · -- the new key ends inside this node's segment: split, value on the parent
    intro k nv ch fk h hne
    unfold InsSameGo
    intro hrefl hnm
    have hle := matchL_prefixMatch_le ce k fk _ h
    rw [insertGo_eq]
    simp only [Node.key_mk, h]
    rw [if_neg hne, if_true]
    rw [lookupGo_eq]
    simp only [Node.key_mk, Node.value_mk]
    rw [matchL_take_stop ce k fk _ h hle.1,
      if_pos (show fk.length = fk.length from rfl)]
  · -- the new key diverges inside this node's segment: split and add a leaf
    intro k nv ch fk a h hak hafk
    unfold InsSameGo
    intro hrefl hnm
    have hle := matchL_prefixMatch_le ce k fk a h
    have hak2 : a < k.length := by omega
    have hafk2 : a < fk.length := by omega
    rw [insertGo_eq]
    simp only [Node.key_mk, h]
    rw [if_neg hak, if_neg hafk]
    rw [lookupGo_eq]
    simp only [Node.key_mk, Node.children_mk]
    rw [matchL_take_stop ce k fk a h hle.1, if_neg hafk]
    dsimp only
    rw [if_pos (by rw [List.length_take]; omega)]
    have hmm := matchL_stop_mismatch ce k fk a h hak2 hafk2
    have hnm1 : matchL ce (k.drop a) (fk.drop a) = .noMatch := by
      apply matchL_noMatch_head
      · intro hcon
        have := congrArg List.length hcon
        simp at this
        omega
      · intro hcon
        have := congrArg List.length hcon
        simp at this
        omega
      · rw [getD_drop_eq, getD_drop_eq, Nat.add_zero]
        exact hmm
    rw [lookupScan_cons]
    simp only [Node.key_mk, hnm1]
    have hfull : matchL ce (fk.drop a) (fk.drop a) = .full :=
      matchL_refl ce _ (fun x hx => hrefl x (List.drop_subset _ _ hx))
    rw [lookupScan_cons]
    simp only [Node.key_mk, hfull]
    rw [lookupGo_eq]
    simp only [Node.key_mk, Node.value_mk, hfull]
  · -- scan of an empty children list
    intro s
    unfold InsSameScan
    intro hrefl ch2 hcon
    rw [show insertScan ce v [] s = Option.none from rfl] at hcon
    cases hcon
  · -- scan: this child does not match
    intro c rest fullKey h ih
    unfold InsSameScan
    intro hrefl ch2 hsome
    rw [insertScan_cons, h] at hsome
    cases hrec : insertScan ce v rest fullKey with
    | none =>
      rw [hrec] at hsome
      cases hsome
    | some l2 =>
      rw [hrec] at hsome
      have h3 : c :: l2 = ch2 := by injection hsome
      subst h3
      rw [lookupScan_cons, h]
      exact ih hrefl l2 hrec
  · -- scan: this child matches and receives the insertion
    intro c rest fullKey h ih
    unfold InsSameScan
    intro hrefl ch2 hsome
    have hnm : matchL ce c.key fullKey ≠ .noMatch := fun hcon => h hcon
    have hsome2 : ch2 = insertGo ce v c fullKey :: rest := by
      rw [insertScan_cons] at hsome
      cases hm : matchL ce c.key fullKey with
      | noMatch => exact absurd hm hnm
      | full =>
        rw [hm] at hsome
        simp only [Option.some_inj] at hsome
        exact hsome.symm
      | prefixMatch i =>
        rw [hm] at hsome
        simp only [Option.some_inj] at hsome
        exact hsome.symm
    subst hsome2
    rw [lookupScan_cons]
    have hkey := matchL_insertGo_key_ne ce v c fullKey hnm
    unfold InsSameGo at ih
    cases hm2 : matchL ce (insertGo ce v c fullKey).key fullKey with
    | noMatch => exact absurd hm2 hkey
    | full => exact ih hrefl hnm
    | prefixMatch i => exact ih hrefl hnm

/-- Same-key correctness of the root insertion: inserting at `σ` and looking
`σ` up yields the inserted value, for any comparison reflexive on `σ`. -/
theorem setM_lookupM_same (ce : Char → Char → Bool) (v : Nat) (t : Option Node)
    (σ : List Char) (hrefl : ∀ a ∈ σ, ce a a = true) :
    lookupM ce (setM ce t σ v) σ = some v := by
  have hfull : matchL ce σ σ = .full := matchL_refl ce σ hrefl
  cases t with
  | none =>
    simp only [setM]
    rw [lookupM_some, lookupGo_eq]
    simp only [Node.key_mk, Node.value_mk, hfull]
  | some r =>
    simp only [setM]
    cases hm : matchL ce r.key σ with
    | noMatch =>
      rw [lookupM_some, lookupGo_eq]
      cases hσ : σ with
      | nil =>
        rw [hσ] at hm
        exact absurd hm (matchL_nil_ne_noMatch ce r.key)
      | cons b σt =>
        have hpm : matchL ce [] (b :: σt) = .prefixMatch 0 := by
          simp [matchL, matchLGo]
        simp only [Node.key_mk, Node.children_mk, hpm]
        rw [if_pos (show 0 = ([] : List Char).length from rfl)]
        rw [List.drop_zero, lookupScan_cons]
        rw [← hσ, hm]
        rw [lookupScan_cons]
        simp only [Node.key_mk, hfull]
        rw [lookupGo_eq]
        simp only [Node.key_mk, Node.value_mk, hfull]
    | full =>
      rw [lookupM_some]
      have := insert_lookup_same_go ce v r σ
      unfold InsSameGo at this
      exact this hrefl (by rw [hm]; intro hcon; cases hcon)
    | prefixMatch i =>
      rw [lookupM_some]
      have := insert_lookup_same_go ce v r σ
      unfold InsSameGo at this
      exact this hrefl (by rw [hm]; intro hcon; cases hcon)

/-! ## Different-key frame property of the insertion model (plain equality) -/

theorem matchL_nil_pre (ce : Char → Char → Bool) (u : List Char) :
    matchL ce [] u ≠ .noMatch := by
  cases u with
  | nil =>
    intro h
    simp [matchL, matchLGo] at h
  | cons b t =>
    intro h
    simp [matchL, matchLGo] at h

theorem matchLGo_pos_ne_noMatch (ce : Char → Char → Bool) (pre : List Char) :
    ∀ (s : List Char) (index : Nat), 0 < index →
      matchLGo ce pre index s ≠ .noMatch := by
  intro s
  induction s with
  | nil =>
    intro index hpos h
    simp only [matchLGo] at h
    split at h <;> cases h
  | cons b t ih =>
    intro index hpos h
    simp only [matchLGo] at h
    split at h
    · rw [if_pos (Or.inl hpos)] at h
      cases h
    · exact ih (index + 1) (by omega) h

theorem matchL_noMatch_elim (ce : Char → Char → Bool) (pre u : List Char)
    (h : matchL ce pre u = .noMatch) :
    pre ≠ [] ∧ u ≠ [] ∧ ce (pre.getD 0 ' ') (u.getD 0 ' ') = false := by
  cases pre with
  | nil => exact absurd h (matchL_nil_pre ce u)
  | cons p pt =>
    cases u with
    | nil => exact absurd h (matchL_nil_ne_noMatch ce (p :: pt))
    | cons b t =>
      refine ⟨by simp, by simp, ?_⟩
      simp only [matchL, matchLGo] at h
      split at h
      next hcond =>
        rcases hcond with h1 | h1
        · simp at h1
        · simpa using h1
      next hcond =>
        exact absurd h (matchLGo_pos_ne_noMatch ce (p :: pt) t 1 (by omega))

theorem ne_drop_of_take_eq (u fk : List Char) (m : Nat)
    (hu : u.take m = fk.take m) (hne : u ≠ fk) : u.drop m ≠ fk.drop m := by
  intro hd
  apply hne
  rw [← List.take_append_drop m u, ← List.take_append_drop m fk, hu, hd]

theorem matchL_ceq_pm_take (k u : List Char) (j : Nat)
    (h : matchL ceq k u = .prefixMatch j) : u.take j = k.take j :=
  (matchL_ceq_take_eq k u j h).symm

theorem lookupGo_leaf_ne (v : Nat) (w u : List Char) (hne : u ≠ w) :
    lookupGo ceq (.mk w (some v) []) u = Option.none := by
  rw [lookupGo_eq]
  simp only [Node.key_mk, Node.value_mk, Node.children_mk]
  cases hm : matchL ceq w u with
  | full => exact absurd (matchL_ceq_full_eq w u hm).symm hne
  | noMatch => rfl
  | prefixMatch j =>
    dsimp only
    split <;> rfl

theorem lookupScan_leaf_ne (v : Nat) (w u : List Char) (hne : u ≠ w) :
    lookupScan ceq [.mk w (some v) []] u = Option.none := by
  rw [lookupScan_cons]
  simp only [Node.key_mk]
  cases hm : matchL ceq w u with
  | full => exact absurd (matchL_ceq_full_eq w u hm).symm hne
  | noMatch => rfl
  | prefixMatch j => exact lookupGo_leaf_ne v w u hne

theorem lookupScan_append_leaf (v : Nat) (w u : List Char) (hne : u ≠ w) :
    ∀ (l : List Node),
      lookupScan ceq (l ++ [.mk w (some v) []]) u = lookupScan ceq l u := by
  intro l
  induction l with
  | nil =>
    simp only [List.nil_append]
    rw [lookupScan_leaf_ne v w u hne]
    rfl
  | cons c cs ih =>
    rw [List.cons_append, lookupScan_cons, lookupScan_cons]
    cases hm : matchL ceq c.key u with
    | noMatch => exact ih
    | full => rfl
    | prefixMatch j => rfl

theorem lookupScan_cons_ne (ce : Char → Char → Bool) (c : Node) (cs : List Node)
    (s : List Char) (h : matchL ce c.key s ≠ .noMatch) :
    lookupScan ce (c :: cs) s = lookupGo ce c s := by
  rw [lookupScan_cons]
  cases hm : matchL ce c.key s with
  | noMatch => exact absurd hm h
  | full => rfl
  | prefixMatch j => rfl

theorem lookupScan_cons_noMatch (ce : Char → Char → Bool) (c : Node) (cs : List Node)
    (s : List Char) (h : matchL ce c.key s = .noMatch) :
    lookupScan ce (c :: cs) s = lookupScan ce cs s := by
  rw [lookupScan_cons, h]

theorem insertGo_key_cases (ce : Char → Char → Bool) (v : Nat) (c : Node) (fk : List Char) :
    (insertGo ce v c fk).key = c.key ∨
    (∃ i, (insertGo ce v c fk).key = c.key.take i ∧
      matchL ce c.key fk = .prefixMatch i ∧ i ≠ c.key.length) := by
  rw [insertGo_eq]
  cases hm : matchL ce c.key fk with
  | full =>
    left
    simp
  | noMatch =>
    left
    rfl
  | prefixMatch i =>
    dsimp only
    by_cases hik : i = c.key.length
    · rw [if_pos hik]
      left
      cases hsc : insertScan ce v c.children (fk.drop i) <;> simp
    · rw [if_neg hik]
      right
      refine ⟨i, ?_, rfl, hik⟩
      by_cases his : i = fk.length
      · rw [if_pos his]
        simp
      · rw [if_neg his]
        simp

theorem matchL_ceq_insertGo_key_noMatch_iff (v : Nat) (c : Node) (fk u : List Char)
    (hfk : fk ≠ []) :
    (matchL ceq (insertGo ceq v c fk).key u = .noMatch ↔ matchL ceq c.key u = .noMatch) := by
  rcases insertGo_key_cases ceq v c fk with hk | ⟨i, hk, hm, hik⟩
  · rw [hk]
  · rw [hk]
    have hle := matchL_prefixMatch_le ceq c.key fk i hm
    by_cases hi0 : i = 0
    · subst hi0
      rcases matchL_prefixMatch_zero ceq c.key fk hm with hke | hfe
      · rw [hke]
        simp [List.take_nil]
      · exact absurd hfe hfk
    · have hipos : 0 < i := by omega
      have hikl : i ≤ c.key.length := hle.1
      constructor
      · intro hnew
        have helim := matchL_noMatch_elim ceq _ u hnew
        apply matchL_noMatch_head
        · intro hcon
          rw [hcon] at hikl
          simp at hikl
          omega
        · exact helim.2.1
        · rw [← getD_take_eq c.key i 0 hipos]
          exact helim.2.2
      · intro hold
        have helim := matchL_noMatch_elim ceq _ u hold
        apply matchL_noMatch_head
        · intro hcon
          have h9 := congrArg List.length hcon
          rw [List.length_take] at h9
          simp only [List.length_nil, Nat.min_eq_zero_iff] at h9
          rcases h9 with h0 | h0 <;> omega
        · exact helim.2.1
        · rw [getD_take_eq c.key i 0 hipos]
          exact helim.2.2

theorem matchL_nil_pre_eval (ce : Char → Char → Bool) (u : List Char) (hu : u ≠ []) :
    matchL ce [] u = .prefixMatch 0 := by
  cases u with
  | nil => exact absurd rfl hu
  | cons b t => simp [matchL, matchLGo]

/-- The frame invariant of `insertGo`: looking up any other content is
unaffected by the insertion. -/
def InsDiffGo (v : Nat) (n : Node) (fk : List Char) : Prop :=
  ∀ u, u ≠ fk → lookupGo ceq (insertGo ceq v n fk) u = lookupGo ceq n u

/-- The frame invariant of `insertScan`. -/
def InsDiffScan (v : Nat) (l : List Node) (fk : List Char) : Prop :=
  fk ≠ [] → ∀ ch2, insertScan ceq v l fk = some ch2 →
  ∀ u, u ≠ fk → lookupScan ceq ch2 u = lookupScan ceq l u

theorem insert_lookup_diff_go (v : Nat) :
    ∀ (n : Node) (fk : List Char), InsDiffGo v n fk := by
  refine insertGo.induct ceq v (InsDiffGo v) (InsDiffScan v) ?_ ?_ ?_ ?_ ?_ ?_ ?_ ?_ ?_
  · -- full match: only the value changes
    intro k nv ch fk h
    unfold InsDiffGo
    intro u hne
    have hkfk : k = fk := matchL_ceq_full_eq k fk h
    rw [insertGo_eq]
    simp only [Node.key_mk, Node.children_mk, h]
    rw [lookupGo_eq, lookupGo_eq]
    simp only [Node.key_mk, Node.value_mk, Node.children_mk]
    cases hmu : matchL ceq k u with
    | full => exact absurd ((matchL_ceq_full_eq k u hmu).symm.trans hkfk) hne
    | noMatch => rfl
    | prefixMatch j => rfl
  · -- no match: nothing changes
    intro k nv ch fk h
    unfold InsDiffGo
    intro u hne
    rw [insertGo_eq]
    simp only [Node.key_mk, h]
  · -- key consumed, a child accepted the remainder
    intro k nv ch fk ch2 h hscan ih
    unfold InsDiffGo
    intro u hne
    have hle := matchL_prefixMatch_le ceq k fk _ h
    have hftake : fk.take k.length = k := by
      have h9 := matchL_ceq_pm_take k fk k.length h
      rwa [List.take_length] at h9
    have hlt : k.length < fk.length := by
      rcases Nat.lt_or_ge k.length fk.length with hlt | hge
      · exact hlt
      · exact absurd rfl (matchL_prefixMatch_ne ceq k fk k.length h (by omega))
    have hfkd : fk.drop k.length ≠ [] := by
      intro hcon
      have h9 := congrArg List.length hcon
      simp only [List.length_drop, List.length_nil] at h9
      omega
    rw [insertGo_eq]
    simp only [Node.key_mk, Node.value_mk, Node.children_mk, h, if_true]
    rw [hscan]
    rw [lookupGo_eq, lookupGo_eq]
    simp only [Node.key_mk, Node.value_mk, Node.children_mk]
    cases hmu : matchL ceq k u with
    | noMatch => rfl
    | full => rfl
    | prefixMatch j =>
      dsimp only
      by_cases hjk : j = k.length
      · rw [if_pos hjk, if_pos hjk]
        subst hjk
        have hutake : u.take k.length = k := by
          have h9 := matchL_ceq_pm_take k u k.length hmu
          rwa [List.take_length] at h9
        unfold InsDiffScan at ih
        exact ih hfkd ch2 hscan (u.drop k.length)
          (ne_drop_of_take_eq u fk k.length (by rw [hutake, hftake]) hne)
      · rw [if_neg hjk, if_neg hjk]
  · -- key consumed, no child matched: a fresh leaf is appended
    intro k nv ch fk h hscan ih
    unfold InsDiffGo
    intro u hne
    have hle := matchL_prefixMatch_le ceq k fk _ h
    have hftake : fk.take k.length = k := by
      have h9 := matchL_ceq_pm_take k fk k.length h
      rwa [List.take_length] at h9
    rw [insertGo_eq]
    simp only [Node.key_mk, Node.value_mk, Node.children_mk, h, if_true]
    rw [hscan]
    rw [lookupGo_eq, lookupGo_eq]
    simp only [Node.key_mk, Node.value_mk, Node.children_mk]
    cases hmu : matchL ceq k u with
    | noMatch => rfl
    | full => rfl
    | prefixMatch j =>
      dsimp only
      by_cases hjk : j = k.length
      · rw [if_pos hjk, if_pos hjk]
        subst hjk
        have hutake : u.take k.length = k := by
          have h9 := matchL_ceq_pm_take k u k.length hmu
          rwa [List.take_length] at h9
        exact lookupScan_append_leaf v _ _
          (ne_drop_of_take_eq u fk k.length (by rw [hutake, hftake]) hne) ch
      · rw [if_neg hjk, if_neg hjk]
  · -- the new key ends inside the segment: split, value on the parent
    intro k nv ch fk h hne5
    unfold InsDiffGo
    intro u hne
    have hle := matchL_prefixMatch_le ceq k fk fk.length h
    have hilt : fk.length < k.length := lt_of_le_of_ne hle.1 (fun hcon => hne5 hcon)
    have hktake : k.take fk.length = fk := by
      have h9 := matchL_ceq_pm_take k fk fk.length h
      rw [List.take_length] at h9
      exact h9.symm
    rw [insertGo_eq]
    simp only [Node.key_mk, Node.value_mk, Node.children_mk, h]
    rw [if_neg hne5, if_true]
    rw [lookupGo_eq, lookupGo_eq]
    simp only [Node.key_mk, Node.value_mk, Node.children_mk]
    cases hmu : matchL ceq k u with
    | noMatch =>
      have helim := matchL_noMatch_elim ceq k u hmu
      by_cases hi0 : fk.length = 0
      · have hfke : fk = [] := by
          cases fk with
          | nil => rfl
          | cons x xs => simp at hi0
        rw [hfke] at hne
        have hpm0 : matchL ceq (k.take fk.length) u = .prefixMatch 0 := by
          rw [hi0, List.take_zero]
          exact matchL_nil_pre_eval ceq u hne
        rw [hpm0]
        dsimp only
        rw [if_pos (by rw [hi0, List.take_zero]; rfl)]
        rw [List.drop_zero]
        rw [lookupScan_cons_noMatch ceq _ _ _
          (by simp only [Node.key_mk]
              rw [show k.drop fk.length = k from by rw [hi0, List.drop_zero]]
              exact hmu)]
        rfl
      · have hnm2 : matchL ceq (k.take fk.length) u = .noMatch := by
          apply matchL_noMatch_head
          · intro hcon
            have h9 := congrArg List.length hcon
            rw [List.length_take] at h9
            simp only [List.length_nil, Nat.min_eq_zero_iff] at h9
            rcases h9 with h0 | h0 <;> omega
          · exact helim.2.1
          · rw [getD_take_eq k fk.length 0 (by omega)]
            exact helim.2.2
        rw [hnm2]
    | full =>
      have hku := matchL_ceq_full_eq k u hmu
      subst hku
      have hpm : matchL ceq (k.take fk.length) k = .prefixMatch fk.length :=
        matchL_ceq_take_prefix k k fk.length (by omega) (by omega) rfl
      rw [hpm]
      dsimp only
      rw [if_pos (by rw [List.length_take]; omega)]
      have hfull2 : matchL ceq (k.drop fk.length) (k.drop fk.length) = .full :=
        matchL_refl ceq _ (fun x _ => ceq_refl x)
      rw [lookupScan_cons_ne ceq _ _ _ (by simp only [Node.key_mk]; rw [hfull2]; intro hcon; cases hcon)]
      rw [lookupGo_eq]
      simp only [Node.key_mk, Node.value_mk, hfull2]
    | prefixMatch j =>
      have hleu := matchL_prefixMatch_le ceq k u j hmu
      have hutake := matchL_ceq_pm_take k u j hmu
      rcases Nat.lt_trichotomy j fk.length with hj | hj | hj
      · have hpm2 : matchL ceq (k.take fk.length) u = .prefixMatch j :=
          matchL_take_above ceq k u j fk.length hmu hj
        rw [hpm2]
        dsimp only
        rw [if_neg (by rw [List.length_take]; omega), if_neg (by omega)]
      · subst hj
        by_cases hul : u.length = fk.length
        · exfalso
          apply hne
          have h1 : u = u.take fk.length := by
            conv_lhs => rw [← List.take_length u]
            rw [hul]
          rw [h1, show u.take fk.length = k.take fk.length from hutake, hktake]
        · have hul2 : fk.length < u.length := by omega
          have hpm2 : matchL ceq (k.take fk.length) u = .prefixMatch fk.length :=
            matchL_ceq_take_prefix k u fk.length (by omega) hul2 hutake
          rw [hpm2]
          dsimp only
          rw [if_pos (by rw [List.length_take]; omega)]
          have hmm5 := matchL_stop_mismatch ceq k u fk.length hmu hilt (by omega)
          have hinner : matchL ceq (k.drop fk.length) (u.drop fk.length) = .noMatch := by
            apply matchL_noMatch_head
            · intro hcon
              have h9 := congrArg List.length hcon
              simp only [List.length_drop, List.length_nil] at h9
              omega
            · intro hcon
              have h9 := congrArg List.length hcon
              simp only [List.length_drop, List.length_nil] at h9
              omega
            · rw [getD_drop_eq, getD_drop_eq, Nat.add_zero]
              exact hmm5
          rw [lookupScan_cons_noMatch ceq _ _ _ (by simp only [Node.key_mk]; exact hinner)]
          rw [if_neg (by omega)]
          rfl
      · have hutake2 : u.take fk.length = k.take fk.length := by
          have h9 := congrArg (List.take fk.length) hutake
          rw [List.take_take, List.take_take] at h9
          rwa [min_eq_left (by omega : fk.length ≤ j)] at h9
        have hul2 : fk.length < u.length := by omega
        have hpm2 : matchL ceq (k.take fk.length) u = .prefixMatch fk.length :=
          matchL_ceq_take_prefix k u fk.length (by omega) hul2 hutake2
        rw [hpm2]
        dsimp only
        rw [if_pos (by rw [List.length_take]; omega)]
        have hshift := matchL_drop_shift ceq fk.length j k u hj hmu
        rw [lookupScan_cons_ne ceq _ _ _ (by simp only [Node.key_mk]; rw [hshift]; intro hcon; cases hcon)]
        rw [lookupGo_eq]
        simp only [Node.key_mk, Node.value_mk, Node.children_mk, hshift]
        by_cases hjk : j = k.length
        · rw [if_pos (by rw [List.length_drop]; omega), if_pos hjk]
          have harg : (u.drop fk.length).drop (j - fk.length) = u.drop j := by
            rw [List.drop_drop]
            congr 1
            omega
          rw [harg]
        · rw [if_neg (by rw [List.length_drop]; omega), if_neg hjk]
  · -- the new key diverges inside the segment: split with a fresh leaf
    intro k nv ch fk a h hak hafk
    unfold InsDiffGo
    intro u hne
    have hle := matchL_prefixMatch_le ceq k fk a h
    have hak2 : a < k.length := lt_of_le_of_ne hle.1 hak
    have hafk2 : a < fk.length := lt_of_le_of_ne hle.2 hafk
    have hapos : 0 < a := by
      rcases Nat.eq_zero_or_pos a with h0 | h0
      · exfalso
        subst h0
        rcases matchL_prefixMatch_zero ceq k fk h with h1 | h1
        · rw [h1] at hak2
          simp at hak2
        · rw [h1] at hafk2
          simp at hafk2
      · exact h0
    have hktake : k.take a = fk.take a := matchL_ceq_take_eq k fk a h
    have hmm6 := matchL_stop_mismatch ceq k fk a h hak2 hafk2
    rw [insertGo_eq]
    simp only [Node.key_mk, Node.value_mk, Node.children_mk, h]
    rw [if_neg hak, if_neg hafk]
    rw [lookupGo_eq, lookupGo_eq]
    simp only [Node.key_mk, Node.value_mk, Node.children_mk]
    cases hmu : matchL ceq k u with
    | noMatch =>
      have helim := matchL_noMatch_elim ceq k u hmu
      have hnm2 : matchL ceq (k.take a) u = .noMatch := by
        apply matchL_noMatch_head
        · intro hcon
          have h9 := congrArg List.length hcon
          rw [List.length_take] at h9
          simp only [List.length_nil, Nat.min_eq_zero_iff] at h9
          rcases h9 with h0 | h0 <;> omega
        · exact helim.2.1
        · rw [getD_take_eq k a 0 hapos]
          exact helim.2.2
      rw [hnm2]
    | full =>
      have hku := matchL_ceq_full_eq k u hmu
      subst hku
      have hpm : matchL ceq (k.take a) k = .prefixMatch a :=
        matchL_ceq_take_prefix k k a (by omega) (by omega) rfl
      rw [hpm]
      dsimp only
      rw [if_pos (by rw [List.length_take]; omega)]
      have hfull2 : matchL ceq (k.drop a) (k.drop a) = .full :=
        matchL_refl ceq _ (fun x _ => ceq_refl x)
      rw [lookupScan_cons_ne ceq _ _ _ (by simp only [Node.key_mk]; rw [hfull2]; intro hcon; cases hcon)]
      rw [lookupGo_eq]
      simp only [Node.key_mk, Node.value_mk, hfull2]
    | prefixMatch j =>
      have hleu := matchL_prefixMatch_le ceq k u j hmu
      have hutake := matchL_ceq_pm_take k u j hmu
      rcases Nat.lt_trichotomy j a with hj | hj | hj
      · have hpm2 : matchL ceq (k.take a) u = .prefixMatch j :=
          matchL_take_above ceq k u j a hmu hj
        rw [hpm2]
        dsimp only
        rw [if_neg (by rw [List.length_take]; omega), if_neg (by omega)]
      · subst hj
        by_cases hul : u.length = j
        · have hfull3 : matchL ceq (k.take j) u = .full := by
            have h1 : u = k.take j := by
              conv_lhs => rw [← List.take_length u]
              rw [hul, hutake]
            rw [h1]
            exact matchL_refl ceq _ (fun x _ => ceq_refl x)
          rw [hfull3]
          dsimp only
          rw [if_neg hak]
        · have hul2 : j < u.length := by omega
          have hpm2 : matchL ceq (k.take j) u = .prefixMatch j :=
            matchL_ceq_take_prefix k u j (by omega) hul2 hutake
          rw [hpm2]
          dsimp only
          rw [if_pos (by rw [List.length_take]; omega)]
          have hmm7 := matchL_stop_mismatch ceq k u j hmu hak2 hul2
          have hinner : matchL ceq (k.drop j) (u.drop j) = .noMatch := by
            apply matchL_noMatch_head
            · intro hcon
              have h9 := congrArg List.length hcon
              simp only [List.length_drop, List.length_nil] at h9
              omega
            · intro hcon
              have h9 := congrArg List.length hcon
              simp only [List.length_drop, List.length_nil] at h9
              omega
            · rw [getD_drop_eq, getD_drop_eq, Nat.add_zero]
              exact hmm7
          rw [lookupScan_cons_noMatch ceq _ _ _ (by simp only [Node.key_mk]; exact hinner)]
          have hdne : u.drop j ≠ fk.drop j :=
            ne_drop_of_take_eq u fk j (by rw [hutake, hktake]) hne
          rw [lookupScan_leaf_ne v _ _ hdne]
          rw [if_neg (by omega)]
      · have hutake2 : u.take a = k.take a := by
          have h9 := congrArg (List.take a) hutake
          rw [List.take_take, List.take_take] at h9
          rwa [min_eq_left (by omega : a ≤ j)] at h9
        have hul2 : a < u.length := by omega
        have hpm2 : matchL ceq (k.take a) u = .prefixMatch a :=
          matchL_ceq_take_prefix k u a (by omega) hul2 hutake2
        rw [hpm2]
        dsimp only
        rw [if_pos (by rw [List.length_take]; omega)]
        have hshift := matchL_drop_shift ceq a j k u hj hmu
        rw [lookupScan_cons_ne ceq _ _ _ (by simp only [Node.key_mk]; rw [hshift]; intro hcon; cases hcon)]
        rw [lookupGo_eq]
        simp only [Node.key_mk, Node.value_mk, Node.children_mk, hshift]
        by_cases hjk : j = k.length
        · rw [if_pos (by rw [List.length_drop]; omega), if_pos hjk]
          have harg : (u.drop a).drop (j - a) = u.drop j := by
            rw [List.drop_drop]
            congr 1
            omega
          rw [harg]
        · rw [if_neg (by rw [List.length_drop]; omega), if_neg hjk]
  · -- scan of an empty children list
    intro x
    unfold InsDiffScan
    intro hfk ch2 hcon
    rw [show insertScan ceq v [] x = Option.none from rfl] at hcon
    cases hcon
  · -- scan: this child does not match the inserted key
    intro c rest fullKey h ih
    unfold InsDiffScan
    intro hfk ch2 hsome u hne
    rw [insertScan_cons, h] at hsome
    cases hrec : insertScan ceq v rest fullKey with
    | none =>
      rw [hrec] at hsome
      cases hsome
    | some l2 =>
      rw [hrec] at hsome
      have h3 : c :: l2 = ch2 := by injection hsome
      subst h3
      rw [lookupScan_cons, lookupScan_cons]
      cases hmu : matchL ceq c.key u with
      | noMatch =>
        unfold InsDiffScan at ih
        exact ih hfk l2 hrec u hne
      | full => rfl
      | prefixMatch j => rfl
  · -- scan: this child matches and receives the insertion
    intro c rest fullKey h ih
    unfold InsDiffScan
    intro hfk ch2 hsome u hne
    have hnm : matchL ceq c.key fullKey ≠ .noMatch := fun hcon => h hcon
    have hsome2 : insertGo ceq v c fullKey :: rest = ch2 := by
      rw [insertScan_cons] at hsome
      cases hm : matchL ceq c.key fullKey with
      | noMatch => exact absurd hm hnm
      | full =>
        rw [hm] at hsome
        injection hsome
      | prefixMatch i =>
        rw [hm] at hsome
        injection hsome
    subst hsome2
    by_cases hmu : matchL ceq c.key u = .noMatch
    · have hmu2 : matchL ceq (insertGo ceq v c fullKey).key u = .noMatch :=
        (matchL_ceq_insertGo_key_noMatch_iff v c fullKey u hfk).2 hmu
      rw [lookupScan_cons_noMatch ceq _ _ _ hmu2, lookupScan_cons_noMatch ceq _ _ _ hmu]
    · have hmu2 : matchL ceq (insertGo ceq v c fullKey).key u ≠ .noMatch := by
        intro hcon
        exact hmu ((matchL_ceq_insertGo_key_noMatch_iff v c fullKey u hfk).1 hcon)
      rw [lookupScan_cons_ne ceq _ _ _ hmu2, lookupScan_cons_ne ceq _ _ _ hmu]
      unfold InsDiffGo at ih
      exact ih u hne

/-- Root-level frame property: inserting key `fk` does not change the lookup
of any other key `u`. -/
theorem setM_lookupM_diff (v : Nat) (t : Option Node) (fk u : List Char)
    (hne : u ≠ fk) : lookupM ceq (setM ceq t fk v) u = lookupM ceq t u := by
  cases t with
  | none =>
    simp only [setM]
    rw [lookupM_some, lookupGo_leaf_ne v fk u hne]
    rfl
  | some r =>
    simp only [setM]
    cases hm : matchL ceq r.key fk with
    | noMatch =>
      rw [lookupM_some, lookupM_some]
      rw [lookupGo_eq]
      simp only [Node.key_mk, Node.value_mk, Node.children_mk]
      have hrk : r.key ≠ [] := (matchL_noMatch_elim ceq r.key fk hm).1
      have hrkl : r.key.length ≠ 0 := by
        intro hcon
        apply hrk
        cases hk : r.key with
        | nil => rfl
        | cons x xs =>
          rw [hk] at hcon
          simp at hcon
      by_cases hu0 : u = []
      · subst hu0
        rw [show matchL ceq ([] : List Char) [] = .full from by simp [matchL, matchLGo]]
        dsimp only
        have hpm0 : matchL ceq r.key [] = .prefixMatch 0 := by
          simp only [matchL, matchLGo]
          rw [if_neg (fun hcon => hrkl hcon.symm)]
        rw [lookupGo_eq]
        simp only [hpm0]
        rw [if_neg (fun hcon => hrkl hcon.symm)]
      · have hpmu : matchL ceq [] u = .prefixMatch 0 := matchL_nil_pre_eval ceq u hu0
        rw [hpmu]
        dsimp only
        rw [if_pos (show 0 = ([] : List Char).length from rfl)]
        rw [List.drop_zero]
        cases hmu : matchL ceq r.key u with
        | noMatch =>
          rw [lookupScan_cons_noMatch ceq _ _ _ hmu]
          rw [lookupScan_leaf_ne v fk u hne]
          rw [lookupGo_eq]
          simp only [hmu]
        | full =>
          rw [lookupScan_cons_ne ceq _ _ _ (by rw [hmu]; intro hcon; cases hcon)]
        | prefixMatch j =>
          rw [lookupScan_cons_ne ceq _ _ _ (by rw [hmu]; intro hcon; cases hcon)]
    | full =>
      rw [lookupM_some, lookupM_some]
      have h9 := insert_lookup_diff_go v r fk
      unfold InsDiffGo at h9
      exact h9 u hne
    | prefixMatch i =>
      rw [lookupM_some, lookupM_some]
      have h9 := insert_lookup_diff_go v r fk
      unfold InsDiffGo at h9
      exact h9 u hne

/-! ## From the source comparison to plain equality: the fold transfer -/

theorem char_toNat_ofNat (n : Nat) (h : n.isValidChar) : (Char.ofNat n).toNat = n := by
  rw [Char.ofNat, dif_pos h]
  simp [Char.ofNatAux, Char.toNat, UInt32.toNat]

theorem char_toLower_toLower (c : Char) : c.toLower.toLower = c.toLower := by
  unfold Char.toLower
  by_cases h : c.toNat ≥ 65 ∧ c.toNat ≤ 90
  · rw [if_pos h]
    have hv : (c.toNat + 32).isValidChar := by
      left
      have h2 : c.toNat ≤ 90 := h.2
      omega
    rw [char_toNat_ofNat _ hv]
    rw [if_neg (by omega)]
  · rw [if_neg h, if_neg h]

/-- The per-character fold `set` and the matcher apply to the search side. -/
def foldC (caseSensitive : Bool) (b : Char) : Char :=
  if caseSensitive then b else b.toLower

theorem foldK_eq_map (cs : Bool) (k : List Char) : foldK cs k = k.map (foldC cs) := by
  cases cs with
  | false => simp [foldK, foldC]
  | true =>
    simp only [foldK, foldC, if_true]
    exact (List.map_id' k).symm

theorem foldC_idem (cs : Bool) (b : Char) : foldC cs (foldC cs b) = foldC cs b := by
  cases cs with
  | false => simp [foldC, char_toLower_toLower]
  | true => rfl

theorem map_foldC_foldK (cs : Bool) (k : List Char) :
    (foldK cs k).map (foldC cs) = foldK cs k := by
  rw [foldK_eq_map, List.map_map]
  induction k with
  | nil => rfl
  | cons b t ih =>
    simp only [List.map_cons, Function.comp_apply, foldC_idem]
    simp only [List.map_map] at ih
    rw [ih]

theorem charsEqual_eq_ceq (cs : Bool) (a b : Char) (ha : a ≠ '*') :
    charsEqual cs a b = ceq a (foldC cs b) := by
  have h0 : (a == '*') = false := by
    simp only [beq_eq_false_iff_ne, ne_eq]
    exact ha
  cases cs <;> simp [charsEqual, ceq, foldC, h0]

theorem matchLGo_fold (cs : Bool) (pre : List Char) (hw : ∀ a ∈ pre, a ≠ '*') :
    ∀ (s : List Char) (index : Nat),
      matchLGo (charsEqual cs) pre index s = matchLGo ceq pre index (s.map (foldC cs)) := by
  intro s
  induction s with
  | nil =>
    intro index
    rfl
  | cons b t ih =>
    intro index
    simp only [List.map_cons, matchLGo]
    by_cases hli : pre.length ≤ index
    · rw [if_pos (Or.inl hli), if_pos (Or.inl hli)]
    · have hmem : pre.getD index ' ' ∈ pre := by
        rw [List.getD_eq_getElem pre ' ' (by omega)]
        exact List.getElem_mem _
      have hce : charsEqual cs (pre.getD index ' ') b
          = ceq (pre.getD index ' ') (foldC cs b) :=
        charsEqual_eq_ceq cs _ b (hw _ hmem)
      rw [hce]
      by_cases hc : pre.length ≤ index ∨ ceq (pre.getD index ' ') (foldC cs b) = false
      · rw [if_pos hc, if_pos hc]
      · rw [if_neg hc, if_neg hc]
        exact ih (index + 1)

theorem matchL_fold (cs : Bool) (pre s : List Char) (hw : ∀ a ∈ pre, a ≠ '*') :
    matchL (charsEqual cs) pre s = matchL ceq pre (s.map (foldC cs)) :=
  matchLGo_fold cs pre hw s 0

/-! ## Wildcard-free trees -/

mutual

/-- No key segment of the node or its descendants contains the wildcard. -/
def nodeNW : Node → Bool
  | .mk k _ ch => k.all (fun a => !(a == '*')) && listNW ch

def listNW : List Node → Bool
  | [] => true
  | c :: cs => nodeNW c && listNW cs

end

/-- Wildcard freedom of an optional root. -/
def optNW : Option Node → Bool
  | Option.none => true
  | some n => nodeNW n

theorem nodeNW_mk (k : List Char) (v : Option Nat) (ch : List Node) :
    nodeNW (.mk k v ch) = (k.all (fun a => !(a == '*')) && listNW ch) := by
  rw [nodeNW]

theorem listNW_nil : listNW [] = true := rfl

theorem listNW_cons (c : Node) (cs : List Node) :
    listNW (c :: cs) = (nodeNW c && listNW cs) := by
  rw [listNW]

theorem listNW_append (l l2 : List Node) :
    listNW (l ++ l2) = (listNW l && listNW l2) := by
  induction l with
  | nil => simp [listNW_nil]
  | cons c cs ih =>
    rw [List.cons_append, listNW_cons, listNW_cons, ih, Bool.and_assoc]

theorem no_wild_of_all (k : List Char) (h : k.all (fun a => !(a == '*')) = true) :
    ∀ a ∈ k, a ≠ '*' := by
  intro a ha
  have := List.all_eq_true.mp h a ha
  simpa using this

theorem all_of_no_wild (k : List Char) (h : ∀ a ∈ k, a ≠ '*') :
    k.all (fun a => !(a == '*')) = true := by
  rw [List.all_eq_true]
  intro a ha
  simpa using h a ha

theorem key_no_wild_of_nodeNW (n : Node) (h : nodeNW n = true) :
    ∀ a ∈ n.key, a ≠ '*' := by
  cases n with
  | mk k v ch =>
    rw [nodeNW_mk, Bool.and_eq_true] at h
    simpa using no_wild_of_all k h.1

theorem children_NW_of_nodeNW (n : Node) (h : nodeNW n = true) :
    listNW n.children = true := by
  cases n with
  | mk k v ch =>
    rw [nodeNW_mk, Bool.and_eq_true] at h
    simpa using h.2

/-- Transfer of the node lookup from the source comparison to plain equality
on the folded content, for wildcard-free trees. -/
theorem lookupGo_fold (cs : Bool) :
    ∀ (n : Node) (s : List Char), nodeNW n = true →
      lookupGo (charsEqual cs) n s = lookupGo ceq n (s.map (foldC cs)) := by
  refine lookupGo.induct (charsEqual cs)
    (fun n s => nodeNW n = true →
      lookupGo (charsEqual cs) n s = lookupGo ceq n (s.map (foldC cs)))
    (fun l s => listNW l = true →
      lookupScan (charsEqual cs) l s = lookupScan ceq l (s.map (foldC cs)))
    ?_ ?_ ?_ ?_ ?_ ?_ ?_
  · intro k nv ch fk h hnw
    have hw := no_wild_of_all k (by rw [nodeNW_mk, Bool.and_eq_true] at hnw; exact hnw.1)
    have hm2 : matchL ceq k (fk.map (foldC cs)) = .full := by
      rw [← matchL_fold cs k fk hw]
      exact h
    rw [lookupGo_eq, lookupGo_eq]
    simp only [Node.key_mk, Node.value_mk, h, hm2]
  · intro k nv ch fk h hnw
    have hw := no_wild_of_all k (by rw [nodeNW_mk, Bool.and_eq_true] at hnw; exact hnw.1)
    have hm2 : matchL ceq k (fk.map (foldC cs)) = .noMatch := by
      rw [← matchL_fold cs k fk hw]
      exact h
    rw [lookupGo_eq, lookupGo_eq]
    simp only [Node.key_mk, h, hm2]
  · intro k nv ch fk h ih hnw
    rw [nodeNW_mk, Bool.and_eq_true] at hnw
    have hw := no_wild_of_all k hnw.1
    have hm2 : matchL ceq k (fk.map (foldC cs)) = .prefixMatch k.length := by
      rw [← matchL_fold cs k fk hw]
      exact h
    rw [lookupGo_eq, lookupGo_eq]
    simp only [Node.key_mk, Node.children_mk, h, hm2, if_true]
    rw [ih hnw.2, List.map_drop]
  · intro k nv ch fk a h ha hnw
    rw [nodeNW_mk, Bool.and_eq_true] at hnw
    have hw := no_wild_of_all k hnw.1
    have hm2 : matchL ceq k (fk.map (foldC cs)) = .prefixMatch a := by
      rw [← matchL_fold cs k fk hw]
      exact h
    rw [lookupGo_eq, lookupGo_eq]
    simp only [Node.key_mk, h, hm2]
    rw [if_neg ha, if_neg ha]
  · intro x hnw
    rfl
  · intro c rest fullKey h ih hnw
    rw [listNW_cons, Bool.and_eq_true] at hnw
    have hw := key_no_wild_of_nodeNW c hnw.1
    have hm2 : matchL ceq c.key (fullKey.map (foldC cs)) = .noMatch := by
      rw [← matchL_fold cs c.key fullKey hw]
      exact h
    rw [lookupScan_cons_noMatch _ _ _ _ h, lookupScan_cons_noMatch _ _ _ _ hm2]
    exact ih hnw.2
  · intro c rest fullKey h ih hnw
    rw [listNW_cons, Bool.and_eq_true] at hnw
    have hw := key_no_wild_of_nodeNW c hnw.1
    have hnm : matchL (charsEqual cs) c.key fullKey ≠ .noMatch := fun hcon => h hcon
    have hm2 : matchL ceq c.key (fullKey.map (foldC cs)) ≠ .noMatch := by
      rw [← matchL_fold cs c.key fullKey hw]
      exact hnm
    rw [lookupScan_cons_ne _ _ _ _ hnm, lookupScan_cons_ne _ _ _ _ hm2]
    exact ih hnw.1

/-- Root-level lookup transfer. -/
theorem lookupM_fold (cs : Bool) (t : Option Node) (s : List Char)
    (hnw : optNW t = true) :
    lookupM (charsEqual cs) t s = lookupM ceq t (s.map (foldC cs)) := by
  cases t with
  | none => rfl
  | some r =>
    rw [lookupM_some, lookupM_some]
    exact lookupGo_fold cs r s hnw

/-- Transfer of the insertion from the source comparison to plain equality,
for wildcard-free trees and an already-folded key. -/
theorem insertGo_fold (cs : Bool) (v : Nat) :
    ∀ (n : Node) (fk : List Char), nodeNW n = true → fk.map (foldC cs) = fk →
      insertGo (charsEqual cs) v n fk = insertGo ceq v n fk := by
  refine insertGo.induct (charsEqual cs) v
    (fun n fk => nodeNW n = true → fk.map (foldC cs) = fk →
      insertGo (charsEqual cs) v n fk = insertGo ceq v n fk)
    (fun l fk => listNW l = true → fk.map (foldC cs) = fk →
      insertScan (charsEqual cs) v l fk = insertScan ceq v l fk)
    ?_ ?_ ?_ ?_ ?_ ?_ ?_ ?_ ?_
  · intro k nv ch fk h hnw hfix
    rw [nodeNW_mk, Bool.and_eq_true] at hnw
    have hm2 : matchL ceq k fk = .full := by
      rw [← hfix, ← matchL_fold cs k fk (no_wild_of_all k hnw.1)]
      exact h
    rw [insertGo_eq, insertGo_eq]
    simp only [Node.key_mk, h, hm2]
  · intro k nv ch fk h hnw hfix
    rw [nodeNW_mk, Bool.and_eq_true] at hnw
    have hm2 : matchL ceq k fk = .noMatch := by
      rw [← hfix, ← matchL_fold cs k fk (no_wild_of_all k hnw.1)]
      exact h
    rw [insertGo_eq, insertGo_eq]
    simp only [Node.key_mk, h, hm2]
  · intro k nv ch fk ch2 h hscan ih hnw hfix
    rw [nodeNW_mk, Bool.and_eq_true] at hnw
    have hm2 : matchL ceq k fk = .prefixMatch k.length := by
      rw [← hfix, ← matchL_fold cs k fk (no_wild_of_all k hnw.1)]
      exact h
    have hfix2 : (fk.drop k.length).map (foldC cs) = fk.drop k.length := by
      rw [List.map_drop, hfix]
    rw [insertGo_eq, insertGo_eq]
    simp only [Node.key_mk, Node.value_mk, Node.children_mk, h, hm2, if_true]
    rw [← ih hnw.2 hfix2, hscan]
  · intro k nv ch fk h hscan ih hnw hfix
    rw [nodeNW_mk, Bool.and_eq_true] at hnw
    have hm2 : matchL ceq k fk = .prefixMatch k.length := by
      rw [← hfix, ← matchL_fold cs k fk (no_wild_of_all k hnw.1)]
      exact h
    have hfix2 : (fk.drop k.length).map (foldC cs) = fk.drop k.length := by
      rw [List.map_drop, hfix]
    rw [insertGo_eq, insertGo_eq]
    simp only [Node.key_mk, Node.value_mk, Node.children_mk, h, hm2, if_true]
    rw [← ih hnw.2 hfix2, hscan]
  · intro k nv ch fk h hne hnw hfix
    rw [nodeNW_mk, Bool.and_eq_true] at hnw
    have hm2 : matchL ceq k fk = .prefixMatch fk.length := by
      have h4 := matchL_fold cs k fk (no_wild_of_all k hnw.1)
      rw [h4, hfix] at h
      exact h
    rw [insertGo_eq, insertGo_eq]
    simp only [Node.key_mk, Node.value_mk, Node.children_mk, h, hm2]
    rw [if_neg hne, if_neg hne]
  · intro k nv ch fk a h hak hafk hnw hfix
    rw [nodeNW_mk, Bool.and_eq_true] at hnw
    have hm2 : matchL ceq k fk = .prefixMatch a := by
      rw [← hfix, ← matchL_fold cs k fk (no_wild_of_all k hnw.1)]
      exact h
    rw [insertGo_eq, insertGo_eq]
    simp only [Node.key_mk, Node.value_mk, Node.children_mk, h, hm2]
    rw [if_neg hak, if_neg hak]
  · intro x hnw hfix
    rfl
  · intro c rest fullKey h ih hnw hfix
    rw [listNW_cons, Bool.and_eq_true] at hnw
    have hm2 : matchL ceq c.key fullKey = .noMatch := by
      rw [← hfix, ← matchL_fold cs c.key fullKey (key_no_wild_of_nodeNW c hnw.1)]
      exact h
    rw [insertScan_cons, insertScan_cons, h, hm2]
    rw [ih hnw.2 hfix]
  · intro c rest fullKey h ih hnw hfix
    rw [listNW_cons, Bool.and_eq_true] at hnw
    have hnm : matchL (charsEqual cs) c.key fullKey ≠ .noMatch := fun hcon => h hcon
    have hm2 : matchL ceq c.key fullKey ≠ .noMatch := by
      rw [← hfix, ← matchL_fold cs c.key fullKey (key_no_wild_of_nodeNW c hnw.1)]
      exact hnm
    rw [insertScan_cons, insertScan_cons]
    rw [ih hnw.1 hfix]
    cases hm3 : matchL (charsEqual cs) c.key fullKey with
    | noMatch => exact absurd hm3 hnm
    | full =>
      cases hm4 : matchL ceq c.key fullKey with
      | noMatch => exact absurd hm4 hm2
      | full => rfl
      | prefixMatch j => rfl
    | prefixMatch i =>
      cases hm4 : matchL ceq c.key fullKey with
      | noMatch => exact absurd hm4 hm2
      | full => rfl
      | prefixMatch j => rfl

/-- Root-level insertion transfer. -/
theorem setM_fold (cs : Bool) (v : Nat) (t : Option Node) (σ : List Char)
    (hnw : optNW t = true) (hfix : σ.map (foldC cs) = σ) :
    setM (charsEqual cs) t σ v = setM ceq t σ v := by
  cases t with
  | none => rfl
  | some r =>
    have hw : ∀ a ∈ r.key, a ≠ '*' := key_no_wild_of_nodeNW r hnw
    simp only [setM]
    cases hm : matchL (charsEqual cs) r.key σ with
    | noMatch =>
      have hm2 : matchL ceq r.key σ = .noMatch := by
        rw [← hfix, ← matchL_fold cs r.key σ hw]
        exact hm
      rw [hm2]
    | full =>
      have hm2 : matchL ceq r.key σ = .full := by
        rw [← hfix, ← matchL_fold cs r.key σ hw]
        exact hm
      rw [hm2, insertGo_fold cs v r σ hnw hfix]
    | prefixMatch i =>
      have hm2 : matchL ceq r.key σ = .prefixMatch i := by
        rw [← hfix, ← matchL_fold cs r.key σ hw]
        exact hm
      rw [hm2, insertGo_fold cs v r σ hnw hfix]

/-- Insertion of a wildcard-free key preserves wildcard freedom. -/
theorem insertGo_NW (v : Nat) :
    ∀ (n : Node) (fk : List Char), nodeNW n = true → (∀ a ∈ fk, a ≠ '*') →
      nodeNW (insertGo ceq v n fk) = true := by
  refine insertGo.induct ceq v
    (fun n fk => nodeNW n = true → (∀ a ∈ fk, a ≠ '*') →
      nodeNW (insertGo ceq v n fk) = true)
    (fun l fk => listNW l = true → (∀ a ∈ fk, a ≠ '*') →
      ∀ ch2, insertScan ceq v l fk = some ch2 → listNW ch2 = true)
    ?_ ?_ ?_ ?_ ?_ ?_ ?_ ?_ ?_
  · intro k nv ch fk h hnw hwf
    rw [insertGo_eq]
    simp only [Node.key_mk, Node.children_mk, h]
    rw [nodeNW_mk] at hnw ⊢
    exact hnw
  · intro k nv ch fk h hnw hwf
    rw [insertGo_eq]
    simp only [Node.key_mk, h]
    exact hnw
  · intro k nv ch fk ch2 h hscan ih hnw hwf
    rw [insertGo_eq]
    simp only [Node.key_mk, Node.value_mk, Node.children_mk, h, if_true]
    rw [hscan]
    rw [nodeNW_mk, Bool.and_eq_true] at hnw
    rw [nodeNW_mk, Bool.and_eq_true]
    exact ⟨hnw.1, ih hnw.2 (fun a ha => hwf a (List.drop_subset _ _ ha)) ch2 hscan⟩
  · intro k nv ch fk h hscan ih hnw hwf
    rw [insertGo_eq]
    simp only [Node.key_mk, Node.value_mk, Node.children_mk, h, if_true]
    rw [hscan]
    rw [nodeNW_mk, Bool.and_eq_true] at hnw
    rw [nodeNW_mk, Bool.and_eq_true]
    refine ⟨hnw.1, ?_⟩
    rw [listNW_append, Bool.and_eq_true]
    refine ⟨hnw.2, ?_⟩
    rw [listNW_cons, nodeNW_mk]
    simp only [listNW_nil, Bool.and_true]
    exact all_of_no_wild _ (fun a ha => hwf a (List.drop_subset _ _ ha))
  · intro k nv ch fk h hne hnw hwf
    rw [insertGo_eq]
    simp only [Node.key_mk, Node.value_mk, Node.children_mk, h]
    rw [if_neg (fun hcon => hne hcon), if_true]
    rw [nodeNW_mk, Bool.and_eq_true] at hnw
    rw [nodeNW_mk, Bool.and_eq_true]
    constructor
    · exact all_of_no_wild _ (fun a ha =>
        no_wild_of_all k hnw.1 a (List.take_subset _ _ ha))
    · rw [listNW_cons, nodeNW_mk]
      simp only [listNW_nil, Bool.and_true, Bool.and_eq_true]
      exact ⟨all_of_no_wild _ (fun a ha =>
        no_wild_of_all k hnw.1 a (List.drop_subset _ _ ha)), hnw.2⟩
  · intro k nv ch fk a h hak hafk hnw hwf
    rw [insertGo_eq]
    simp only [Node.key_mk, Node.value_mk, Node.children_mk, h]
    rw [if_neg hak, if_neg hafk]
    rw [nodeNW_mk, Bool.and_eq_true] at hnw
    rw [nodeNW_mk, Bool.and_eq_true]
    constructor
    · exact all_of_no_wild _ (fun x hx =>
        no_wild_of_all k hnw.1 x (List.take_subset _ _ hx))
    · rw [listNW_cons, listNW_cons, nodeNW_mk, nodeNW_mk]
      simp only [listNW_nil, Bool.and_true, Bool.and_eq_true]
      refine ⟨⟨all_of_no_wild _ (fun x hx =>
        no_wild_of_all k hnw.1 x (List.drop_subset _ _ hx)), hnw.2⟩, ?_⟩
      exact all_of_no_wild _ (fun x hx => hwf x (List.drop_subset _ _ hx))
  · intro x hnw hwf ch2 hcon
    rw [show insertScan ceq v [] x = Option.none from rfl] at hcon
    cases hcon
  · intro c rest fullKey h ih hnw hwf ch2 hsome
    rw [insertScan_cons, h] at hsome
    cases hrec : insertScan ceq v rest fullKey with
    | none =>
      rw [hrec] at hsome
      cases hsome
    | some l2 =>
      rw [hrec] at hsome
      have h3 : c :: l2 = ch2 := by injection hsome
      subst h3
      rw [listNW_cons, Bool.and_eq_true] at hnw ⊢
      exact ⟨hnw.1, ih hnw.2 hwf l2 hrec⟩
  · intro c rest fullKey h ih hnw hwf ch2 hsome
    have hnm : matchL ceq c.key fullKey ≠ .noMatch := fun hcon => h hcon
    have hsome2 : insertGo ceq v c fullKey :: rest = ch2 := by
      rw [insertScan_cons] at hsome
      cases hm : matchL ceq c.key fullKey with
      | noMatch => exact absurd hm hnm
      | full =>
        rw [hm] at hsome
        injection hsome
      | prefixMatch i =>
        rw [hm] at hsome
        injection hsome
    subst hsome2
    rw [listNW_cons, Bool.and_eq_true] at hnw ⊢
    exact ⟨ih hnw.1 hwf, hnw.2⟩

/-- Root insertion preserves wildcard freedom. -/
theorem setM_NW (v : Nat) (t : Option Node) (σ : List Char)
    (hnw : optNW t = true) (hwf : ∀ a ∈ σ, a ≠ '*') :
    optNW (setM ceq t σ v) = true := by
  cases t with
  | none =>
    simp only [setM, optNW, nodeNW_mk]
    simp only [listNW_nil, Bool.and_true]
    exact all_of_no_wild σ hwf
  | some r =>
    simp only [setM]
    cases hm : matchL ceq r.key σ with
    | noMatch =>
      simp only [optNW, nodeNW_mk]
      rw [listNW_cons, listNW_cons, nodeNW_mk]
      simp only [List.all_nil, Bool.true_and, listNW_nil, Bool.and_true, Bool.and_eq_true]
      exact ⟨hnw, all_of_no_wild σ hwf⟩
    | full =>
      simp only [optNW]
      exact insertGo_NW v r σ hnw hwf
    | prefixMatch i =>
      simp only [optNW]
      exact insertGo_NW v r σ hnw hwf

/-! ## Assembling map correctness for `buildTrie` -/

theorem set_caseSensitive (t : Trie) (k : List Char) (v : Nat) :
    (set t k v).caseSensitive = t.caseSensitive := by
  unfold set
  cases hr : t.root with
  | none => simp only [hr]
  | some r =>
    simp only [hr]
    cases hf : (findClosestMatchingNode t
        (keyAsPointer (if t.caseSensitive then k else k.map Char.toLower))).1 with
    | none => simp only [hf]
    | some res => simp only [hf]

/-- The entries as the pure model sees them: keys folded. -/
def foldEntries (cs : Bool) (entries : List (List Char × Nat)) : List (List Char × Nat) :=
  entries.map (fun e => (foldK cs e.1, e.2))

theorem foldC_ne_star (cs : Bool) (b : Char) (hb : b ≠ '*') : foldC cs b ≠ '*' := by
  cases cs with
  | true => exact hb
  | false =>
    show b.toLower ≠ '*'
    unfold Char.toLower
    by_cases h : b.toNat ≥ 65 ∧ b.toNat ≤ 90
    · rw [if_pos h]
      intro hcon
      have h9 := congrArg Char.toNat hcon
      rw [char_toNat_ofNat (b.toNat + 32) (by left; omega)] at h9
      rw [show ('*').toNat = 42 from rfl] at h9
      omega
    · rw [if_neg h]
      exact hb

theorem foldK_no_wild (cs : Bool) (k : List Char) (hw : ∀ a ∈ k, a ≠ '*') :
    ∀ a ∈ foldK cs k, a ≠ '*' := by
  intro a ha
  rw [foldK_eq_map] at ha
  rcases List.mem_map.mp ha with ⟨b, hb, rfl⟩
  exact foldC_ne_star cs b (hw b hb)

theorem build_fold (cs : Bool) :
    ∀ (entries : List (List Char × Nat)) (t : Trie), t.caseSensitive = cs →
      optNW t.root = true →
      (∀ e ∈ entries, ∀ a ∈ foldK cs e.1, a ≠ '*') →
      (List.foldl (fun t e => set t e.1 e.2) t entries).root
          = (foldEntries cs entries).foldl (fun r e => setM ceq r e.1 e.2) t.root
        ∧ (List.foldl (fun t e => set t e.1 e.2) t entries).caseSensitive = cs
        ∧ optNW ((foldEntries cs entries).foldl
            (fun r e => setM ceq r e.1 e.2) t.root) = true := by
  intro entries
  induction entries with
  | nil =>
    intro t hcs hnw hwf
    exact ⟨rfl, hcs, hnw⟩
  | cons e es ih =>
    intro t hcs hnw hwf
    have hroot : (set t e.1 e.2).root = setM ceq t.root (foldK cs e.1) e.2 := by
      rw [set_eq_setM]
      rw [show t.ce = charsEqual cs from by rw [Trie.ce, hcs], hcs]
      exact setM_fold cs e.2 t.root (foldK cs e.1) hnw (map_foldC_foldK cs e.1)
    have hcs2 : (set t e.1 e.2).caseSensitive = cs := by
      rw [set_caseSensitive]
      exact hcs
    have hnw2 : optNW (set t e.1 e.2).root = true := by
      rw [hroot]
      exact setM_NW e.2 t.root _ hnw (hwf e (List.mem_cons_self e es))
    have hstep := ih (set t e.1 e.2) hcs2 hnw2
      (fun q hq => hwf q (List.mem_cons_of_mem _ hq))
    simp only [List.foldl_cons]
    refine ⟨?_, hstep.2.1, ?_⟩
    · rw [hstep.1, hroot]
      rfl
    · have h9 := hstep.2.2
      rw [hroot] at h9
      exact h9

theorem pure_foldl_ne :
    ∀ (l : List (List Char × Nat)) (t : Option Node) (σ : List Char),
      (∀ e ∈ l, σ ≠ e.1) →
      lookupM ceq (l.foldl (fun r e => setM ceq r e.1 e.2) t) σ = lookupM ceq t σ := by
  intro l
  induction l with
  | nil =>
    intro t σ _
    rfl
  | cons e es ih =>
    intro t σ hall
    simp only [List.foldl_cons]
    rw [ih (setM ceq t e.1 e.2) σ (fun q hq => hall q (List.mem_cons_of_mem _ hq))]
    exact setM_lookupM_diff e.2 t e.1 σ (hall e (List.mem_cons_self e es))

theorem pure_foldl_mem :
    ∀ (l : List (List Char × Nat)) (t : Option Node),
      (l.map Prod.fst).Nodup →
      ∀ p ∈ l, lookupM ceq (l.foldl (fun r e => setM ceq r e.1 e.2) t) p.1 = some p.2 := by
  intro l
  induction l with
  | nil =>
    intro t _ p hp
    cases hp
  | cons e es ih =>
    intro t hnd p hp
    simp only [List.map_cons, List.nodup_cons] at hnd
    simp only [List.foldl_cons]
    rcases List.mem_cons.mp hp with heq | hmem
    · subst heq
      rw [pure_foldl_ne es (setM ceq t p.1 p.2) p.1 ?_]
      · exact setM_lookupM_same ceq p.2 t p.1 (fun a _ => ceq_refl a)
      · intro q hq hcon
        apply hnd.1
        rw [hcon]
        exact List.mem_map_of_mem Prod.fst hq
    · exact ih (setM ceq t e.1 e.2) hnd.2 p hmem

mutual

/-- Erase all values, keeping the structure and the keys. -/
def stripV : Node → Node
  | .mk k _ ch => .mk k Option.none (stripVL ch)

def stripVL : List Node → List Node
  | [] => []
  | c :: cs => stripV c :: stripVL cs

end

theorem stripV_mk (k : List Char) (v : Option Nat) (ch : List Node) :
    stripV (.mk k v ch) = .mk k Option.none (stripVL ch) := by
  rw [stripV]

theorem stripVL_cons (c : Node) (cs : List Node) :
    stripVL (c :: cs) = stripV c :: stripVL cs := by
  rw [stripVL]

theorem stripVL_set : ∀ (ch : List Node) (j : Nat) (x : Node),
    stripVL (ch.set j x) = (stripVL ch).set j (stripV x) := by
  intro ch
  induction ch with
  | nil =>
    intro j x
    rfl
  | cons c cst ih =>
    intro j x
    cases j with
    | zero => rfl
    | succ m =>
      rw [List.set_cons_succ, stripVL_cons, stripVL_cons, List.set_cons_succ, ih]

theorem stripVL_getD : ∀ (ch : List Node) (j : Nat),
    stripV (ch.getD j default) = (stripVL ch).getD j default := by
  intro ch
  induction ch with
  | nil =>
    intro j
    rfl
  | cons c cst ih =>
    intro j
    cases j with
    | zero => rfl
    | succ m =>
      rw [stripVL_cons, List.getD_cons_succ, List.getD_cons_succ, ih]

theorem set_getD_self : ∀ (l : List Node) (j : Nat), l.set j (l.getD j default) = l := by
  intro l
  induction l with
  | nil =>
    intro j
    rfl
  | cons c cst ih =>
    intro j
    cases j with
    | zero => rfl
    | succ m =>
      rw [List.getD_cons_succ, List.set_cons_succ, ih]

theorem stripV_updateAt (f : Node → Node) (hf : ∀ m, stripV (f m) = stripV m) :
    ∀ (p : List Nat) (n : Node), stripV (updateAt f n p) = stripV n := by
  intro p
  induction p with
  | nil =>
    intro n
    rw [updateAt_nil]
    exact hf n
  | cons j q ih =>
    intro n
    cases n with
    | mk k v ch =>
      rw [updateAt_cons, stripV_mk, stripV_mk]
      congr 1
      rw [stripVL_set, ih, stripVL_getD, set_getD_self]

/-- C4: amended — with keys that are pairwise distinct AFTER case folding and
contain no wildcard character, `get` after a sequence of `set` calls returns
the set value for every key (so insertion order cannot matter: any such
sequence gives every key its own value); and a `set` whose folded key fully
matches an existing node overwrites that node's value with no structural
change (the value-erased tree is unchanged).  The original claim as stated
is refuted by `set_get_distinct_key_collisions`: distinct keys that collide
after case folding (or under the stored-side wildcard) overwrite each other. -/
theorem set_get_correct_for_folded_distinct_keys :
    (∀ (cs : Bool) (entries : List (List Char × Nat)),
      (∀ e ∈ entries, ∀ a ∈ e.1, a ≠ '*') →
      (entries.map (fun e => foldK cs e.1)).Nodup →
      ∀ p ∈ entries, getS (buildTrie cs entries) p.1 = some p.2)
    ∧ (∀ (t : Trie) (key : List Char) (v : Nat) (res : ClosestResult),
      (findClosestMatchingNode t (keyAsPointer
        (if t.caseSensitive then key else key.map Char.toLower))).1 = some res →
      res.mtch = .full →
      (set t key v).root.map stripV = t.root.map stripV) := by
  constructor
  · intro cs entries hw hnd p hp
    have hwf : ∀ e ∈ entries, ∀ a ∈ foldK cs e.1, a ≠ '*' :=
      fun e he => foldK_no_wild cs e.1 (hw e he)
    have hbf := build_fold cs entries (mkTrie cs) rfl rfl hwf
    rw [show buildTrie cs entries
        = List.foldl (fun t e => set t e.1 e.2) (mkTrie cs) entries from rfl]
    rw [getS_eq_lookupM]
    rw [show (List.foldl (fun t e => set t e.1 e.2) (mkTrie cs) entries).ce
        = charsEqual cs from by rw [Trie.ce, hbf.2.1]]
    rw [hbf.1]
    rw [lookupM_fold cs _ p.1 hbf.2.2]
    rw [← foldK_eq_map]
    have hmem : (foldK cs p.1, p.2) ∈ foldEntries cs entries :=
      List.mem_map_of_mem _ hp
    have hnd2 : ((foldEntries cs entries).map Prod.fst).Nodup := by
      have h9 : (foldEntries cs entries).map Prod.fst
          = entries.map (fun e => foldK cs e.1) := by
        rw [foldEntries, List.map_map]
        rfl
      rw [h9]
      exact hnd
    exact pure_foldl_mem (foldEntries cs entries) (mkTrie cs).root hnd2
      (foldK cs p.1, p.2) hmem
  · intro t key v res hfc hmf
    cases hr : t.root with
    | none =>
      exfalso
      unfold findClosestMatchingNode at hfc
      rw [hr] at hfc
      simp at hfc
    | some r =>
      simp only [set, hr, hfc]
      have hup : stripV (updateAt (setEdit
          (if t.caseSensitive then key else key.map Char.toLower) v res) r res.path)
          = stripV r := by
        apply stripV_updateAt
        intro m
        simp only [setEdit, hmf]
        cases m with
        | mk mk1 mv mch =>
          rw [stripV_mk]
          simp only [Node.key_mk, Node.children_mk]
          rw [stripV_mk]
      show some (stripV (updateAt (setEdit
          (if t.caseSensitive then key else key.map Char.toLower) v res) r res.path))
          = some (stripV r)
      rw [hup]

/-- Witness for C4's amended theorem at concrete inputs. -/
theorem set_get_correct_for_folded_distinct_keys_witness :
    getS (buildTrie false [(['A', 'B'], 1), (['c'], 2)]) ['A', 'B'] = some 1
    ∧ (set (buildTrie false [(['a'], 5)]) ['a'] 7).root.map stripV
        = (buildTrie false [(['a'], 5)]).root.map stripV := by
  constructor
  · exact set_get_correct_for_folded_distinct_keys.1 false
      [(['A', 'B'], 1), (['c'], 2)] (by decide) (by decide) (['A', 'B'], 1) (by decide)
  · exact set_get_correct_for_folded_distinct_keys.2 (buildTrie false [(['a'], 5)])
      ['a'] 7 ⟨.mk ['a'] (some 5) [], [], .full, ['a'], 0⟩ rfl rfl

/-! ## Search-side congruence and the falsy-value behaviour -/

/-- Two contents that every stored character compares identically against. -/
def ceSame (ce : Char → Char → Bool) : List Char → List Char → Prop :=
  List.Forall₂ (fun x y => ∀ a, ce a x = ce a y)

theorem matchLGo_congr (ce : Char → Char → Bool) (pre : List Char) :
    ∀ (s s2 : List Char), ceSame ce s s2 → ∀ (index : Nat),
      matchLGo ce pre index s = matchLGo ce pre index s2 := by
  intro s s2 h
  induction h with
  | nil =>
    intro index
    rfl
  | @cons x y t1 t2 hxy htail ih =>
    intro index
    simp only [matchLGo]
    rw [hxy (pre.getD index ' ')]
    by_cases hc : pre.length ≤ index ∨ ce (pre.getD index ' ') y = false
    · rw [if_pos hc, if_pos hc]
    · rw [if_neg hc, if_neg hc]
      exact ih (index + 1)

theorem matchL_congr (ce : Char → Char → Bool) (pre s s2 : List Char)
    (h : ceSame ce s s2) : matchL ce pre s = matchL ce pre s2 :=
  matchLGo_congr ce pre s s2 h 0

theorem ceSame_drop (ce : Char → Char → Bool) :
    ∀ (s s2 : List Char), ceSame ce s s2 → ∀ (n : Nat),
      ceSame ce (s.drop n) (s2.drop n) := by
  intro s s2 h
  induction h with
  | nil =>
    intro n
    rw [List.drop_nil]
    exact List.Forall₂.nil
  | @cons x y t1 t2 hxy htail ih =>
    intro n
    cases n with
    | zero => exact List.Forall₂.cons hxy htail
    | succ m =>
      simp only [List.drop_succ_cons]
      exact ih m

theorem lookupGo_congr (ce : Char → Char → Bool) :
    ∀ (n : Node) (s : List Char) (s2 : List Char), ceSame ce s s2 →
      lookupGo ce n s = lookupGo ce n s2 := by
  refine lookupGo.induct ce
    (fun n s => ∀ s2, ceSame ce s s2 → lookupGo ce n s = lookupGo ce n s2)
    (fun l s => ∀ s2, ceSame ce s s2 → lookupScan ce l s = lookupScan ce l s2)
    ?_ ?_ ?_ ?_ ?_ ?_ ?_
  · intro k nv ch fk h s2 hsame
    have hm2 : matchL ce k s2 = .full := by
      rw [← matchL_congr ce k fk s2 hsame]
      exact h
    rw [lookupGo_eq, lookupGo_eq]
    simp only [Node.key_mk, Node.value_mk, h, hm2]
  · intro k nv ch fk h s2 hsame
    have hm2 : matchL ce k s2 = .noMatch := by
      rw [← matchL_congr ce k fk s2 hsame]
      exact h
    rw [lookupGo_eq, lookupGo_eq]
    simp only [Node.key_mk, h, hm2]
  · intro k nv ch fk h ih s2 hsame
    have hm2 : matchL ce k s2 = .prefixMatch k.length := by
      rw [← matchL_congr ce k fk s2 hsame]
      exact h
    rw [lookupGo_eq, lookupGo_eq]
    simp only [Node.key_mk, Node.children_mk, h, hm2, if_true]
    exact ih (s2.drop k.length) (ceSame_drop ce fk s2 hsame k.length)
  · intro k nv ch fk a h ha s2 hsame
    have hm2 : matchL ce k s2 = .prefixMatch a := by
      rw [← matchL_congr ce k fk s2 hsame]
      exact h
    rw [lookupGo_eq, lookupGo_eq]
    simp only [Node.key_mk, h, hm2]
    rw [if_neg ha, if_neg ha]
  · intro x s2 hsame
    rfl
  · intro c rest fullKey h ih s2 hsame
    have hm2 : matchL ce c.key s2 = .noMatch := by
      rw [← matchL_congr ce c.key fullKey s2 hsame]
      exact h
    rw [lookupScan_cons_noMatch ce _ _ _ h, lookupScan_cons_noMatch ce _ _ _ hm2]
    exact ih s2 hsame
  · intro c rest fullKey h ih s2 hsame
    have hnm : matchL ce c.key fullKey ≠ .noMatch := fun hcon => h hcon
    have hm2 : matchL ce c.key s2 ≠ .noMatch := by
      rw [← matchL_congr ce c.key fullKey s2 hsame]
      exact hnm
    rw [lookupScan_cons_ne ce _ _ _ hnm, lookupScan_cons_ne ce _ _ _ hm2]
    exact ih s2 hsame

theorem lookupM_congr (ce : Char → Char → Bool) (t : Option Node) (s s2 : List Char)
    (h : ceSame ce s s2) : lookupM ce t s = lookupM ce t s2 := by
  cases t with
  | none => rfl
  | some r =>
    rw [lookupM_some, lookupM_some]
    exact lookupGo_congr ce r s s2 h

theorem charsEqual_foldC (cs : Bool) (a b : Char) :
    charsEqual cs a (foldC cs b) = charsEqual cs a b := by
  cases cs <;> simp [charsEqual, foldC, char_toLower_toLower]

theorem ceSame_foldK (cs : Bool) (k : List Char) :
    ceSame (charsEqual cs) k (foldK cs k) := by
  rw [foldK_eq_map]
  induction k with
  | nil => exact List.Forall₂.nil
  | cons b t ih =>
    exact List.Forall₂.cons (fun a => (charsEqual_foldC cs a b).symm) ih

theorem charsEqual_refl_folded (cs : Bool) (b : Char) :
    charsEqual cs (foldC cs b) (foldC cs b) = true := by
  cases cs with
  | true => simp [charsEqual, foldC]
  | false => simp [charsEqual, foldC, char_toLower_toLower]

theorem charsEqual_refl_foldK (cs : Bool) (k : List Char) :
    ∀ a ∈ foldK cs k, charsEqual cs a a = true := by
  intro a ha
  rw [foldK_eq_map] at ha
  rcases List.mem_map.mp ha with ⟨b, _, rfl⟩
  exact charsEqual_refl_folded cs b

/-- `get` right after `set` of the same raw key returns the set value (for
any value, in particular a falsy one). -/
theorem getS_set_same (t : Trie) (k : List Char) (v : Nat) :
    getS (set t k v) k = some v := by
  rw [getS_eq_lookupM]
  rw [show (set t k v).ce = charsEqual t.caseSensitive from by
    rw [Trie.ce, set_caseSensitive]]
  rw [set_eq_setM]
  rw [lookupM_congr (charsEqual t.caseSensitive) _ k (foldK t.caseSensitive k)
    (ceSame_foldK t.caseSensitive k)]
  exact setM_lookupM_same (charsEqual t.caseSensitive) v t.root _
    (charsEqual_refl_foldK t.caseSensitive k)

theorem yieldOf_ne_zero (x : Node × List Char) (p : List Char × Nat)
    (hp : p ∈ yieldOf x) : p.2 ≠ 0 := by
  unfold yieldOf at hp
  split at hp
  next ht =>
    simp only [List.mem_singleton] at hp
    subst hp
    cases hv : x.1.value with
    | none =>
      rw [hv] at ht
      simp at ht
    | some w =>
      rw [hv] at ht
      simp only [truthy_some, bne_iff_ne, ne_eq] at ht
      simpa using ht
  · cases hp

theorem collectValued_ne_zero :
    ∀ (n : Node) (fk : List Char) (p : List Char × Nat),
      p ∈ collectValued n fk → p.2 ≠ 0 := by
  refine collectValued.induct
    (fun n fk => ∀ p ∈ collectValued n fk, p.2 ≠ 0)
    (fun l fk => ∀ p ∈ collectList l fk, p.2 ≠ 0) ?_ ?_ ?_
  · intro k v ch fk ih p hp
    rw [collectValued] at hp
    rcases List.mem_append.mp hp with h1 | h1
    · exact yieldOf_ne_zero _ p h1
    · exact ih p h1
  · intro fk p hp
    rw [collectList] at hp
    cases hp
  · intro c cs fk ih1 ih2 p hp
    rw [collectList] at hp
    rcases List.mem_append.mp hp with h1 | h1
    · exact ih1 p h1
    · exact ih2 p h1

theorem collectQ_ne_zero (q : List (Node × List Char)) (p : List Char × Nat)
    (hp : p ∈ collectQ q) : p.2 ≠ 0 := by
  rw [collectQ] at hp
  rcases List.mem_flatten.mp hp with ⟨l, hl, hpl⟩
  rcases List.mem_map.mp hl with ⟨x, _, rfl⟩
  exact collectValued_ne_zero x.1 x.2 p hpl

theorem runWork_ne_zero (order : IterOrder) (q : List (Node × List Char))
    (p : List Char × Nat) (hp : p ∈ runWork order q) : p.2 ≠ 0 :=
  collectQ_ne_zero q p ((runWork_perm order q).mem_iff.mp hp)

/-- `iterate` never yields a pair whose value is falsy. -/
theorem iterate_ne_zero (t : Trie) (pre : Option KeyPointer) (order : IterOrder)
    (p : List Char × Nat) (hp : p ∈ iterate t pre order) : p.2 ≠ 0 := by
  unfold iterate at hp
  cases hr : t.root with
  | none =>
    rw [hr] at hp
    cases hp
  | some r =>
    rw [hr] at hp
    cases pre with
    | none => exact runWork_ne_zero order _ p hp
    | some pp =>
      dsimp only at hp
      cases hf : (findClosestMatchingNode t pp).1 with
      | none =>
        rw [hf] at hp
        dsimp only at hp
        cases hp
      | some res =>
        rw [hf] at hp
        exact runWork_ne_zero order _ p hp

/-- `findByLongestPrefix` never returns a pair whose value is falsy. -/
theorem findByLongestPrefix_ne_zero (t : Trie) :
    ∀ (kp : KeyPointer) (wb : Bool) (r : List Char × Nat),
      findByLongestPrefix t kp wb = some r → r.2 ≠ 0 := by
  intro kp
  generalize hn : kp.posMax = N
  induction N using Nat.strong_induction_on generalizing kp with
  | _ N ih =>
    intro wb r h
    rw [findByLongestPrefix] at h
    cases hck : (longestPrefixCandidate t kp).1 with
    | none =>
      simp only [hck] at h
      cases h
    | some fv =>
      simp only [hck] at h
      have hpm : (longestPrefixCandidate t kp).2.posMax = kp.posMax := by
        rw [longestPrefixCandidate_snd]
        exact (fcmn_frame t kp).1
      cases wb with
      | false =>
        simp only [Bool.false_eq_true, if_false] at h
        by_cases hz : (fv.2 != 0) = true
        · rw [if_pos hz] at h
          injection h with h2
          subst h2
          simpa using hz
        · rw [if_neg hz] at h
          cases h
      | true =>
        simp only [if_true] at h
        by_cases hb : (longestPrefixCandidate t kp).2.pos + fv.1.length <
            (longestPrefixCandidate t kp).2.posMax ∧
            isNonBoundary (longestPrefixCandidate t kp).2.data
              ((longestPrefixCandidate t kp).2.pos + fv.1.length) = true
        · rw [dif_pos hb] at h
          exact ih ((longestPrefixCandidate t kp).2.pos + fv.1.length - 1)
            (by omega) _ rfl true r h
        · rw [dif_neg hb] at h
          by_cases hz : (fv.2 != 0) = true
          · rw [if_pos hz] at h
            injection h with h2
            subst h2
            simpa using hz
          · rw [if_neg hz] at h
            cases h

/-- C10: a falsy but non-null value (0 in the model, the image of values
like 0, '' or false) is visible through exact lookup only: `get` after
`set(k, 0)` returns it, but `iterate` never yields a pair with a falsy
value in either order (the truthiness guard skips the node), and
`findByLongestPrefix` never returns one (both the direct result and the
upward-walk result pass a truthiness check before being returned). -/
theorem falsy_value_exact_lookup_only :
    (∀ (t : Trie) (k : List Char), getS (set t k 0) k = some 0)
    ∧ (∀ (t : Trie) (pre : Option KeyPointer) (order : IterOrder)
        (p : List Char × Nat), p ∈ iterate t pre order → p.2 ≠ 0)
    ∧ (∀ (t : Trie) (kp : KeyPointer) (wb : Bool) (r : List Char × Nat),
        findByLongestPrefix t kp wb = some r → r.2 ≠ 0) :=
  ⟨fun t k => getS_set_same t k 0,
   fun t pre order p hp => iterate_ne_zero t pre order p hp,
   fun t kp wb r h => findByLongestPrefix_ne_zero t kp wb r h⟩

/-- Witness for C10 at concrete inputs. -/
theorem falsy_value_exact_lookup_only_witness :
    getS (set (mkTrie false) ['a'] 0) ['a'] = some 0
    ∧ ((['a'], 1) ∈ iterate (buildTrie false [(['a'], 1)]) Option.none .bfs
        ∧ ((['a'], 1) : List Char × Nat).2 ≠ 0)
    ∧ (findByLongestPrefix (buildTrie false [(['a'], 1)]) (keyAsPointer ['a']) false
          = some (['a'], 1)
        ∧ ((['a'], 1) : List Char × Nat).2 ≠ 0) := by
  have hmem : (['a'], 1) ∈ iterate (buildTrie false [(['a'], 1)]) Option.none .bfs := by
    rw [show iterate (buildTrie false [(['a'], 1)]) Option.none .bfs
        = runWork .bfs [(Node.mk ['a'] (some 1) [], ['a'])] from rfl]
    rw [runWork_cons_bfs]
    simp [yieldOf, childEntries, runWork_nil]
  have hfb : findByLongestPrefix (buildTrie false [(['a'], 1)]) (keyAsPointer ['a']) false
      = some (['a'], 1) := by
    rw [findByLongestPrefix]
    norm_num
    rfl
  exact ⟨falsy_value_exact_lookup_only.1 (mkTrie false) ['a'],
    ⟨hmem, falsy_value_exact_lookup_only.2.1 _ Option.none .bfs _ hmem⟩,
    ⟨hfb, falsy_value_exact_lookup_only.2.2 _ _ false _ hfb⟩⟩

/-! ## C9 invariants, part 1: non-empty keys below the root -/

mutual

/-- Every strict descendant of the node has a non-empty key segment. -/
def childrenNE : Node → Bool
  | .mk _ _ ch => listNE ch

def listNE : List Node → Bool
  | [] => true
  | c :: cs => (!(c.key.isEmpty) && childrenNE c) && listNE cs

end

/-- The invariant on an optional root: the root's own key is unconstrained
(the virtual root may be empty), every other node's key is non-empty. -/
def optNE : Option Node → Bool
  | Option.none => true
  | some r => childrenNE r

theorem childrenNE_mk (k : List Char) (v : Option Nat) (ch : List Node) :
    childrenNE (.mk k v ch) = listNE ch := by
  rw [childrenNE]

theorem listNE_nil : listNE [] = true := rfl

theorem listNE_cons (c : Node) (cs : List Node) :
    listNE (c :: cs) = ((!(c.key.isEmpty) && childrenNE c) && listNE cs) := by
  rw [listNE]

theorem listNE_append (l l2 : List Node) :
    listNE (l ++ l2) = (listNE l && listNE l2) := by
  induction l with
  | nil => simp [listNE_nil]
  | cons c cs ih =>
    rw [List.cons_append, listNE_cons, listNE_cons, ih]
    simp [Bool.and_assoc]

theorem key_isEmpty_iff (k : List Char) : k.isEmpty = true ↔ k = [] := by
  cases k <;> simp [List.isEmpty]

theorem not_isEmpty_of_length_pos (k : List Char) (h : 0 < k.length) :
    (!(k.isEmpty)) = true := by
  cases k with
  | nil => simp at h
  | cons a t => rfl

theorem insertGo_NE (ce : Char → Char → Bool) (v : Nat) :
    ∀ (n : Node) (fk : List Char), childrenNE n = true →
      childrenNE (insertGo ce v n fk) = true ∧
      ((insertGo ce v n fk).key.isEmpty = true → n.key.isEmpty = true ∨ fk = []) := by
  refine insertGo.induct ce v
    (fun n fk => childrenNE n = true →
      childrenNE (insertGo ce v n fk) = true ∧
      ((insertGo ce v n fk).key.isEmpty = true → n.key.isEmpty = true ∨ fk = []))
    (fun l fk => listNE l = true → fk ≠ [] →
      ∀ ch2, insertScan ce v l fk = some ch2 → listNE ch2 = true)
    ?_ ?_ ?_ ?_ ?_ ?_ ?_ ?_ ?_
  · intro k nv ch fk h hne
    rw [insertGo_eq]
    simp only [Node.key_mk, Node.children_mk, h]
    rw [childrenNE_mk] at hne
    exact ⟨by rw [childrenNE_mk]; exact hne, fun h2 => Or.inl h2⟩
  · intro k nv ch fk h hne
    rw [insertGo_eq]
    simp only [Node.key_mk, h]
    exact ⟨hne, fun h2 => Or.inl h2⟩
  · intro k nv ch fk ch2 h hscan ih hne
    have hlt : k.length < fk.length := by
      have hle := matchL_prefixMatch_le ce k fk _ h
      rcases Nat.lt_or_ge k.length fk.length with hlt | hge
      · exact hlt
      · exact absurd rfl (matchL_prefixMatch_ne ce k fk k.length h (by omega))
    have hfkd : fk.drop k.length ≠ [] := by
      intro hcon
      have h9 := congrArg List.length hcon
      simp only [List.length_drop, List.length_nil] at h9
      omega
    rw [insertGo_eq]
    simp only [Node.key_mk, Node.value_mk, Node.children_mk, h, if_true]
    rw [hscan]
    rw [childrenNE_mk] at hne
    refine ⟨?_, fun h2 => Or.inl h2⟩
    rw [childrenNE_mk]
    exact ih hne hfkd ch2 hscan
  · intro k nv ch fk h hscan ih hne
    have hlt : k.length < fk.length := by
      have hle := matchL_prefixMatch_le ce k fk _ h
      rcases Nat.lt_or_ge k.length fk.length with hlt | hge
      · exact hlt
      · exact absurd rfl (matchL_prefixMatch_ne ce k fk k.length h (by omega))
    rw [insertGo_eq]
    simp only [Node.key_mk, Node.value_mk, Node.children_mk, h, if_true]
    rw [hscan]
    rw [childrenNE_mk] at hne
    refine ⟨?_, fun h2 => Or.inl h2⟩
    rw [childrenNE_mk, listNE_append, Bool.and_eq_true]
    refine ⟨hne, ?_⟩
    rw [listNE_cons, childrenNE_mk]
    simp only [Node.key_mk, listNE_nil, Bool.and_true]
    exact not_isEmpty_of_length_pos _ (by simp only [List.length_drop]; omega)
  · intro k nv ch fk h hne5 hnec
    have hle := matchL_prefixMatch_le ce k fk fk.length h
    have hilt : fk.length < k.length := lt_of_le_of_ne hle.1 (fun hcon => hne5 hcon)
    rw [insertGo_eq]
    simp only [Node.key_mk, Node.value_mk, Node.children_mk, h]
    rw [if_neg hne5, if_true]
    rw [childrenNE_mk] at hnec
    constructor
    · rw [childrenNE_mk, listNE_cons, childrenNE_mk]
      simp only [Node.key_mk, listNE_nil, Bool.and_true, Bool.and_eq_true]
      refine ⟨?_, hnec⟩
      exact not_isEmpty_of_length_pos _ (by simp only [List.length_drop]; omega)
    · intro h2
      simp only [Node.key_mk] at h2
      rw [key_isEmpty_iff] at h2
      have h9 := congrArg List.length h2
      rw [List.length_take] at h9
      simp only [List.length_nil, Nat.min_eq_zero_iff] at h9
      rcases h9 with h0 | h0
      · right
        cases fk with
        | nil => rfl
        | cons x xs => simp at h0
      · left
        rw [key_isEmpty_iff]
        cases hk : k with
        | nil => rfl
        | cons x xs =>
          rw [hk] at h0
          simp at h0
  · intro k nv ch fk a h hak hafk hnec
    have hle := matchL_prefixMatch_le ce k fk a h
    have hak2 : a < k.length := lt_of_le_of_ne hle.1 hak
    have hafk2 : a < fk.length := lt_of_le_of_ne hle.2 hafk
    rw [insertGo_eq]
    simp only [Node.key_mk, Node.value_mk, Node.children_mk, h]
    rw [if_neg hak, if_neg hafk]
    rw [childrenNE_mk] at hnec
    constructor
    · rw [childrenNE_mk, listNE_cons, listNE_cons, childrenNE_mk, childrenNE_mk]
      simp only [Node.key_mk, listNE_nil, Bool.and_true, Bool.and_eq_true]
      refine ⟨⟨?_, hnec⟩, ?_⟩
      · exact not_isEmpty_of_length_pos _ (by simp only [List.length_drop]; omega)
      · exact not_isEmpty_of_length_pos _ (by simp only [List.length_drop]; omega)
    · intro h2
      simp only [Node.key_mk] at h2
      rw [key_isEmpty_iff] at h2
      have h9 := congrArg List.length h2
      rw [List.length_take] at h9
      simp only [List.length_nil, Nat.min_eq_zero_iff] at h9
      have hapos : 0 < a := by
        rcases Nat.eq_zero_or_pos a with h0 | h0
        · exfalso
          subst h0
          rcases matchL_prefixMatch_zero ce k fk h with h1 | h1
          · rw [h1] at hak2
            simp at hak2
          · rw [h1] at hafk2
            simp at hafk2
        · exact h0
      rcases h9 with h0 | h0
      · omega
      · left
        rw [key_isEmpty_iff]
        cases hk : k with
        | nil => rfl
        | cons x xs =>
          rw [hk] at h0
          simp at h0
  · intro x hne hfk ch2 hcon
    rw [show insertScan ce v [] x = Option.none from rfl] at hcon
    cases hcon
  · intro c rest fullKey h ih hne hfk ch2 hsome
    rw [insertScan_cons, h] at hsome
    cases hrec : insertScan ce v rest fullKey with
    | none =>
      rw [hrec] at hsome
      cases hsome
    | some l2 =>
      rw [hrec] at hsome
      have h3 : c :: l2 = ch2 := by injection hsome
      subst h3
      rw [listNE_cons, Bool.and_eq_true] at hne ⊢
      exact ⟨hne.1, ih hne.2 hfk l2 hrec⟩
  · intro c rest fullKey h ih hne hfk ch2 hsome
    have hnm : matchL ce c.key fullKey ≠ .noMatch := fun hcon => h hcon
    have hsome2 : insertGo ce v c fullKey :: rest = ch2 := by
      rw [insertScan_cons] at hsome
      cases hm : matchL ce c.key fullKey with
      | noMatch => exact absurd hm hnm
      | full =>
        rw [hm] at hsome
        injection hsome
      | prefixMatch i =>
        rw [hm] at hsome
        injection hsome
    subst hsome2
    rw [listNE_cons, Bool.and_eq_true] at hne ⊢
    rw [Bool.and_eq_true] at hne
    have hgo := ih hne.1.2
    refine ⟨?_, hne.2⟩
    rw [Bool.and_eq_true]
    refine ⟨?_, hgo.1⟩
    rw [Bool.not_eq_true', ← Bool.not_eq_true]
    intro hcon
    rcases hgo.2 hcon with h1 | h1
    · have h5 := hne.1.1
      rw [Bool.not_eq_true', ← Bool.not_eq_true] at h5
      exact h5 h1
    · exact hfk h1

/-- Root insertion preserves the non-empty-keys invariant. -/
theorem setM_NE (ce : Char → Char → Bool) (v : Nat) (t : Option Node) (σ : List Char)
    (hne : optNE t = true) : optNE (setM ce t σ v) = true := by
  cases t with
  | none =>
    simp only [setM, optNE, childrenNE_mk]
    rfl
  | some r =>
    simp only [setM]
    cases hm : matchL ce r.key σ with
    | noMatch =>
      have helim := matchL_noMatch_elim ce r.key σ hm
      simp only [optNE, childrenNE_mk]
      rw [listNE_cons, listNE_cons, childrenNE_mk]
      simp only [Node.key_mk, listNE_nil, Bool.and_true, Bool.and_eq_true]
      refine ⟨⟨?_, hne⟩, ?_⟩
      · exact not_isEmpty_of_length_pos _ (by
          cases hk : r.key with
          | nil => exact absurd hk helim.1
          | cons x xs => simp)
      · exact not_isEmpty_of_length_pos _ (by
          cases hσ : σ with
          | nil => exact absurd hσ helim.2.1
          | cons x xs => simp)
    | full =>
      simp only [optNE]
      exact (insertGo_NE ce v r σ hne).1
    | prefixMatch i =>
      simp only [optNE]
      exact (insertGo_NE ce v r σ hne).1

/-! ### C9, part 2: the traversal's `fullKey` is the concatenation of the
key segments along the root-to-node path. -/

/-- Concatenation of the key segments along a child-index path below `n`
(the node's own key excluded). -/
def pathKeys : Node → List Nat → List Char
  | _, [] => []
  | n, j :: p =>
    (n.children.getD j default).key ++ pathKeys (n.children.getD j default) p

theorem getD_of_drop_cons {α : Type} [Inhabited α] (j : Nat) (l : List α) (c : α)
    (cs : List α) (h : l.drop j = c :: cs) : l.getD j default = c := by
  induction j generalizing l with
  | zero =>
    rw [List.drop_zero] at h
    rw [h]
    rfl
  | succ j ih =>
    cases l with
    | nil => simp at h
    | cons x xs =>
      rw [List.drop_succ_cons] at h
      exact ih xs h

theorem nodeAt_append_one (p : List Nat) (j : Nat) : ∀ r : Node,
    nodeAt r (p ++ [j]) = (nodeAt r p).children.getD j default := by
  induction p with
  | nil => intro r; rfl
  | cons a q ih =>
    intro r
    rw [List.cons_append]
    show nodeAt (r.children.getD a default) (q ++ [j]) = _
    rw [ih]
    rfl

theorem pathKeys_append_one (p : List Nat) (j : Nat) : ∀ r : Node,
    pathKeys r (p ++ [j]) =
      pathKeys r p ++ ((nodeAt r p).children.getD j default).key := by
  induction p with
  | nil =>
    intro r
    show (r.children.getD j default).key ++ [] = [] ++ _
    rw [List.append_nil, List.nil_append]
    rfl
  | cons a q ih =>
    intro r
    rw [List.cons_append]
    show (r.children.getD a default).key ++ pathKeys (r.children.getD a default) (q ++ [j]) = _
    rw [ih]
    show _ = (r.children.getD a default).key ++ pathKeys (r.children.getD a default) q ++
      ((nodeAt (r.children.getD a default) q).children.getD j default).key
    rw [List.append_assoc]

/-- Go motive for the path/fullKey coherence of the traversal. -/
def GoPath (ce : Char → Char → Bool) (n : Node) (i : Nat) (kp : KeyPointer)
    (path : List Nat) (fullKey : List Char) (sumIndex : Nat) : Prop :=
  ∀ r : Node, nodeAt r path = n → fullKey = r.key ++ pathKeys r path →
    (fcmnGo ce n i kp path fullKey sumIndex).1.node =
      nodeAt r (fcmnGo ce n i kp path fullKey sumIndex).1.path ∧
    (fcmnGo ce n i kp path fullKey sumIndex).1.fullKey =
      r.key ++ pathKeys r (fcmnGo ce n i kp path fullKey sumIndex).1.path

/-- Scan motive for the path/fullKey coherence of the traversal. -/
def ScanPath (ce : Char → Char → Bool) (n : Node) (i : Nat) (kp : KeyPointer)
    (path : List Nat) (fullKey : List Char) (sumIndex : Nat)
    (l : List Node) (j : Nat) : Prop :=
  ∀ r : Node, nodeAt r path = n → fullKey = r.key ++ pathKeys r path →
    l = n.children.drop j →
    (fcmnScan ce n i kp path fullKey sumIndex l j).1.node =
      nodeAt r (fcmnScan ce n i kp path fullKey sumIndex l j).1.path ∧
    (fcmnScan ce n i kp path fullKey sumIndex l j).1.fullKey =
      r.key ++ pathKeys r (fcmnScan ce n i kp path fullKey sumIndex l j).1.path

theorem fcmnGo_path (ce : Char → Char → Bool) :
    ∀ (n : Node) (i : Nat) (kp : KeyPointer) (path : List Nat)
      (fullKey : List Char) (sumIndex : Nat),
      GoPath ce n i kp path fullKey sumIndex := by
  refine fcmnGo.induct ce (GoPath ce) (ScanPath ce) ?_ ?_ ?_ ?_ ?_ ?_
  · intro kp path fullKey sumIndex k v ch ih
    unfold GoPath
    rw [fcmnGo_eq_scan]
    intro r hn hfk
    exact ih r hn hfk rfl
  · intro i kp path fullKey sumIndex k v ch hne
    unfold GoPath
    rw [fcmnGo_eq_stop ce k v ch i kp path fullKey sumIndex hne]
    intro r hn hfk
    exact ⟨hn.symm, hfk⟩
  · intro n i kp path fullKey sumIndex x
    unfold ScanPath
    rw [fcmnScan_nil]
    intro r hn hfk _
    exact ⟨hn.symm, hfk⟩
  · intro n i kp path fullKey sumIndex c cs j hm
    unfold ScanPath
    rw [fcmnScan_cons_full ce n i kp path fullKey sumIndex c cs j hm]
    intro r hn hfk hl
    have hc : n.children.getD j default = c := getD_of_drop_cons j n.children c cs hl.symm
    constructor
    · dsimp only
      rw [nodeAt_append_one, hn, hc]
    · dsimp only
      rw [pathKeys_append_one, hn, hc, hfk, List.append_assoc]
  · intro n i kp path fullKey sumIndex c cs j jIdx hm ih
    unfold ScanPath
    rw [fcmnScan_cons_prefixM ce n i kp path fullKey sumIndex c cs j jIdx hm]
    intro r hn hfk hl
    have hc : n.children.getD j default = c := getD_of_drop_cons j n.children c cs hl.symm
    refine ih r ?_ ?_
    · rw [nodeAt_append_one, hn, hc]
    · rw [pathKeys_append_one, hn, hc, hfk, List.append_assoc]
  · intro n i kp path fullKey sumIndex c cs j hm ih
    unfold ScanPath
    rw [fcmnScan_cons_none ce n i kp path fullKey sumIndex c cs j hm]
    intro r hn hfk hl
    refine ih r hn hfk ?_
    have h3 := congrArg List.tail hl
    rw [List.tail_cons] at h3
    rw [h3, List.tail_drop]

/-- The traversal's result node is the node at its reported path, and its
reported `fullKey` is the concatenation of the key segments from the root
down to that node. -/
theorem fcmn_fullKey_path (t : Trie) (kp : KeyPointer) (r : Node) (res : ClosestResult)
    (hr : t.root = some r) (h : (findClosestMatchingNode t kp).1 = some res) :
    res.node = nodeAt r res.path ∧ res.fullKey = r.key ++ pathKeys r res.path := by
  rw [findClosestMatchingNode] at h
  simp only [hr] at h
  cases h1 : matchPrefix t.ce r.key kp with
  | noMatch =>
    simp only [h1] at h
    cases h
  | full =>
    simp only [h1] at h
    injection h with h2
    subst h2
    exact ⟨rfl, (List.append_nil r.key).symm⟩
  | prefixMatch i =>
    simp only [h1] at h
    have hg := fcmnGo_path t.ce r i { kp with pos := kp.pos + i } [] r.key i r rfl
      (List.append_nil r.key).symm
    cases h2 : (fcmnGo t.ce r i { kp with pos := kp.pos + i } [] r.key i).1.mtch with
    | full =>
      simp only [h2] at h
      injection h with h3
      subst h3
      exact hg
    | noMatch =>
      simp only [h2] at h
      injection h with h3
      subst h3
      exact hg
    | prefixMatch a =>
      simp only [h2] at h
      injection h with h3
      subst h3
      exact hg


/-! ### C9, part 3: heap-level model of `set`'s pointer surgery.

The source maintains parent back-references and rewires them (`node.parent =
newNode`, `node.parent!.children[indexOf node] = newNode`, the reparenting
loop) through object references.  The heap is modeled as an arena: nodes live
in a list, object identity is the index, a parent pointer is an optional
index, a children array is a list of indices, and each pointer assignment of
the source is a `List.set` at the object's index, in source order. -/

structure ANode where
  key : List Char
  value : Option Nat
  parent : Option Nat
  children : List Nat

instance : Inhabited ANode := ⟨⟨[], Option.none, Option.none, []⟩⟩

structure Arena where
  nodes : List ANode
  root : Option Nat
  caseSensitive : Bool

/-- The arena's derived character-equality predicate. -/
def Arena.ce (a : Arena) : Char → Char → Bool := charsEqual a.caseSensitive

/-- Dereference an index (the arena never shrinks, so stored indices are in
range; out-of-range access is the `default` node). -/
def anode (a : Arena) (i : Nat) : ANode := a.nodes.getD i default

theorem anode_def (a : Arena) (i : Nat) : anode a i = a.nodes.getD i default := rfl

mutual

/-- The `while` loop of `findClosestMatchingNode`, over node indices: the
candidate `nid` matched `prefixMatch i`; when `i` consumes its whole key
segment the loop scans the children, else the candidate is returned.  `fuel`
bounds the traversal depth (`set` passes more than the node count, enough
for any chain of distinct nodes). -/
def fcmnAGo (a : Arena) (ce : Char → Char → Bool) :
    Nat → Nat → Nat → KeyPointer → Nat → Option (Nat × MatchType × Nat)
  | fuel, nid, i, kp, sumIndex =>
    if i = (anode a nid).key.length then
      fcmnAScan a ce fuel nid i kp sumIndex (anode a nid).children
    else
      some (nid, .prefixMatch i, sumIndex)
termination_by fuel _ _ _ _ => (fuel, 1, 0)

/-- The `for` loop over the candidate's children indices. -/
def fcmnAScan (a : Arena) (ce : Char → Char → Bool) :
    Nat → Nat → Nat → KeyPointer → Nat → List Nat → Option (Nat × MatchType × Nat)
  | _, nid, i, _, sumIndex, [] => some (nid, .prefixMatch i, sumIndex)
  | fuel, nid, i, kp, sumIndex, c :: cs =>
    match matchPrefix ce (anode a c).key kp with
    | .full => some (c, .full, 0)
    | .prefixMatch jIdx =>
      match fuel with
      | 0 => Option.none
      | fuel2 + 1 =>
        fcmnAGo a ce fuel2 c jIdx { kp with pos := kp.pos + jIdx } (sumIndex + jIdx)
    | .noMatch => fcmnAScan a ce fuel nid i kp sumIndex cs
termination_by fuel _ _ _ _ l => (fuel, 0, l.length)

end

/-- Source `findClosestMatchingNode` over the arena; only the fields `set` consumes
are kept (node index, match type, `sumIndex`). -/
def findClosestA (a : Arena) (kp : KeyPointer) : Option (Nat × MatchType × Nat) :=
  match a.root with
  | Option.none => Option.none
  | some r =>
    match matchPrefix a.ce (anode a r).key kp with
    | .noMatch => Option.none
    | .full => some (r, .full, 0)
    | .prefixMatch i =>
      fcmnAGo a a.ce (a.nodes.length + 1) r i { kp with pos := kp.pos + i } i

/-- Source `set`, branch `!result?.match`: split the root under a fresh
empty-key virtual root (`this.root.parent = node; this.root = node;
this.root.children.push(leaf)`); `r` is the old root's index. -/
def setRootSplit (a : Arena) (ks : List Char) (v : Nat) (r : Nat) : Arena :=
  let n := a.nodes.length
  let ns := a.nodes.set r { anode a r with parent := some n }
  { a with
    nodes := ns ++ [⟨[], Option.none, Option.none, [r, n + 1]⟩, ⟨ks, some v, some n, []⟩],
    root := some n }

/-- Source `set`, branch `match.index === posMax - pos`: insert a parent
node above `nid` (assignments in source order: `node.key = node.key.slice
(index)`; then `this.root = newNode` or `node.parent!.children[indexOf
node] = newNode`; then `node.parent = newNode`).  The `node.parent!`
dereference of a parentless non-root node cannot happen (the source uses a
non-null assertion); that arm leaves the children lists unchanged. -/
def setInsertParent (a : Arena) (v : Nat) (nid i : Nat) : Arena :=
  let n := a.nodes.length
  let node := anode a nid
  let newNode : ANode := ⟨node.key.take i, some v, node.parent, [nid]⟩
  let ns1 := a.nodes.set nid { node with key := node.key.drop i }
  if a.root = some nid then
    { a with
      nodes := (ns1.set nid { ns1.getD nid default with parent := some n }) ++ [newNode],
      root := some n }
  else
    match node.parent with
    | some pid =>
      let pn := ns1.getD pid default
      let ns2 := ns1.set pid
        { pn with children := pn.children.set (List.indexOf nid pn.children) n }
      { a with
        nodes := (ns2.set nid { ns2.getD nid default with parent := some n }) ++ [newNode] }
    | Option.none =>
      { a with
        nodes := (ns1.set nid { ns1.getD nid default with parent := some n }) ++ [newNode] }

/-- The `for (const child of newNode.children) child.parent = newNode` loop. -/
def reparent (ns : List ANode) (ids : List Nat) (p : Option Nat) : List ANode :=
  ids.foldl (fun ms c => ms.set c { ms.getD c default with parent := p }) ns

/-- Source `set`, branch `match.index < node.key.length`: split `nid`,
pushing its suffix, value and children down into a new child, reparenting
the moved children, and, unless the new key was consumed exactly
(`sumIndex === keyString.length`), adding a fresh leaf for the remainder. -/
def setSplitNode (a : Arena) (ks : List Char) (v : Nat) (nid i sumIndex : Nat) : Arena :=
  let n := a.nodes.length
  let node := anode a nid
  let newNode : ANode := ⟨node.key.drop i, node.value, some nid, node.children⟩
  let isExact := sumIndex = ks.length
  let ns1 := a.nodes.set nid
    { node with key := node.key.take i,
                value := if isExact then some v else Option.none,
                children := [n] }
  let ns2 := reparent ns1 newNode.children (some n)
  if isExact then
    { a with nodes := ns2 ++ [newNode] }
  else
    { a with
      nodes := (ns2.set nid { ns2.getD nid default with children := [n, n + 1] }) ++
        [newNode, ⟨ks.drop sumIndex, some v, some nid, []⟩] }

/-- Source `set`, final prefix branch: push a fresh leaf onto `nid`'s
children. -/
def setAddChild (a : Arena) (ks : List Char) (v : Nat) (nid sumIndex : Nat) : Arena :=
  { a with
    nodes := (a.nodes.set nid
        { anode a nid with children := (anode a nid).children ++ [a.nodes.length] }) ++
      [⟨ks.drop sumIndex, some v, some nid, []⟩] }

/-- Source `set`, `else` branch: overwrite the matched node's value. -/
def setValueAt (a : Arena) (v : Nat) (nid : Nat) : Arena :=
  { a with nodes := a.nodes.set nid { anode a nid with value := some v } }

/-- Source `set` over the arena: fold the key, handle the empty trie, then
dispatch on the traversal result exactly as the source's branch ladder. -/
def setArena (a : Arena) (key : List Char) (v : Nat) : Arena :=
  let ks := if a.caseSensitive then key else key.map Char.toLower
  match a.root with
  | Option.none =>
    { a with nodes := a.nodes ++ [⟨ks, some v, Option.none, []⟩],
             root := some a.nodes.length }
  | some r =>
    match findClosestA a (keyAsPointer ks) with
    | Option.none => setRootSplit a ks v r
    | some (nid, .prefixMatch i, sumIndex) =>
      if i = ks.length then setInsertParent a v nid i
      else if i < (anode a nid).key.length then setSplitNode a ks v nid i sumIndex
      else setAddChild a ks v nid sumIndex
    | some (nid, _, _) => setValueAt a v nid

/-- Bulk construction from entries over the empty arena. -/
def buildArena (cs : Bool) (entries : List (List Char × Nat)) : Arena :=
  entries.foldl (fun a e => setArena a e.1 e.2) ⟨[], Option.none, cs⟩

/-- Well-formedness of the parent/children pointer structure: children
indices are in range and back-reference their parent, each children list
has no duplicates, every parent pointer is matched by a children entry, the
root is parentless, only the root is parentless, and an empty arena has no
root. -/
structure AWF (a : Arena) : Prop where
  coh : ∀ i, i < a.nodes.length → ∀ j ∈ (anode a i).children,
      j < a.nodes.length ∧ (anode a j).parent = some i
  cnodup : ∀ i, i < a.nodes.length → (anode a i).children.Nodup
  pmem : ∀ j, j < a.nodes.length → ∀ i, (anode a j).parent = some i →
      i < a.nodes.length ∧ j ∈ (anode a i).children
  rootOK : ∀ r, a.root = some r → r < a.nodes.length ∧ (anode a r).parent = Option.none
  rootAll : ∀ j, j < a.nodes.length → (anode a j).parent = Option.none → a.root = some j
  emptyOK : a.root = Option.none → a.nodes = []
  noSelf : ∀ j, j < a.nodes.length → (anode a j).parent ≠ some j

/-! Access toolkit for the modified node lists. -/

theorem getD_set_self {α : Type} [Inhabited α] (l : List α) (i : Nat) (x : α)
    (h : i < l.length) : (l.set i x).getD i default = x := by
  simp [List.getD, List.getElem?_set_self, h]

theorem getD_set_ne {α : Type} [Inhabited α] (l : List α) (i j : Nat) (x : α)
    (h : i ≠ j) : (l.set i x).getD j default = l.getD j default := by
  simp [List.getD, List.getElem?_set_ne h]

theorem getD_append_lt {α : Type} [Inhabited α] (l1 l2 : List α) (i : Nat)
    (h : i < l1.length) : (l1 ++ l2).getD i default = l1.getD i default := by
  simp [List.getD, List.getElem?_append, h]

theorem getD_append_add {α : Type} [Inhabited α] (l1 l2 : List α) (k : Nat) :
    (l1 ++ l2).getD (l1.length + k) default = l2.getD k default := by
  simp [List.getD, List.getElem?_append_right (Nat.le_add_right _ _)]

theorem getD_append_len {α : Type} [Inhabited α] (l1 l2 : List α) (x : α) :
    (l1 ++ x :: l2).getD l1.length default = x := by
  have h := getD_append_add l1 (x :: l2) 0
  simpa using h

theorem getD_append_len1 {α : Type} [Inhabited α] (l1 l2 : List α) (x y : α) :
    (l1 ++ x :: y :: l2).getD (l1.length + 1) default = y := by
  have h := getD_append_add l1 (x :: y :: l2) 1
  simpa using h

theorem nodup_set_of_not_mem (l : List Nat) (k x : Nat) (h : l.Nodup)
    (hx : x ∉ l) : (l.set k x).Nodup := by
  induction l generalizing k with
  | nil => simp
  | cons a t ih =>
    rw [List.nodup_cons] at h
    cases k with
    | zero =>
      rw [List.set_cons_zero, List.nodup_cons]
      exact ⟨fun hc => hx (List.mem_cons_of_mem a hc), h.2⟩
    | succ k =>
      rw [List.set_cons_succ, List.nodup_cons]
      refine ⟨?_, ih k h.2 fun hc => hx (List.mem_cons_of_mem a hc)⟩
      intro hc
      rcases List.mem_or_eq_of_mem_set hc with hc2 | hc2
      · exact h.1 hc2
      · exact hx (hc2 ▸ List.mem_cons_self a t)

theorem mem_set_indexOf_iff (l : List Nat) (a b j : Nat) (hnd : l.Nodup)
    (ha : a ∈ l) (hb : b ∉ l) :
    j ∈ l.set (List.indexOf a l) b ↔ j = b ∨ (j ∈ l ∧ j ≠ a) := by
  induction l with
  | nil => cases ha
  | cons x t ih =>
    rw [List.nodup_cons] at hnd
    by_cases hxa : x = a
    · subst hxa
      rw [List.indexOf_cons_self, List.set_cons_zero]
      constructor
      · intro hj
        rcases List.mem_cons.mp hj with h1 | h1
        · exact Or.inl h1
        · exact Or.inr ⟨List.mem_cons_of_mem x h1, fun hc => hnd.1 (hc ▸ h1)⟩
      · intro hj
        rcases hj with h1 | ⟨h1, h2⟩
        · exact h1 ▸ List.mem_cons_self b t
        · rcases List.mem_cons.mp h1 with h3 | h3
          · exact absurd h3 h2
          · exact List.mem_cons_of_mem b h3
    · have hat : a ∈ t := by
        rcases List.mem_cons.mp ha with h1 | h1
        · exact absurd h1.symm hxa
        · exact h1
      rw [List.indexOf_cons_ne t hxa, List.set_cons_succ]
      have hbt : b ∉ t := fun hc => hb (List.mem_cons_of_mem x hc)
      rw [List.mem_cons, ih hnd.2 hat hbt]
      constructor
      · intro hj
        rcases hj with h1 | h1 | ⟨h1, h2⟩
        · exact Or.inr ⟨h1 ▸ List.mem_cons_self x t, h1 ▸ hxa⟩
        · exact Or.inl h1
        · exact Or.inr ⟨List.mem_cons_of_mem x h1, h2⟩
      · intro hj
        rcases hj with h1 | ⟨h1, h2⟩
        · exact Or.inr (Or.inl h1)
        · rcases List.mem_cons.mp h1 with h3 | h3
          · exact Or.inl h3
          · exact Or.inr (Or.inr ⟨h3, h2⟩)

theorem not_mem_of_forall_lt (l : List Nat) (n : Nat) (h : ∀ c ∈ l, c < n) :
    n ∉ l := fun hc => absurd (h n hc) (lt_irrefl n)

theorem length_reparent (ns : List ANode) (ids : List Nat) (p : Option Nat) :
    (reparent ns ids p).length = ns.length := by
  induction ids generalizing ns with
  | nil => rfl
  | cons c cs ih =>
    show (reparent (ns.set c _) cs p).length = _
    rw [ih, List.length_set]

theorem reparent_getD_not_mem (ns : List ANode) (ids : List Nat) (p : Option Nat)
    (j : Nat) (hj : j ∉ ids) :
    (reparent ns ids p).getD j default = ns.getD j default := by
  induction ids generalizing ns with
  | nil => rfl
  | cons c cs ih =>
    show (reparent (ns.set c _) cs p).getD j default = _
    rw [ih _ (fun hc => hj (List.mem_cons_of_mem c hc)),
      getD_set_ne _ _ _ _ (fun hc => hj (by rw [← hc]; exact List.mem_cons_self c cs))]

theorem reparent_getD_mem (ns : List ANode) (ids : List Nat) (p : Option Nat)
    (j : Nat) (hj : j ∈ ids) (hlen : j < ns.length) :
    (reparent ns ids p).getD j default = { ns.getD j default with parent := p } := by
  induction ids generalizing ns with
  | nil => cases hj
  | cons c cs ih =>
    show (reparent (ns.set c _) cs p).getD j default = _
    by_cases hjc : j ∈ cs
    · rw [ih _ hjc (by rw [List.length_set]; exact hlen)]
      by_cases hcj : c = j
      · subst hcj
        rw [getD_set_self _ _ _ hlen]
      · rw [getD_set_ne _ _ _ _ hcj]
    · have hcj : c = j := by
        rcases List.mem_cons.mp hj with h1 | h1
        · exact h1.symm
        · exact absurd h1 hjc
      subst hcj
      rw [reparent_getD_not_mem _ _ _ _ hjc, getD_set_self _ _ _ hlen]

theorem fcmnAGo_eq (a : Arena) (ce : Char → Char → Bool) (fuel nid i : Nat)
    (kp : KeyPointer) (sumIndex : Nat) :
    fcmnAGo a ce fuel nid i kp sumIndex =
      if i = (anode a nid).key.length then
        fcmnAScan a ce fuel nid i kp sumIndex (anode a nid).children
      else some (nid, .prefixMatch i, sumIndex) := by
  rw [fcmnAGo]

theorem fcmnAScan_nil_eq (a : Arena) (ce : Char → Char → Bool) (fuel nid i : Nat)
    (kp : KeyPointer) (sumIndex : Nat) :
    fcmnAScan a ce fuel nid i kp sumIndex [] = some (nid, .prefixMatch i, sumIndex) := by
  rw [fcmnAScan]

theorem fcmnAScan_cons_eq (a : Arena) (ce : Char → Char → Bool) (fuel nid i : Nat)
    (kp : KeyPointer) (sumIndex : Nat) (c : Nat) (cs : List Nat) :
    fcmnAScan a ce fuel nid i kp sumIndex (c :: cs) =
      match matchPrefix ce (anode a c).key kp with
      | .full => some (c, .full, 0)
      | .prefixMatch jIdx =>
        match fuel with
        | 0 => Option.none
        | fuel2 + 1 =>
          fcmnAGo a ce fuel2 c jIdx { kp with pos := kp.pos + jIdx } (sumIndex + jIdx)
      | .noMatch => fcmnAScan a ce fuel nid i kp sumIndex cs := by
  rw [fcmnAScan]

/-- The traversal only ever returns an index that is in range: it returns
its argument or descends into a child, and children indices are in range. -/
theorem fcmnA_valid (a : Arena)
    (hcoh : ∀ q, q < a.nodes.length → ∀ j ∈ (anode a q).children, j < a.nodes.length)
    (ce : Char → Char → Bool) :
    ∀ fuel : Nat,
      (∀ nid i kp sumIndex (l : List Nat), nid < a.nodes.length →
        (∀ c ∈ l, c < a.nodes.length) →
        ∀ out, fcmnAScan a ce fuel nid i kp sumIndex l = some out →
          out.1 < a.nodes.length) ∧
      (∀ nid i kp sumIndex, nid < a.nodes.length →
        ∀ out, fcmnAGo a ce fuel nid i kp sumIndex = some out →
          out.1 < a.nodes.length) := by
  intro fuel
  induction fuel with
  | zero =>
    have hscan : ∀ (l : List Nat) nid i kp sumIndex, nid < a.nodes.length →
        (∀ c ∈ l, c < a.nodes.length) →
        ∀ out, fcmnAScan a ce 0 nid i kp sumIndex l = some out →
          out.1 < a.nodes.length := by
      intro l
      induction l with
      | nil =>
        intro nid i kp sumIndex hnid _ out hout
        rw [fcmnAScan_nil_eq] at hout
        injection hout with h2
        rw [← h2]
        exact hnid
      | cons c cs ihl =>
        intro nid i kp sumIndex hnid hl out hout
        rw [fcmnAScan_cons_eq] at hout
        cases hm : matchPrefix ce (anode a c).key kp with
        | full =>
          rw [hm] at hout
          injection hout with h2
          rw [← h2]
          exact hl c (List.mem_cons_self c cs)
        | prefixMatch jIdx =>
          rw [hm] at hout
          cases hout
        | noMatch =>
          rw [hm] at hout
          exact ihl nid i kp sumIndex hnid
            (fun q hq => hl q (List.mem_cons_of_mem c hq)) out hout
    refine ⟨fun nid i kp sumIndex l => hscan l nid i kp sumIndex, ?_⟩
    intro nid i kp sumIndex hnid out hout
    rw [fcmnAGo_eq] at hout
    by_cases hkey : i = (anode a nid).key.length
    · rw [if_pos hkey] at hout
      exact hscan _ nid i kp sumIndex hnid (hcoh nid hnid) out hout
    · rw [if_neg hkey] at hout
      injection hout with h2
      rw [← h2]
      exact hnid
  | succ fuel ih =>
    have hscan : ∀ (l : List Nat) nid i kp sumIndex, nid < a.nodes.length →
        (∀ c ∈ l, c < a.nodes.length) →
        ∀ out, fcmnAScan a ce (fuel + 1) nid i kp sumIndex l = some out →
          out.1 < a.nodes.length := by
      intro l
      induction l with
      | nil =>
        intro nid i kp sumIndex hnid _ out hout
        rw [fcmnAScan_nil_eq] at hout
        injection hout with h2
        rw [← h2]
        exact hnid
      | cons c cs ihl =>
        intro nid i kp sumIndex hnid hl out hout
        rw [fcmnAScan_cons_eq] at hout
        cases hm : matchPrefix ce (anode a c).key kp with
        | full =>
          rw [hm] at hout
          injection hout with h2
          rw [← h2]
          exact hl c (List.mem_cons_self c cs)
        | prefixMatch jIdx =>
          rw [hm] at hout
          exact ih.2 c jIdx _ _ (hl c (List.mem_cons_self c cs)) out hout
        | noMatch =>
          rw [hm] at hout
          exact ihl nid i kp sumIndex hnid
            (fun q hq => hl q (List.mem_cons_of_mem c hq)) out hout
    refine ⟨fun nid i kp sumIndex l => hscan l nid i kp sumIndex, ?_⟩
    intro nid i kp sumIndex hnid out hout
    rw [fcmnAGo_eq] at hout
    by_cases hkey : i = (anode a nid).key.length
    · rw [if_pos hkey] at hout
      exact hscan _ nid i kp sumIndex hnid (hcoh nid hnid) out hout
    · rw [if_neg hkey] at hout
      injection hout with h2
      rw [← h2]
      exact hnid

/-- The wrapper only ever returns an in-range index. -/
theorem findClosestA_valid (a : Arena) (h : AWF a) (kp : KeyPointer) :
    ∀ out, findClosestA a kp = some out → out.1 < a.nodes.length := by
  intro out hout
  rw [findClosestA] at hout
  cases hr : a.root with
  | none =>
    simp only [hr] at hout
    cases hout
  | some r =>
    simp only [hr] at hout
    have hrlen := (h.rootOK r hr).1
    cases hm : matchPrefix a.ce (anode a r).key kp with
    | noMatch =>
      simp only [hm] at hout
      cases hout
    | full =>
      simp only [hm] at hout
      injection hout with h2
      rw [← h2]
      exact hrlen
    | prefixMatch i =>
      simp only [hm] at hout
      exact (fcmnA_valid a (fun q hq j hj => (h.coh q hq j hj).1) a.ce
        (a.nodes.length + 1)).2 r i _ i hrlen out hout

/-- A helper for nodup of a push. -/
theorem nodup_append_single (l : List Nat) (x : Nat) (h : l.Nodup) (hx : x ∉ l) :
    (l ++ [x]).Nodup := by
  induction l with
  | nil => simp
  | cons a t ih =>
    rw [List.nodup_cons] at h
    rw [List.cons_append, List.nodup_cons]
    refine ⟨?_, ih h.2 (fun hc => hx (List.mem_cons_of_mem a hc))⟩
    intro hc
    rcases List.mem_append.mp hc with h1 | h1
    · exact h.1 h1
    · rcases List.mem_singleton.mp h1 with h2
      exact hx (h2 ▸ List.mem_cons_self a t)

/-- Overwriting a value leaves the pointer structure untouched. -/
theorem setValueAt_AWF (a : Arena) (v : Nat) (nid : Nat) (h : AWF a) :
    AWF (setValueAt a v nid) := by
  have hlen : (setValueAt a v nid).nodes.length = a.nodes.length := List.length_set _ _ _
  have hacc : ∀ j, (anode (setValueAt a v nid) j).children = (anode a j).children ∧
      (anode (setValueAt a v nid) j).parent = (anode a j).parent := by
    intro j
    show ((a.nodes.set nid _).getD j default).children = _ ∧
      ((a.nodes.set nid _).getD j default).parent = _
    by_cases hj : nid = j
    · subst hj
      by_cases hl : nid < a.nodes.length
      · rw [getD_set_self _ _ _ hl]
        exact ⟨rfl, rfl⟩
      · rw [List.set_eq_of_length_le (Nat.le_of_not_lt hl)]
        exact ⟨rfl, rfl⟩
    · rw [getD_set_ne _ _ _ _ hj]
      exact ⟨rfl, rfl⟩
  have hroot : (setValueAt a v nid).root = a.root := rfl
  refine ⟨?_, ?_, ?_, ?_, ?_, ?_, ?_⟩
  · intro i hi j hj
    rw [hlen] at hi
    rw [(hacc i).1] at hj
    obtain ⟨h1, h2⟩ := h.coh i hi j hj
    rw [hlen, (hacc j).2]
    exact ⟨h1, h2⟩
  · intro i hi
    rw [hlen] at hi
    rw [(hacc i).1]
    exact h.cnodup i hi
  · intro j hj i hp
    rw [hlen] at hj
    rw [(hacc j).2] at hp
    obtain ⟨h1, h2⟩ := h.pmem j hj i hp
    rw [hlen, (hacc i).1]
    exact ⟨h1, h2⟩
  · intro r hr
    rw [hroot] at hr
    obtain ⟨h1, h2⟩ := h.rootOK r hr
    rw [hlen, (hacc r).2]
    exact ⟨h1, h2⟩
  · intro j hj hp
    rw [hlen] at hj
    rw [(hacc j).2] at hp
    rw [hroot]
    exact h.rootAll j hj hp
  · intro hr
    rw [hroot] at hr
    have h0 := h.emptyOK hr
    show (a.nodes.set nid _) = []
    rw [h0]
    rfl
  · intro j hj
    rw [hlen] at hj
    rw [(hacc j).2]
    exact h.noSelf j hj

/-- Pushing a fresh leaf onto an in-range node's children preserves the
pointer invariants. -/
theorem setAddChild_AWF (a : Arena) (ks : List Char) (v : Nat) (nid sumIndex : Nat)
    (h : AWF a) (hnid : nid < a.nodes.length) :
    AWF (setAddChild a ks v nid sumIndex) := by
  have hCless : ∀ c ∈ (anode a nid).children, c < a.nodes.length :=
    fun c hc => (h.coh nid hnid c hc).1
  have hlen : (setAddChild a ks v nid sumIndex).nodes.length = a.nodes.length + 1 := by
    show ((a.nodes.set nid _) ++ [_]).length = _
    rw [List.length_append, List.length_set]
    rfl
  have hacc_old : ∀ q, q < a.nodes.length → q ≠ nid →
      anode (setAddChild a ks v nid sumIndex) q = anode a q := by
    intro q hq hqn
    show ((a.nodes.set nid _) ++ [_]).getD q default = _
    rw [getD_append_lt _ _ _ (by rw [List.length_set]; exact hq),
      getD_set_ne _ _ _ _ (fun hc => hqn hc.symm)]
    rfl
  have hacc_nid : anode (setAddChild a ks v nid sumIndex) nid =
      { anode a nid with children := (anode a nid).children ++ [a.nodes.length] } := by
    show ((a.nodes.set nid _) ++ [_]).getD nid default = _
    rw [getD_append_lt _ _ _ (by rw [List.length_set]; exact hnid),
      getD_set_self _ _ _ hnid]
  have hacc_leaf : anode (setAddChild a ks v nid sumIndex) a.nodes.length =
      ⟨ks.drop sumIndex, some v, some nid, []⟩ := by
    show ((a.nodes.set nid _) ++ [_]).getD a.nodes.length default = _
    have h2 := getD_append_len (a.nodes.set nid
      { anode a nid with children := (anode a nid).children ++ [a.nodes.length] })
      ([] : List ANode) (⟨ks.drop sumIndex, some v, some nid, []⟩ : ANode)
    rw [List.length_set] at h2
    exact h2
  refine ⟨?_, ?_, ?_, ?_, ?_, ?_, ?_⟩
  · intro i hi j hj
    rw [hlen] at hi
    rcases Nat.lt_or_ge i a.nodes.length with hilt | hige
    · by_cases hin : nid = i
      · subst hin
        rw [hacc_nid] at hj
        rcases List.mem_append.mp hj with hj1 | hj1
        · obtain ⟨h1, h2⟩ := h.coh nid hnid j hj1
          refine ⟨by omega, ?_⟩
          by_cases hjn : nid = j
          · subst hjn
            rw [hacc_nid]
            exact h2
          · rw [hacc_old j h1 (fun hc => hjn hc.symm)]
            exact h2
        · rcases List.mem_singleton.mp hj1 with h2
          subst h2
          refine ⟨by omega, ?_⟩
          rw [hacc_leaf]
      · rw [hacc_old i hilt (fun hc => hin hc.symm)] at hj
        obtain ⟨h1, h2⟩ := h.coh i hilt j hj
        refine ⟨by omega, ?_⟩
        by_cases hjn : nid = j
        · subst hjn
          rw [hacc_nid]
          exact h2
        · rw [hacc_old j h1 (fun hc => hjn hc.symm)]
          exact h2
    · have hieq : i = a.nodes.length := by omega
      subst hieq
      rw [hacc_leaf] at hj
      cases hj
  · intro i hi
    rw [hlen] at hi
    rcases Nat.lt_or_ge i a.nodes.length with hilt | hige
    · by_cases hin : nid = i
      · subst hin
        rw [hacc_nid]
        exact nodup_append_single _ _ (h.cnodup nid hnid)
          (not_mem_of_forall_lt _ _ hCless)
      · rw [hacc_old i hilt (fun hc => hin hc.symm)]
        exact h.cnodup i hilt
    · have hieq : i = a.nodes.length := by omega
      subst hieq
      rw [hacc_leaf]
      exact List.nodup_nil
  · intro j hj i hp
    rw [hlen] at hj
    rcases Nat.lt_or_ge j a.nodes.length with hjlt | hjge
    · have hpold : (anode a j).parent = some i := by
        by_cases hjn : nid = j
        · subst hjn
          rw [hacc_nid] at hp
          exact hp
        · rw [hacc_old j hjlt (fun hc => hjn hc.symm)] at hp
          exact hp
      obtain ⟨h1, h2⟩ := h.pmem j hjlt i hpold
      refine ⟨by omega, ?_⟩
      by_cases hin : nid = i
      · subst hin
        rw [hacc_nid]
        exact List.mem_append.mpr (Or.inl h2)
      · rw [hacc_old i h1 (fun hc => hin hc.symm)]
        exact h2
    · have hjeq : j = a.nodes.length := by omega
      subst hjeq
      rw [hacc_leaf] at hp
      injection hp with h2
      subst h2
      refine ⟨by omega, ?_⟩
      rw [hacc_nid]
      exact List.mem_append.mpr (Or.inr (List.mem_singleton.mpr rfl))
  · intro r hr
    have hr0 : a.root = some r := hr
    obtain ⟨h1, h2⟩ := h.rootOK r hr0
    refine ⟨by omega, ?_⟩
    by_cases hrn : nid = r
    · subst hrn
      rw [hacc_nid]
      exact h2
    · rw [hacc_old r h1 (fun hc => hrn hc.symm)]
      exact h2
  · intro j hj hp
    rw [hlen] at hj
    rcases Nat.lt_or_ge j a.nodes.length with hjlt | hjge
    · have hpold : (anode a j).parent = Option.none := by
        by_cases hjn : nid = j
        · subst hjn
          rw [hacc_nid] at hp
          exact hp
        · rw [hacc_old j hjlt (fun hc => hjn hc.symm)] at hp
          exact hp
      exact h.rootAll j hjlt hpold
    · have hjeq : j = a.nodes.length := by omega
      subst hjeq
      rw [hacc_leaf] at hp
      cases hp
  · intro hr
    have h0 := h.emptyOK hr
    exfalso
    rw [h0] at hnid
    cases hnid
  · intro j hj
    rw [hlen] at hj
    rcases Nat.lt_or_ge j a.nodes.length with hjlt | hjge
    · by_cases hjn : nid = j
      · subst hjn
        rw [hacc_nid]
        exact h.noSelf nid hjlt
      · rw [hacc_old j hjlt (fun hc => hjn hc.symm)]
        exact h.noSelf j hjlt
    · have hjeq : j = a.nodes.length := by omega
      subst hjeq
      rw [hacc_leaf]
      intro hc
      injection hc with h2
      omega

/-- Splitting the root under a fresh virtual root preserves the pointer
invariants. -/
theorem setRootSplit_AWF (a : Arena) (ks : List Char) (v : Nat) (r : Nat)
    (h : AWF a) (hr : a.root = some r) : AWF (setRootSplit a ks v r) := by
  obtain ⟨hrlen, hrpar⟩ := h.rootOK r hr
  have hlen : (setRootSplit a ks v r).nodes.length = a.nodes.length + 2 := by
    show ((a.nodes.set r _) ++ [_, _]).length = _
    rw [List.length_append, List.length_set]
    rfl
  have hacc_old : ∀ q, q < a.nodes.length → q ≠ r →
      anode (setRootSplit a ks v r) q = anode a q := by
    intro q hq hqn
    show ((a.nodes.set r _) ++ [_, _]).getD q default = _
    rw [getD_append_lt _ _ _ (by rw [List.length_set]; exact hq),
      getD_set_ne _ _ _ _ (fun hc => hqn hc.symm)]
    rfl
  have hacc_r : anode (setRootSplit a ks v r) r =
      { anode a r with parent := some a.nodes.length } := by
    show ((a.nodes.set r _) ++ [_, _]).getD r default = _
    rw [getD_append_lt _ _ _ (by rw [List.length_set]; exact hrlen),
      getD_set_self _ _ _ hrlen]
  have hacc_vr : anode (setRootSplit a ks v r) a.nodes.length =
      ⟨[], Option.none, Option.none, [r, a.nodes.length + 1]⟩ := by
    show ((a.nodes.set r _) ++ [_, _]).getD a.nodes.length default = _
    have h2 := getD_append_len (a.nodes.set r
        { anode a r with parent := some a.nodes.length })
      ([⟨ks, some v, some a.nodes.length, []⟩] : List ANode)
      (⟨[], Option.none, Option.none, [r, a.nodes.length + 1]⟩ : ANode)
    rw [List.length_set] at h2
    exact h2
  have hacc_leaf : anode (setRootSplit a ks v r) (a.nodes.length + 1) =
      ⟨ks, some v, some a.nodes.length, []⟩ := by
    show ((a.nodes.set r _) ++ [_, _]).getD (a.nodes.length + 1) default = _
    have h2 := getD_append_len1 (a.nodes.set r
        { anode a r with parent := some a.nodes.length })
      ([] : List ANode)
      (⟨[], Option.none, Option.none, [r, a.nodes.length + 1]⟩ : ANode)
      (⟨ks, some v, some a.nodes.length, []⟩ : ANode)
    rw [List.length_set] at h2
    exact h2
  have hch : ∀ q, q < a.nodes.length →
      (anode (setRootSplit a ks v r) q).children = (anode a q).children := by
    intro q hq
    by_cases hqr : r = q
    · subst hqr
      rw [hacc_r]
    · rw [hacc_old q hq (fun hc => hqr hc.symm)]
  have hroot : (setRootSplit a ks v r).root = some a.nodes.length := rfl
  refine ⟨?_, ?_, ?_, ?_, ?_, ?_, ?_⟩
  · intro i hi j hj
    rw [hlen] at hi
    rcases Nat.lt_or_ge i a.nodes.length with hilt | hige
    · rw [hch i hilt] at hj
      obtain ⟨h1, h2⟩ := h.coh i hilt j hj
      have hjr : j ≠ r := by
        intro hc
        rw [hc, hrpar] at h2
        cases h2
      rw [hacc_old j h1 hjr]
      exact ⟨by omega, h2⟩
    · by_cases hieq : i = a.nodes.length
      · subst hieq
        rw [hacc_vr] at hj
        rcases List.mem_cons.mp hj with h1 | h1
        · subst h1
          rw [hacc_r]
          exact ⟨by omega, rfl⟩
        · rcases List.mem_singleton.mp h1 with h2
          subst h2
          rw [hacc_leaf]
          exact ⟨by omega, rfl⟩
      · have hieq2 : i = a.nodes.length + 1 := by omega
        subst hieq2
        rw [hacc_leaf] at hj
        cases hj
  · intro i hi
    rw [hlen] at hi
    rcases Nat.lt_or_ge i a.nodes.length with hilt | hige
    · rw [hch i hilt]
      exact h.cnodup i hilt
    · by_cases hieq : i = a.nodes.length
      · subst hieq
        rw [hacc_vr]
        refine List.nodup_cons.mpr ⟨?_, List.nodup_cons.mpr ⟨by simp, List.nodup_nil⟩⟩
        intro hc
        rcases List.mem_singleton.mp hc with h2
        omega
      · have hieq2 : i = a.nodes.length + 1 := by omega
        subst hieq2
        rw [hacc_leaf]
        exact List.nodup_nil
  · intro j hj i hp
    rw [hlen] at hj
    rcases Nat.lt_or_ge j a.nodes.length with hjlt | hjge
    · by_cases hjr : r = j
      · subst hjr
        rw [hacc_r] at hp
        injection hp with h2
        subst h2
        rw [hacc_vr]
        exact ⟨by omega, List.mem_cons_self _ _⟩
      · rw [hacc_old j hjlt (fun hc => hjr hc.symm)] at hp
        obtain ⟨h1, h2⟩ := h.pmem j hjlt i hp
        rw [hch i h1]
        exact ⟨by omega, h2⟩
    · by_cases hjeq : j = a.nodes.length
      · subst hjeq
        rw [hacc_vr] at hp
        cases hp
      · have hjeq2 : j = a.nodes.length + 1 := by omega
        subst hjeq2
        rw [hacc_leaf] at hp
        injection hp with h2
        subst h2
        rw [hacc_vr]
        exact ⟨by omega, List.mem_cons_of_mem _ (List.mem_singleton.mpr rfl)⟩
  · intro r2 hr2
    rw [hroot] at hr2
    injection hr2 with h2
    subst h2
    rw [hacc_vr]
    exact ⟨by omega, rfl⟩
  · intro j hj hp
    rw [hlen] at hj
    rw [hroot]
    rcases Nat.lt_or_ge j a.nodes.length with hjlt | hjge
    · by_cases hjr : r = j
      · subst hjr
        rw [hacc_r] at hp
        cases hp
      · rw [hacc_old j hjlt (fun hc => hjr hc.symm)] at hp
        have := h.rootAll j hjlt hp
        rw [hr] at this
        injection this with h2
        exact absurd h2 hjr
    · by_cases hjeq : j = a.nodes.length
      · rw [hjeq]
      · have hjeq2 : j = a.nodes.length + 1 := by omega
        subst hjeq2
        rw [hacc_leaf] at hp
        cases hp
  · intro hc
    rw [hroot] at hc
    cases hc
  · intro j hj
    rw [hlen] at hj
    rcases Nat.lt_or_ge j a.nodes.length with hjlt | hjge
    · by_cases hjr : r = j
      · subst hjr
        rw [hacc_r]
        intro hc
        injection hc with h2
        omega
      · rw [hacc_old j hjlt (fun hc => hjr hc.symm)]
        exact h.noSelf j hjlt
    · by_cases hjeq : j = a.nodes.length
      · subst hjeq
        rw [hacc_vr]
        intro hc
        cases hc
      · have hjeq2 : j = a.nodes.length + 1 := by omega
        subst hjeq2
        rw [hacc_leaf]
        intro hc
        injection hc with h2
        omega

theorem setInsertParent_root_eq (a : Arena) (v nid i : Nat) (hroot : a.root = some nid)
    (hnid : nid < a.nodes.length) :
    setInsertParent a v nid i = { a with
      nodes := (a.nodes.set nid ⟨(anode a nid).key.drop i, (anode a nid).value,
          some a.nodes.length, (anode a nid).children⟩) ++
        [⟨(anode a nid).key.take i, some v, (anode a nid).parent, [nid]⟩],
      root := some a.nodes.length } := by
  show (if a.root = some nid then _ else _) = _
  rw [if_pos hroot, getD_set_self _ _ _ hnid, List.set_set]

theorem setInsertParent_pid_eq (a : Arena) (v nid i pid : Nat)
    (hroot : ¬a.root = some nid) (hnid : nid < a.nodes.length)
    (hpp : (anode a nid).parent = some pid) (hpn : pid ≠ nid) :
    setInsertParent a v nid i = { a with nodes :=
      ((a.nodes.set nid ⟨(anode a nid).key.drop i, (anode a nid).value,
          some a.nodes.length, (anode a nid).children⟩).set pid
        ⟨(anode a pid).key, (anode a pid).value, (anode a pid).parent,
          (anode a pid).children.set
            (List.indexOf nid (anode a pid).children) a.nodes.length⟩) ++
      [⟨(anode a nid).key.take i, some v, some pid, [nid]⟩] } := by
  show (if a.root = some nid then _ else _) = _
  rw [if_neg hroot]
  simp only [hpp]
  rw [getD_set_ne _ _ _ _ (fun hc => hpn hc.symm)]
  rw [getD_set_ne _ _ _ _ hpn]
  rw [getD_set_self _ _ _ hnid]
  rw [List.set_comm _ _ _ hpn]
  rw [List.set_set]
  rfl

/-- Inserting a parent above the root node: invariant preservation (keys and
values abstracted; they do not enter the pointer structure). -/
theorem AWF_insert_parent_root (a : Arena) (nid : Nat) (kdrop ktake : List Char)
    (vv wv : Option Nat) (h : AWF a) (hnid : nid < a.nodes.length)
    (hroot : a.root = some nid) :
    AWF { a with
      nodes :=
        (a.nodes.set nid ⟨kdrop, vv, some a.nodes.length, (anode a nid).children⟩) ++
          [⟨ktake, wv, Option.none, [nid]⟩],
      root := some a.nodes.length } := by
  obtain ⟨hrlen, hrpar⟩ := h.rootOK nid hroot
  have hlen : ({ a with
      nodes :=
        (a.nodes.set nid ⟨kdrop, vv, some a.nodes.length, (anode a nid).children⟩) ++
          [⟨ktake, wv, Option.none, [nid]⟩],
      root := some a.nodes.length } : Arena).nodes.length = a.nodes.length + 1 := by
    show ((a.nodes.set nid _) ++ [_]).length = _
    rw [List.length_append, List.length_set]
    rfl
  have hacc_old : ∀ q, q < a.nodes.length → q ≠ nid →
      anode { a with
      nodes :=
        (a.nodes.set nid ⟨kdrop, vv, some a.nodes.length, (anode a nid).children⟩) ++
          [⟨ktake, wv, Option.none, [nid]⟩],
      root := some a.nodes.length } q = anode a q := by
    intro q hq hqn
    show ((a.nodes.set nid _) ++ [_]).getD q default = _
    rw [getD_append_lt _ _ _ (by rw [List.length_set]; exact hq),
      getD_set_ne _ _ _ _ (fun hc => hqn hc.symm)]
    rfl
  have hacc_nid : anode { a with
      nodes :=
        (a.nodes.set nid ⟨kdrop, vv, some a.nodes.length, (anode a nid).children⟩) ++
          [⟨ktake, wv, Option.none, [nid]⟩],
      root := some a.nodes.length } nid =
      ⟨kdrop, vv, some a.nodes.length, (anode a nid).children⟩ := by
    show ((a.nodes.set nid _) ++ [_]).getD nid default = _
    rw [getD_append_lt _ _ _ (by rw [List.length_set]; exact hnid),
      getD_set_self _ _ _ hnid]
  have hacc_new : anode { a with
      nodes :=
        (a.nodes.set nid ⟨kdrop, vv, some a.nodes.length, (anode a nid).children⟩) ++
          [⟨ktake, wv, Option.none, [nid]⟩],
      root := some a.nodes.length } a.nodes.length =
      ⟨ktake, wv, Option.none, [nid]⟩ := by
    show ((a.nodes.set nid _) ++ [_]).getD a.nodes.length default = _
    have h2 := getD_append_len
      (a.nodes.set nid (⟨kdrop, vv, some a.nodes.length, (anode a nid).children⟩ : ANode))
      ([] : List ANode) (⟨ktake, wv, Option.none, [nid]⟩ : ANode)
    rw [List.length_set] at h2
    exact h2
  refine ⟨?_, ?_, ?_, ?_, ?_, ?_, ?_⟩
  · intro i2 hi2 j hj
    rw [hlen] at hi2
    rcases Nat.lt_or_ge i2 a.nodes.length with hlt | hge
    · by_cases hii : nid = i2
      · subst hii
        rw [hacc_nid] at hj
        obtain ⟨h1, h2⟩ := h.coh nid hnid j hj
        have hjn : j ≠ nid := by
          intro hc
          rw [hc] at h2
          exact h.noSelf nid hnid h2
        refine ⟨by omega, ?_⟩
        rw [hacc_old j h1 hjn]
        exact h2
      · rw [hacc_old i2 hlt (fun hc => hii hc.symm)] at hj
        obtain ⟨h1, h2⟩ := h.coh i2 hlt j hj
        have hjn : j ≠ nid := by
          intro hc
          rw [hc, hrpar] at h2
          cases h2
        refine ⟨by omega, ?_⟩
        rw [hacc_old j h1 hjn]
        exact h2
    · have hieq : i2 = a.nodes.length := by omega
      subst hieq
      rw [hacc_new] at hj
      rcases List.mem_singleton.mp hj with h2
      subst h2
      refine ⟨by omega, ?_⟩
      rw [hacc_nid]
  · intro i2 hi2
    rw [hlen] at hi2
    rcases Nat.lt_or_ge i2 a.nodes.length with hlt | hge
    · by_cases hii : nid = i2
      · subst hii
        rw [hacc_nid]
        exact h.cnodup nid hnid
      · rw [hacc_old i2 hlt (fun hc => hii hc.symm)]
        exact h.cnodup i2 hlt
    · have hieq : i2 = a.nodes.length := by omega
      subst hieq
      rw [hacc_new]
      simp
  · intro j hj i2 hp
    rw [hlen] at hj
    rcases Nat.lt_or_ge j a.nodes.length with hjlt | hjge
    · by_cases hjn : nid = j
      · subst hjn
        rw [hacc_nid] at hp
        injection hp with h2
        subst h2
        refine ⟨by omega, ?_⟩
        rw [hacc_new]
        exact List.mem_singleton.mpr rfl
      · rw [hacc_old j hjlt (fun hc => hjn hc.symm)] at hp
        obtain ⟨h1, h2⟩ := h.pmem j hjlt i2 hp
        refine ⟨by omega, ?_⟩
        by_cases hin : nid = i2
        · subst hin
          rw [hacc_nid]
          exact h2
        · rw [hacc_old i2 h1 (fun hc => hin hc.symm)]
          exact h2
    · have hjeq : j = a.nodes.length := by omega
      subst hjeq
      rw [hacc_new] at hp
      cases hp
  · intro r2 hr2
    have hr2b : some a.nodes.length = some r2 := hr2
    injection hr2b with h2
    refine ⟨by omega, ?_⟩
    rw [← h2, hacc_new]
  · intro j hj hp
    rw [hlen] at hj
    show some a.nodes.length = some j
    rcases Nat.lt_or_ge j a.nodes.length with hjlt | hjge
    · by_cases hjn : nid = j
      · subst hjn
        rw [hacc_nid] at hp
        cases hp
      · rw [hacc_old j hjlt (fun hc => hjn hc.symm)] at hp
        have h2 := h.rootAll j hjlt hp
        rw [hroot] at h2
        injection h2 with h3
        exact absurd h3 hjn
    · have hjeq : j = a.nodes.length := by omega
      rw [hjeq]
  · intro hc
    have hc2 : some a.nodes.length = Option.none := hc
    cases hc2
  · intro j hj
    rw [hlen] at hj
    rcases Nat.lt_or_ge j a.nodes.length with hjlt | hjge
    · by_cases hjn : nid = j
      · subst hjn
        rw [hacc_nid]
        intro hc
        injection hc with h2
        omega
      · rw [hacc_old j hjlt (fun hc => hjn hc.symm)]
        exact h.noSelf j hjlt
    · have hjeq : j = a.nodes.length := by omega
      subst hjeq
      rw [hacc_new]
      intro hc
      cases hc

/-- Inserting a parent above a non-root node: invariant preservation. -/
theorem AWF_insert_parent_mid (a : Arena) (nid pid : Nat) (kdrop ktake : List Char)
    (vv wv : Option Nat) (h : AWF a) (hnid : nid < a.nodes.length)
    (hpp : (anode a nid).parent = some pid) (hroot : ¬a.root = some nid) :
    AWF { a with
      nodes :=
        ((a.nodes.set nid ⟨kdrop, vv, some a.nodes.length, (anode a nid).children⟩).set pid
          ⟨(anode a pid).key, (anode a pid).value, (anode a pid).parent,
            (anode a pid).children.set
              (List.indexOf nid (anode a pid).children) a.nodes.length⟩) ++
          [⟨ktake, wv, some pid, [nid]⟩] } := by
  obtain ⟨hpidlt, hmemCp⟩ := h.pmem nid hnid pid hpp
  have hpn : pid ≠ nid := by
    intro hc
    rw [hc] at hpp
    exact h.noSelf nid hnid hpp
  have hCp_nodup : (anode a pid).children.Nodup := h.cnodup pid hpidlt
  have hCp_lt : ∀ c ∈ (anode a pid).children, c < a.nodes.length :=
    fun c hc => (h.coh pid hpidlt c hc).1
  have hn_notin : a.nodes.length ∉ (anode a pid).children :=
    not_mem_of_forall_lt _ _ hCp_lt
  have hlen : ({ a with
      nodes :=
        ((a.nodes.set nid ⟨kdrop, vv, some a.nodes.length, (anode a nid).children⟩).set pid
          ⟨(anode a pid).key, (anode a pid).value, (anode a pid).parent,
            (anode a pid).children.set
              (List.indexOf nid (anode a pid).children) a.nodes.length⟩) ++
          [⟨ktake, wv, some pid, [nid]⟩] } : Arena).nodes.length = a.nodes.length + 1 := by
    show (((a.nodes.set nid _).set pid _) ++ [_]).length = _
    rw [List.length_append, List.length_set, List.length_set]
    rfl
  have hacc_old : ∀ q, q < a.nodes.length → q ≠ nid → q ≠ pid →
      anode { a with
      nodes :=
        ((a.nodes.set nid ⟨kdrop, vv, some a.nodes.length, (anode a nid).children⟩).set pid
          ⟨(anode a pid).key, (anode a pid).value, (anode a pid).parent,
            (anode a pid).children.set
              (List.indexOf nid (anode a pid).children) a.nodes.length⟩) ++
          [⟨ktake, wv, some pid, [nid]⟩] } q = anode a q := by
    intro q hq hqn hqp
    show (((a.nodes.set nid _).set pid _) ++ [_]).getD q default = _
    rw [getD_append_lt _ _ _ (by rw [List.length_set, List.length_set]; exact hq),
      getD_set_ne _ _ _ _ (fun hc => hqp hc.symm),
      getD_set_ne _ _ _ _ (fun hc => hqn hc.symm)]
    rfl
  have hacc_nid : anode { a with
      nodes :=
        ((a.nodes.set nid ⟨kdrop, vv, some a.nodes.length, (anode a nid).children⟩).set pid
          ⟨(anode a pid).key, (anode a pid).value, (anode a pid).parent,
            (anode a pid).children.set
              (List.indexOf nid (anode a pid).children) a.nodes.length⟩) ++
          [⟨ktake, wv, some pid, [nid]⟩] } nid =
      ⟨kdrop, vv, some a.nodes.length, (anode a nid).children⟩ := by
    show (((a.nodes.set nid _).set pid _) ++ [_]).getD nid default = _
    rw [getD_append_lt _ _ _ (by rw [List.length_set, List.length_set]; exact hnid),
      getD_set_ne _ _ _ _ hpn, getD_set_self _ _ _ hnid]
  have hacc_pid : anode { a with
      nodes :=
        ((a.nodes.set nid ⟨kdrop, vv, some a.nodes.length, (anode a nid).children⟩).set pid
          ⟨(anode a pid).key, (anode a pid).value, (anode a pid).parent,
            (anode a pid).children.set
              (List.indexOf nid (anode a pid).children) a.nodes.length⟩) ++
          [⟨ktake, wv, some pid, [nid]⟩] } pid =
      ⟨(anode a pid).key, (anode a pid).value, (anode a pid).parent,
        (anode a pid).children.set
          (List.indexOf nid (anode a pid).children) a.nodes.length⟩ := by
    show (((a.nodes.set nid _).set pid _) ++ [_]).getD pid default = _
    rw [getD_append_lt _ _ _ (by rw [List.length_set, List.length_set]; exact hpidlt),
      getD_set_self _ _ _ (by rw [List.length_set]; exact hpidlt)]
  have hacc_new : anode { a with
      nodes :=
        ((a.nodes.set nid ⟨kdrop, vv, some a.nodes.length, (anode a nid).children⟩).set pid
          ⟨(anode a pid).key, (anode a pid).value, (anode a pid).parent,
            (anode a pid).children.set
              (List.indexOf nid (anode a pid).children) a.nodes.length⟩) ++
          [⟨ktake, wv, some pid, [nid]⟩] } a.nodes.length =
      ⟨ktake, wv, some pid, [nid]⟩ := by
    show (((a.nodes.set nid _).set pid _) ++ [_]).getD a.nodes.length default = _
    have h2 := getD_append_len
      ((a.nodes.set nid (⟨kdrop, vv, some a.nodes.length, (anode a nid).children⟩ : ANode)).set pid
        (⟨(anode a pid).key, (anode a pid).value, (anode a pid).parent,
          (anode a pid).children.set
            (List.indexOf nid (anode a pid).children) a.nodes.length⟩ : ANode))
      ([] : List ANode) (⟨ktake, wv, some pid, [nid]⟩ : ANode)
    rw [List.length_set, List.length_set] at h2
    exact h2
  have hch : ∀ q, q < a.nodes.length → q ≠ pid →
      (anode { a with
      nodes :=
        ((a.nodes.set nid ⟨kdrop, vv, some a.nodes.length, (anode a nid).children⟩).set pid
          ⟨(anode a pid).key, (anode a pid).value, (anode a pid).parent,
            (anode a pid).children.set
              (List.indexOf nid (anode a pid).children) a.nodes.length⟩) ++
          [⟨ktake, wv, some pid, [nid]⟩] } q).children = (anode a q).children := by
    intro q hq hqp
    by_cases hqn : nid = q
    · subst hqn
      rw [hacc_nid]
    · rw [hacc_old q hq (fun hc => hqn hc.symm) hqp]
  have hpar : ∀ q, q < a.nodes.length → q ≠ nid →
      (anode { a with
      nodes :=
        ((a.nodes.set nid ⟨kdrop, vv, some a.nodes.length, (anode a nid).children⟩).set pid
          ⟨(anode a pid).key, (anode a pid).value, (anode a pid).parent,
            (anode a pid).children.set
              (List.indexOf nid (anode a pid).children) a.nodes.length⟩) ++
          [⟨ktake, wv, some pid, [nid]⟩] } q).parent = (anode a q).parent := by
    intro q hq hqn
    by_cases hqp : pid = q
    · subst hqp
      rw [hacc_pid]
    · rw [hacc_old q hq hqn (fun hc => hqp hc.symm)]
  refine ⟨?_, ?_, ?_, ?_, ?_, ?_, ?_⟩
  · intro i2 hi2 j hj
    rw [hlen] at hi2
    rcases Nat.lt_or_ge i2 a.nodes.length with hlt | hge
    · by_cases hip : pid = i2
      · subst hip
        rw [hacc_pid] at hj
        rcases (mem_set_indexOf_iff _ nid a.nodes.length j
            hCp_nodup hmemCp hn_notin).mp hj with h1 | ⟨h1, h2⟩
        · subst h1
          refine ⟨by omega, ?_⟩
          rw [hacc_new]
        · obtain ⟨h3, h4⟩ := h.coh pid hpidlt j h1
          refine ⟨by omega, ?_⟩
          rw [hpar j h3 h2]
          exact h4
      · rw [hch i2 hlt (fun hc => hip hc.symm)] at hj
        obtain ⟨h1, h2⟩ := h.coh i2 hlt j hj
        have hjn : j ≠ nid := by
          intro hc
          rw [hc, hpp] at h2
          injection h2 with h3
          exact hip h3
        refine ⟨by omega, ?_⟩
        rw [hpar j h1 hjn]
        exact h2
    · have hieq : i2 = a.nodes.length := by omega
      subst hieq
      rw [hacc_new] at hj
      rcases List.mem_singleton.mp hj with h2
      subst h2
      refine ⟨by omega, ?_⟩
      rw [hacc_nid]
  · intro i2 hi2
    rw [hlen] at hi2
    rcases Nat.lt_or_ge i2 a.nodes.length with hlt | hge
    · by_cases hip : pid = i2
      · subst hip
        rw [hacc_pid]
        exact nodup_set_of_not_mem _ _ _ hCp_nodup hn_notin
      · rw [hch i2 hlt (fun hc => hip hc.symm)]
        exact h.cnodup i2 hlt
    · have hieq : i2 = a.nodes.length := by omega
      subst hieq
      rw [hacc_new]
      simp
  · intro j hj i2 hp
    rw [hlen] at hj
    rcases Nat.lt_or_ge j a.nodes.length with hjlt | hjge
    · by_cases hjn : nid = j
      · subst hjn
        rw [hacc_nid] at hp
        injection hp with h2
        subst h2
        refine ⟨by omega, ?_⟩
        rw [hacc_new]
        exact List.mem_singleton.mpr rfl
      · rw [hpar j hjlt (fun hc => hjn hc.symm)] at hp
        obtain ⟨h1, h2⟩ := h.pmem j hjlt i2 hp
        refine ⟨by omega, ?_⟩
        by_cases hip : pid = i2
        · subst hip
          rw [hacc_pid]
          exact (mem_set_indexOf_iff _ nid a.nodes.length j
            hCp_nodup hmemCp hn_notin).mpr (Or.inr ⟨h2, fun hc => hjn hc.symm⟩)
        · rw [hch i2 h1 (fun hc => hip hc.symm)]
          exact h2
    · have hjeq : j = a.nodes.length := by omega
      subst hjeq
      rw [hacc_new] at hp
      injection hp with h2
      subst h2
      refine ⟨by omega, ?_⟩
      rw [hacc_pid]
      exact List.mem_set _ (List.indexOf nid (anode a pid).children)
        (List.indexOf_lt_length.mpr hmemCp) a.nodes.length
  · intro r2 hr2
    have hr2b : a.root = some r2 := hr2
    obtain ⟨h1, h2⟩ := h.rootOK r2 hr2b
    have hrn : r2 ≠ nid := by
      intro hc
      rw [hc] at hr2b
      exact hroot hr2b
    refine ⟨by omega, ?_⟩
    rw [hpar r2 h1 hrn]
    exact h2
  · intro j hj hp
    rw [hlen] at hj
    show a.root = some j
    rcases Nat.lt_or_ge j a.nodes.length with hjlt | hjge
    · by_cases hjn : nid = j
      · subst hjn
        rw [hacc_nid] at hp
        cases hp
      · rw [hpar j hjlt (fun hc => hjn hc.symm)] at hp
        exact h.rootAll j hjlt hp
    · have hjeq : j = a.nodes.length := by omega
      subst hjeq
      rw [hacc_new] at hp
      cases hp
  · intro hc
    have hc2 : a.root = Option.none := hc
    have h0 := h.emptyOK hc2
    exfalso
    rw [h0] at hnid
    cases hnid
  · intro j hj
    rw [hlen] at hj
    rcases Nat.lt_or_ge j a.nodes.length with hjlt | hjge
    · by_cases hjn : nid = j
      · subst hjn
        rw [hacc_nid]
        intro hc
        injection hc with h2
        omega
      · by_cases hjp : pid = j
        · subst hjp
          rw [hacc_pid]
          exact h.noSelf pid hjlt
        · rw [hacc_old j hjlt (fun hc => hjn hc.symm) (fun hc => hjp hc.symm)]
          exact h.noSelf j hjlt
    · have hjeq : j = a.nodes.length := by omega
      subst hjeq
      rw [hacc_new]
      intro hc
      injection hc with h2
      omega

/-- Inserting a parent node preserves the pointer invariants. -/
theorem setInsertParent_AWF (a : Arena) (v nid i : Nat) (h : AWF a)
    (hnid : nid < a.nodes.length) : AWF (setInsertParent a v nid i) := by
  by_cases hroot : a.root = some nid
  · rw [setInsertParent_root_eq a v nid i hroot hnid, (h.rootOK nid hroot).2]
    exact AWF_insert_parent_root a nid _ _ _ _ h hnid hroot
  · cases hpp : (anode a nid).parent with
    | none => exact absurd (h.rootAll nid hnid hpp) hroot
    | some pid =>
      have hpn : pid ≠ nid := by
        intro hc
        rw [hc] at hpp
        exact h.noSelf nid hnid hpp
      rw [setInsertParent_pid_eq a v nid i pid hroot hnid hpp hpn]
      exact AWF_insert_parent_mid a nid pid _ _ _ _ h hnid hpp hroot

theorem setSplitNode_exact_eq (a : Arena) (ks : List Char) (v : Nat)
    (nid i sumIndex : Nat) (hsx : sumIndex = ks.length)
    (hnid : nid < a.nodes.length)
    (hnotin : nid ∉ (anode a nid).children) :
    setSplitNode a ks v nid i sumIndex = { a with
      nodes :=
        reparent (a.nodes.set nid
            ⟨(anode a nid).key.take i, some v, (anode a nid).parent, [a.nodes.length]⟩)
          (anode a nid).children (some a.nodes.length) ++
          [⟨(anode a nid).key.drop i, (anode a nid).value, some nid,
            (anode a nid).children⟩] } := by
  show (if sumIndex = ks.length then _ else _) = _
  rw [if_pos hsx, if_pos hsx]

/-- Splitting a node with the new key consumed exactly: invariant
preservation (keys and values abstracted). -/
theorem AWF_split_exact (a : Arena) (nid : Nat) (ktake kdrop : List Char)
    (vv wv : Option Nat) (h : AWF a) (hnid : nid < a.nodes.length) :
    AWF { a with
      nodes :=
        reparent (a.nodes.set nid ⟨ktake, vv, (anode a nid).parent, [a.nodes.length]⟩)
          (anode a nid).children (some a.nodes.length) ++
          [⟨kdrop, wv, some nid, (anode a nid).children⟩] } := by
  have hC_lt : ∀ c ∈ (anode a nid).children, c < a.nodes.length :=
    fun c hc => (h.coh nid hnid c hc).1
  have hC_nodup : (anode a nid).children.Nodup := h.cnodup nid hnid
  have hnotin : nid ∉ (anode a nid).children := by
    intro hc
    exact h.noSelf nid hnid (h.coh nid hnid nid hc).2
  have hns1len : (a.nodes.set nid
      (⟨ktake, vv, (anode a nid).parent, [a.nodes.length]⟩ : ANode)).length =
      a.nodes.length := List.length_set _ _ _
  have hlen : ({ a with
      nodes :=
        reparent (a.nodes.set nid ⟨ktake, vv, (anode a nid).parent, [a.nodes.length]⟩)
          (anode a nid).children (some a.nodes.length) ++
          [⟨kdrop, wv, some nid, (anode a nid).children⟩] } : Arena).nodes.length = a.nodes.length + 1 := by
    show (reparent _ _ _ ++ [_]).length = _
    rw [List.length_append, length_reparent, List.length_set]
    rfl
  have hacc_nid : anode { a with
      nodes :=
        reparent (a.nodes.set nid ⟨ktake, vv, (anode a nid).parent, [a.nodes.length]⟩)
          (anode a nid).children (some a.nodes.length) ++
          [⟨kdrop, wv, some nid, (anode a nid).children⟩] } nid =
      ⟨ktake, vv, (anode a nid).parent, [a.nodes.length]⟩ := by
    show (reparent _ _ _ ++ [_]).getD nid default = _
    rw [getD_append_lt _ _ _ (by rw [length_reparent, List.length_set]; exact hnid),
      reparent_getD_not_mem _ _ _ _ hnotin, getD_set_self _ _ _ hnid]
  have hacc_in : ∀ q, q ∈ (anode a nid).children → anode { a with
      nodes :=
        reparent (a.nodes.set nid ⟨ktake, vv, (anode a nid).parent, [a.nodes.length]⟩)
          (anode a nid).children (some a.nodes.length) ++
          [⟨kdrop, wv, some nid, (anode a nid).children⟩] } q =
      { anode a q with parent := some a.nodes.length } := by
    intro q hq
    have hql : q < a.nodes.length := hC_lt q hq
    have hqn : q ≠ nid := fun hc => hnotin (hc ▸ hq)
    show (reparent _ _ _ ++ [_]).getD q default = _
    rw [getD_append_lt _ _ _ (by rw [length_reparent, List.length_set]; exact hql),
      reparent_getD_mem _ _ _ _ hq (by rw [List.length_set]; exact hql),
      getD_set_ne _ _ _ _ (fun hc => hqn hc.symm)]
    rfl
  have hacc_out : ∀ q, q < a.nodes.length → q ≠ nid →
      q ∉ (anode a nid).children → anode { a with
      nodes :=
        reparent (a.nodes.set nid ⟨ktake, vv, (anode a nid).parent, [a.nodes.length]⟩)
          (anode a nid).children (some a.nodes.length) ++
          [⟨kdrop, wv, some nid, (anode a nid).children⟩] } q = anode a q := by
    intro q hql hqn hqc
    show (reparent _ _ _ ++ [_]).getD q default = _
    rw [getD_append_lt _ _ _ (by rw [length_reparent, List.length_set]; exact hql),
      reparent_getD_not_mem _ _ _ _ hqc,
      getD_set_ne _ _ _ _ (fun hc => hqn hc.symm)]
    rfl
  have hacc_new : anode { a with
      nodes :=
        reparent (a.nodes.set nid ⟨ktake, vv, (anode a nid).parent, [a.nodes.length]⟩)
          (anode a nid).children (some a.nodes.length) ++
          [⟨kdrop, wv, some nid, (anode a nid).children⟩] } a.nodes.length =
      ⟨kdrop, wv, some nid, (anode a nid).children⟩ := by
    show (reparent _ _ _ ++ [_]).getD a.nodes.length default = _
    have h2 := getD_append_len
      (reparent (a.nodes.set nid
          (⟨ktake, vv, (anode a nid).parent, [a.nodes.length]⟩ : ANode))
        (anode a nid).children (some a.nodes.length))
      ([] : List ANode)
      (⟨kdrop, wv, some nid, (anode a nid).children⟩ : ANode)
    rw [length_reparent, List.length_set] at h2
    exact h2
  have hpar_in : ∀ j ∈ (anode a nid).children,
      (anode { a with
      nodes :=
        reparent (a.nodes.set nid ⟨ktake, vv, (anode a nid).parent, [a.nodes.length]⟩)
          (anode a nid).children (some a.nodes.length) ++
          [⟨kdrop, wv, some nid, (anode a nid).children⟩] } j).parent = some a.nodes.length := by
    intro j hj
    rw [hacc_in j hj]
  have hpar_out : ∀ j, j < a.nodes.length → j ∉ (anode a nid).children →
      (anode { a with
      nodes :=
        reparent (a.nodes.set nid ⟨ktake, vv, (anode a nid).parent, [a.nodes.length]⟩)
          (anode a nid).children (some a.nodes.length) ++
          [⟨kdrop, wv, some nid, (anode a nid).children⟩] } j).parent = (anode a j).parent := by
    intro j hjl hjc
    by_cases hjn : nid = j
    · subst hjn
      rw [hacc_nid]
    · rw [hacc_out j hjl (fun hc => hjn hc.symm) hjc]
  have hch_pres : ∀ q, q < a.nodes.length → q ≠ nid →
      (anode { a with
      nodes :=
        reparent (a.nodes.set nid ⟨ktake, vv, (anode a nid).parent, [a.nodes.length]⟩)
          (anode a nid).children (some a.nodes.length) ++
          [⟨kdrop, wv, some nid, (anode a nid).children⟩] } q).children = (anode a q).children := by
    intro q hql hqn
    by_cases hqc : q ∈ (anode a nid).children
    · rw [hacc_in q hqc]
    · rw [hacc_out q hql hqn hqc]
  refine ⟨?_, ?_, ?_, ?_, ?_, ?_, ?_⟩
  · intro i2 hi2 j hj
    rw [hlen] at hi2
    rcases Nat.lt_or_ge i2 a.nodes.length with hlt | hge
    · by_cases hii : nid = i2
      · subst hii
        rw [hacc_nid] at hj
        rcases List.mem_singleton.mp hj with h2
        subst h2
        refine ⟨by rw [hlen]; omega, ?_⟩
        rw [hacc_new]
      · rw [hch_pres i2 hlt (fun hc => hii hc.symm)] at hj
        obtain ⟨h1, h2⟩ := h.coh i2 hlt j hj
        have hjC : j ∉ (anode a nid).children := by
          intro hc
          have h3 := (h.coh nid hnid j hc).2
          rw [h2] at h3
          injection h3 with h4
          exact hii h4.symm
        refine ⟨by rw [hlen]; omega, ?_⟩
        rw [hpar_out j h1 hjC]
        exact h2
    · have hieq : i2 = a.nodes.length := by omega
      subst hieq
      rw [hacc_new] at hj
      have h9 := hC_lt j hj
      refine ⟨by rw [hlen]; omega, ?_⟩
      exact hpar_in j hj
  · intro i2 hi2
    rw [hlen] at hi2
    rcases Nat.lt_or_ge i2 a.nodes.length with hlt | hge
    · by_cases hii : nid = i2
      · subst hii
        rw [hacc_nid]
        simp
      · rw [hch_pres i2 hlt (fun hc => hii hc.symm)]
        exact h.cnodup i2 hlt
    · have hieq : i2 = a.nodes.length := by omega
      subst hieq
      rw [hacc_new]
      exact hC_nodup
  · intro j hj i2 hp
    rw [hlen] at hj
    rcases Nat.lt_or_ge j a.nodes.length with hjlt | hjge
    · by_cases hjC : j ∈ (anode a nid).children
      · rw [hpar_in j hjC] at hp
        injection hp with h2
        subst h2
        refine ⟨by rw [hlen]; omega, ?_⟩
        rw [hacc_new]
        exact hjC
      · rw [hpar_out j hjlt hjC] at hp
        obtain ⟨h1, h2⟩ := h.pmem j hjlt i2 hp
        have hin : i2 ≠ nid := by
          intro hc
          rw [hc] at h2
          exact hjC h2
        refine ⟨by rw [hlen]; omega, ?_⟩
        rw [hch_pres i2 h1 hin]
        exact h2
    · have hjeq : j = a.nodes.length := by omega
      subst hjeq
      rw [hacc_new] at hp
      injection hp with h2
      subst h2
      refine ⟨by rw [hlen]; omega, ?_⟩
      rw [hacc_nid]
      exact List.mem_singleton.mpr rfl
  · intro r2 hr2
    have hr2b : a.root = some r2 := hr2
    obtain ⟨h1, h2⟩ := h.rootOK r2 hr2b
    have hrC : r2 ∉ (anode a nid).children := by
      intro hc
      have h3 := (h.coh nid hnid r2 hc).2
      rw [h2] at h3
      cases h3
    refine ⟨by rw [hlen]; omega, ?_⟩
    rw [hpar_out r2 h1 hrC]
    exact h2
  · intro j hj hp
    rw [hlen] at hj
    show a.root = some j
    rcases Nat.lt_or_ge j a.nodes.length with hjlt | hjge
    · by_cases hjC : j ∈ (anode a nid).children
      · rw [hpar_in j hjC] at hp
        cases hp
      · rw [hpar_out j hjlt hjC] at hp
        exact h.rootAll j hjlt hp
    · have hjeq : j = a.nodes.length := by omega
      subst hjeq
      rw [hacc_new] at hp
      cases hp
  · intro hc
    have hc2 : a.root = Option.none := hc
    have h0 := h.emptyOK hc2
    exfalso
    rw [h0] at hnid
    cases hnid
  · intro j hj
    rw [hlen] at hj
    rcases Nat.lt_or_ge j a.nodes.length with hjlt | hjge
    · by_cases hjC : j ∈ (anode a nid).children
      · rw [hpar_in j hjC]
        intro hc
        injection hc with h2
        omega
      · rw [hpar_out j hjlt hjC]
        exact h.noSelf j hjlt
    · have hjeq : j = a.nodes.length := by omega
      subst hjeq
      rw [hacc_new]
      intro hc
      injection hc with h2
      omega

theorem setSplitNode_inexact_eq (a : Arena) (ks : List Char) (v : Nat)
    (nid i sumIndex : Nat) (hsx : ¬sumIndex = ks.length)
    (hnid : nid < a.nodes.length)
    (hnotin : nid ∉ (anode a nid).children) :
    setSplitNode a ks v nid i sumIndex = { a with
      nodes :=
        ((reparent (a.nodes.set nid
              ⟨(anode a nid).key.take i, Option.none, (anode a nid).parent,
                [a.nodes.length]⟩)
            (anode a nid).children (some a.nodes.length)).set nid
          ⟨(anode a nid).key.take i, Option.none, (anode a nid).parent,
            [a.nodes.length, a.nodes.length + 1]⟩) ++
          [⟨(anode a nid).key.drop i, (anode a nid).value, some nid,
              (anode a nid).children⟩,
            ⟨ks.drop sumIndex, some v, some nid, []⟩] } := by
  show (if sumIndex = ks.length then _ else _) = _
  rw [if_neg hsx, if_neg hsx]
  rw [reparent_getD_not_mem _ _ _ _ hnotin, getD_set_self _ _ _ hnid]

/-- Splitting a node with a remainder leaf: invariant preservation. -/
theorem AWF_split_inexact (a : Arena) (nid : Nat) (ktake kdrop klf : List Char)
    (vv wv lv : Option Nat) (h : AWF a) (hnid : nid < a.nodes.length) :
    AWF { a with
      nodes :=
        ((reparent (a.nodes.set nid ⟨ktake, vv, (anode a nid).parent, [a.nodes.length]⟩)
            (anode a nid).children (some a.nodes.length)).set nid
          ⟨ktake, vv, (anode a nid).parent, [a.nodes.length, a.nodes.length + 1]⟩) ++
          [⟨kdrop, wv, some nid, (anode a nid).children⟩, ⟨klf, lv, some nid, []⟩] } := by
  have hC_lt : ∀ c ∈ (anode a nid).children, c < a.nodes.length :=
    fun c hc => (h.coh nid hnid c hc).1
  have hC_nodup : (anode a nid).children.Nodup := h.cnodup nid hnid
  have hnotin : nid ∉ (anode a nid).children := by
    intro hc
    exact h.noSelf nid hnid (h.coh nid hnid nid hc).2
  have hlen : ({ a with
      nodes :=
        ((reparent (a.nodes.set nid ⟨ktake, vv, (anode a nid).parent, [a.nodes.length]⟩)
            (anode a nid).children (some a.nodes.length)).set nid
          ⟨ktake, vv, (anode a nid).parent, [a.nodes.length, a.nodes.length + 1]⟩) ++
          [⟨kdrop, wv, some nid, (anode a nid).children⟩, ⟨klf, lv, some nid, []⟩] } : Arena).nodes.length = a.nodes.length + 2 := by
    show (((reparent _ _ _).set nid _) ++ [_, _]).length = _
    rw [List.length_append, List.length_set, length_reparent, List.length_set]
    rfl
  have hacc_nid : anode { a with
      nodes :=
        ((reparent (a.nodes.set nid ⟨ktake, vv, (anode a nid).parent, [a.nodes.length]⟩)
            (anode a nid).children (some a.nodes.length)).set nid
          ⟨ktake, vv, (anode a nid).parent, [a.nodes.length, a.nodes.length + 1]⟩) ++
          [⟨kdrop, wv, some nid, (anode a nid).children⟩, ⟨klf, lv, some nid, []⟩] } nid =
      ⟨ktake, vv, (anode a nid).parent, [a.nodes.length, a.nodes.length + 1]⟩ := by
    show (((reparent _ _ _).set nid _) ++ [_, _]).getD nid default = _
    rw [getD_append_lt _ _ _
        (by rw [List.length_set, length_reparent, List.length_set]; exact hnid),
      getD_set_self _ _ _ (by rw [length_reparent, List.length_set]; exact hnid)]
  have hacc_in : ∀ q, q ∈ (anode a nid).children → anode { a with
      nodes :=
        ((reparent (a.nodes.set nid ⟨ktake, vv, (anode a nid).parent, [a.nodes.length]⟩)
            (anode a nid).children (some a.nodes.length)).set nid
          ⟨ktake, vv, (anode a nid).parent, [a.nodes.length, a.nodes.length + 1]⟩) ++
          [⟨kdrop, wv, some nid, (anode a nid).children⟩, ⟨klf, lv, some nid, []⟩] } q =
      { anode a q with parent := some a.nodes.length } := by
    intro q hq
    have hql : q < a.nodes.length := hC_lt q hq
    have hqn : q ≠ nid := fun hc => hnotin (hc ▸ hq)
    show (((reparent _ _ _).set nid _) ++ [_, _]).getD q default = _
    rw [getD_append_lt _ _ _
        (by rw [List.length_set, length_reparent, List.length_set]; exact hql),
      getD_set_ne _ _ _ _ (fun hc => hqn hc.symm),
      reparent_getD_mem _ _ _ _ hq (by rw [List.length_set]; exact hql),
      getD_set_ne _ _ _ _ (fun hc => hqn hc.symm)]
    rfl
  have hacc_out : ∀ q, q < a.nodes.length → q ≠ nid →
      q ∉ (anode a nid).children → anode { a with
      nodes :=
        ((reparent (a.nodes.set nid ⟨ktake, vv, (anode a nid).parent, [a.nodes.length]⟩)
            (anode a nid).children (some a.nodes.length)).set nid
          ⟨ktake, vv, (anode a nid).parent, [a.nodes.length, a.nodes.length + 1]⟩) ++
          [⟨kdrop, wv, some nid, (anode a nid).children⟩, ⟨klf, lv, some nid, []⟩] } q = anode a q := by
    intro q hql hqn hqc
    show (((reparent _ _ _).set nid _) ++ [_, _]).getD q default = _
    rw [getD_append_lt _ _ _
        (by rw [List.length_set, length_reparent, List.length_set]; exact hql),
      getD_set_ne _ _ _ _ (fun hc => hqn hc.symm),
      reparent_getD_not_mem _ _ _ _ hqc,
      getD_set_ne _ _ _ _ (fun hc => hqn hc.symm)]
    rfl
  have hacc_new : anode { a with
      nodes :=
        ((reparent (a.nodes.set nid ⟨ktake, vv, (anode a nid).parent, [a.nodes.length]⟩)
            (anode a nid).children (some a.nodes.length)).set nid
          ⟨ktake, vv, (anode a nid).parent, [a.nodes.length, a.nodes.length + 1]⟩) ++
          [⟨kdrop, wv, some nid, (anode a nid).children⟩, ⟨klf, lv, some nid, []⟩] } a.nodes.length =
      ⟨kdrop, wv, some nid, (anode a nid).children⟩ := by
    show (((reparent _ _ _).set nid _) ++ [_, _]).getD a.nodes.length default = _
    have h2 := getD_append_len
      ((reparent (a.nodes.set nid
            (⟨ktake, vv, (anode a nid).parent, [a.nodes.length]⟩ : ANode))
          (anode a nid).children (some a.nodes.length)).set nid
        (⟨ktake, vv, (anode a nid).parent,
          [a.nodes.length, a.nodes.length + 1]⟩ : ANode))
      ([(⟨klf, lv, some nid, []⟩ : ANode)])
      (⟨kdrop, wv, some nid, (anode a nid).children⟩ : ANode)
    rw [List.length_set, length_reparent, List.length_set] at h2
    exact h2
  have hacc_leaf : anode { a with
      nodes :=
        ((reparent (a.nodes.set nid ⟨ktake, vv, (anode a nid).parent, [a.nodes.length]⟩)
            (anode a nid).children (some a.nodes.length)).set nid
          ⟨ktake, vv, (anode a nid).parent, [a.nodes.length, a.nodes.length + 1]⟩) ++
          [⟨kdrop, wv, some nid, (anode a nid).children⟩, ⟨klf, lv, some nid, []⟩] } (a.nodes.length + 1) =
      ⟨klf, lv, some nid, []⟩ := by
    show (((reparent _ _ _).set nid _) ++ [_, _]).getD (a.nodes.length + 1) default = _
    have h2 := getD_append_len1
      ((reparent (a.nodes.set nid
            (⟨ktake, vv, (anode a nid).parent, [a.nodes.length]⟩ : ANode))
          (anode a nid).children (some a.nodes.length)).set nid
        (⟨ktake, vv, (anode a nid).parent,
          [a.nodes.length, a.nodes.length + 1]⟩ : ANode))
      ([] : List ANode)
      (⟨kdrop, wv, some nid, (anode a nid).children⟩ : ANode)
      (⟨klf, lv, some nid, []⟩ : ANode)
    rw [List.length_set, length_reparent, List.length_set] at h2
    exact h2
  have hpar_in : ∀ j ∈ (anode a nid).children,
      (anode { a with
      nodes :=
        ((reparent (a.nodes.set nid ⟨ktake, vv, (anode a nid).parent, [a.nodes.length]⟩)
            (anode a nid).children (some a.nodes.length)).set nid
          ⟨ktake, vv, (anode a nid).parent, [a.nodes.length, a.nodes.length + 1]⟩) ++
          [⟨kdrop, wv, some nid, (anode a nid).children⟩, ⟨klf, lv, some nid, []⟩] } j).parent = some a.nodes.length := by
    intro j hj
    rw [hacc_in j hj]
  have hpar_out : ∀ j, j < a.nodes.length → j ∉ (anode a nid).children →
      (anode { a with
      nodes :=
        ((reparent (a.nodes.set nid ⟨ktake, vv, (anode a nid).parent, [a.nodes.length]⟩)
            (anode a nid).children (some a.nodes.length)).set nid
          ⟨ktake, vv, (anode a nid).parent, [a.nodes.length, a.nodes.length + 1]⟩) ++
          [⟨kdrop, wv, some nid, (anode a nid).children⟩, ⟨klf, lv, some nid, []⟩] } j).parent = (anode a j).parent := by
    intro j hjl hjc
    by_cases hjn : nid = j
    · subst hjn
      rw [hacc_nid]
    · rw [hacc_out j hjl (fun hc => hjn hc.symm) hjc]
  have hch_pres : ∀ q, q < a.nodes.length → q ≠ nid →
      (anode { a with
      nodes :=
        ((reparent (a.nodes.set nid ⟨ktake, vv, (anode a nid).parent, [a.nodes.length]⟩)
            (anode a nid).children (some a.nodes.length)).set nid
          ⟨ktake, vv, (anode a nid).parent, [a.nodes.length, a.nodes.length + 1]⟩) ++
          [⟨kdrop, wv, some nid, (anode a nid).children⟩, ⟨klf, lv, some nid, []⟩] } q).children = (anode a q).children := by
    intro q hql hqn
    by_cases hqc : q ∈ (anode a nid).children
    · rw [hacc_in q hqc]
    · rw [hacc_out q hql hqn hqc]
  refine ⟨?_, ?_, ?_, ?_, ?_, ?_, ?_⟩
  · intro i2 hi2 j hj
    rw [hlen] at hi2
    rcases Nat.lt_or_ge i2 a.nodes.length with hlt | hge
    · by_cases hii : nid = i2
      · subst hii
        rw [hacc_nid] at hj
        rcases List.mem_cons.mp hj with h2 | h2
        · subst h2
          refine ⟨by rw [hlen]; omega, ?_⟩
          rw [hacc_new]
        · rcases List.mem_singleton.mp h2 with h3
          subst h3
          refine ⟨by rw [hlen]; omega, ?_⟩
          rw [hacc_leaf]
      · rw [hch_pres i2 hlt (fun hc => hii hc.symm)] at hj
        obtain ⟨h1, h2⟩ := h.coh i2 hlt j hj
        have hjC : j ∉ (anode a nid).children := by
          intro hc
          have h3 := (h.coh nid hnid j hc).2
          rw [h2] at h3
          injection h3 with h4
          exact hii h4.symm
        refine ⟨by rw [hlen]; omega, ?_⟩
        rw [hpar_out j h1 hjC]
        exact h2
    · by_cases hieq : i2 = a.nodes.length
      · subst hieq
        rw [hacc_new] at hj
        have h9 := hC_lt j hj
        refine ⟨by rw [hlen]; omega, ?_⟩
        exact hpar_in j hj
      · have hieq2 : i2 = a.nodes.length + 1 := by omega
        subst hieq2
        rw [hacc_leaf] at hj
        cases hj
  · intro i2 hi2
    rw [hlen] at hi2
    rcases Nat.lt_or_ge i2 a.nodes.length with hlt | hge
    · by_cases hii : nid = i2
      · subst hii
        rw [hacc_nid]
        refine List.nodup_cons.mpr ⟨?_, List.nodup_cons.mpr ⟨by simp, List.nodup_nil⟩⟩
        intro hc
        rcases List.mem_singleton.mp hc with h2
        omega
      · rw [hch_pres i2 hlt (fun hc => hii hc.symm)]
        exact h.cnodup i2 hlt
    · by_cases hieq : i2 = a.nodes.length
      · subst hieq
        rw [hacc_new]
        exact hC_nodup
      · have hieq2 : i2 = a.nodes.length + 1 := by omega
        subst hieq2
        rw [hacc_leaf]
        exact List.nodup_nil
  · intro j hj i2 hp
    rw [hlen] at hj
    rcases Nat.lt_or_ge j a.nodes.length with hjlt | hjge
    · by_cases hjC : j ∈ (anode a nid).children
      · rw [hpar_in j hjC] at hp
        injection hp with h2
        subst h2
        refine ⟨by rw [hlen]; omega, ?_⟩
        rw [hacc_new]
        exact hjC
      · rw [hpar_out j hjlt hjC] at hp
        obtain ⟨h1, h2⟩ := h.pmem j hjlt i2 hp
        have hin : i2 ≠ nid := by
          intro hc
          rw [hc] at h2
          exact hjC h2
        refine ⟨by rw [hlen]; omega, ?_⟩
        rw [hch_pres i2 h1 hin]
        exact h2
    · by_cases hjeq : j = a.nodes.length
      · subst hjeq
        rw [hacc_new] at hp
        injection hp with h2
        subst h2
        refine ⟨by rw [hlen]; omega, ?_⟩
        rw [hacc_nid]
        exact List.mem_cons_self _ _
      · have hjeq2 : j = a.nodes.length + 1 := by omega
        subst hjeq2
        rw [hacc_leaf] at hp
        injection hp with h2
        subst h2
        refine ⟨by rw [hlen]; omega, ?_⟩
        rw [hacc_nid]
        exact List.mem_cons_of_mem _ (List.mem_singleton.mpr rfl)
  · intro r2 hr2
    have hr2b : a.root = some r2 := hr2
    obtain ⟨h1, h2⟩ := h.rootOK r2 hr2b
    have hrC : r2 ∉ (anode a nid).children := by
      intro hc
      have h3 := (h.coh nid hnid r2 hc).2
      rw [h2] at h3
      cases h3
    refine ⟨by rw [hlen]; omega, ?_⟩
    rw [hpar_out r2 h1 hrC]
    exact h2
  · intro j hj hp
    rw [hlen] at hj
    show a.root = some j
    rcases Nat.lt_or_ge j a.nodes.length with hjlt | hjge
    · by_cases hjC : j ∈ (anode a nid).children
      · rw [hpar_in j hjC] at hp
        cases hp
      · rw [hpar_out j hjlt hjC] at hp
        exact h.rootAll j hjlt hp
    · by_cases hjeq : j = a.nodes.length
      · subst hjeq
        rw [hacc_new] at hp
        cases hp
      · have hjeq2 : j = a.nodes.length + 1 := by omega
        subst hjeq2
        rw [hacc_leaf] at hp
        cases hp
  · intro hc
    have hc2 : a.root = Option.none := hc
    have h0 := h.emptyOK hc2
    exfalso
    rw [h0] at hnid
    cases hnid
  · intro j hj
    rw [hlen] at hj
    rcases Nat.lt_or_ge j a.nodes.length with hjlt | hjge
    · by_cases hjC : j ∈ (anode a nid).children
      · rw [hpar_in j hjC]
        intro hc
        injection hc with h2
        omega
      · rw [hpar_out j hjlt hjC]
        exact h.noSelf j hjlt
    · by_cases hjeq : j = a.nodes.length
      · subst hjeq
        rw [hacc_new]
        intro hc
        injection hc with h2
        omega
      · have hjeq2 : j = a.nodes.length + 1 := by omega
        subst hjeq2
        rw [hacc_leaf]
        intro hc
        injection hc with h2
        omega

/-- Splitting a node preserves the pointer invariants. -/
theorem setSplitNode_AWF (a : Arena) (ks : List Char) (v : Nat)
    (nid i sumIndex : Nat) (h : AWF a) (hnid : nid < a.nodes.length) :
    AWF (setSplitNode a ks v nid i sumIndex) := by
  have hnotin : nid ∉ (anode a nid).children := by
    intro hc
    exact h.noSelf nid hnid (h.coh nid hnid nid hc).2
  by_cases hsx : sumIndex = ks.length
  · rw [setSplitNode_exact_eq a ks v nid i sumIndex hsx hnid hnotin]
    exact AWF_split_exact a nid _ _ _ _ h hnid
  · rw [setSplitNode_inexact_eq a ks v nid i sumIndex hsx hnid hnotin]
    exact AWF_split_inexact a nid _ _ _ _ _ _ h hnid

theorem setArena_root_none_eq (a : Arena) (key : List Char) (v : Nat)
    (hr : a.root = Option.none) :
    setArena a key v = { a with
      nodes := a.nodes ++ [⟨if a.caseSensitive then key else key.map Char.toLower,
        some v, Option.none, []⟩],
      root := some a.nodes.length } := by
  show (match a.root with
    | Option.none => { a with
        nodes := a.nodes ++ [(⟨if a.caseSensitive then key else key.map Char.toLower,
          some v, Option.none, []⟩ : ANode)],
        root := some a.nodes.length }
    | some r => _) = _
  simp only [hr]

theorem setArena_root_some_eq (a : Arena) (key : List Char) (v : Nat) (r : Nat)
    (hr : a.root = some r) :
    setArena a key v =
      (match findClosestA a
          (keyAsPointer (if a.caseSensitive then key else key.map Char.toLower)) with
      | Option.none =>
        setRootSplit a (if a.caseSensitive then key else key.map Char.toLower) v r
      | some (nid, .prefixMatch i, sumIndex) =>
        if i = (if a.caseSensitive then key else key.map Char.toLower).length then
          setInsertParent a v nid i
        else if i < (anode a nid).key.length then
          setSplitNode a (if a.caseSensitive then key else key.map Char.toLower) v
            nid i sumIndex
        else
          setAddChild a (if a.caseSensitive then key else key.map Char.toLower) v
            nid sumIndex
      | some (nid, _, _) => setValueAt a v nid) := by
  show (match a.root with | Option.none => _ | some r => _) = _
  simp only [hr]

/-- The empty arena is well-formed. -/
theorem AWF_empty (cs : Bool) : AWF ⟨[], Option.none, cs⟩ := by
  refine ⟨?_, ?_, ?_, ?_, ?_, ?_, ?_⟩
  · intro i hi
    cases hi
  · intro i hi
    cases hi
  · intro j hj
    cases hj
  · intro r hr
    cases hr
  · intro j hj
    cases hj
  · intro _
    rfl
  · intro j hj
    cases hj

/-- Source `set` over the arena preserves the pointer invariants. -/
theorem setArena_AWF (a : Arena) (key : List Char) (v : Nat) (h : AWF a) :
    AWF (setArena a key v) := by
  cases hr : a.root with
  | none =>
    rw [setArena_root_none_eq a key v hr]
    have h0 := h.emptyOK hr
    have hEq : ({ a with
        nodes := a.nodes ++ [⟨if a.caseSensitive then key else key.map Char.toLower,
          some v, Option.none, []⟩],
        root := some a.nodes.length } : Arena) = { a with
        nodes := [⟨if a.caseSensitive then key else key.map Char.toLower,
          some v, Option.none, []⟩],
        root := some 0 } := by
      rw [h0]
      rfl
    rw [hEq]
    refine ⟨?_, ?_, ?_, ?_, ?_, ?_, ?_⟩
    · intro i hi j hj
      have hi2 : i < 1 := hi
      have hieq : i = 0 := by omega
      subst hieq
      have hj2 : j ∈ ([] : List Nat) := hj
      cases hj2
    · intro i hi
      have hi2 : i < 1 := hi
      have hieq : i = 0 := by omega
      subst hieq
      exact List.nodup_nil
    · intro j hj i2 hp
      have hj2 : j < 1 := hj
      have hjeq : j = 0 := by omega
      subst hjeq
      have hp2 : (Option.none : Option Nat) = some i2 := hp
      cases hp2
    · intro r2 hr2
      have hr2b : some 0 = some r2 := hr2
      injection hr2b with h2
      subst h2
      exact ⟨Nat.zero_lt_one, rfl⟩
    · intro j hj hp
      have hj2 : j < 1 := hj
      have hjeq : j = 0 := by omega
      subst hjeq
      rfl
    · intro hc
      have hc2 : some 0 = (Option.none : Option Nat) := hc
      cases hc2
    · intro j hj
      have hj2 : j < 1 := hj
      have hjeq : j = 0 := by omega
      subst hjeq
      intro hc
      have hc2 : (Option.none : Option Nat) = some 0 := hc
      cases hc2
  | some r =>
    rw [setArena_root_some_eq a key v r hr]
    cases hf : findClosestA a
        (keyAsPointer (if a.caseSensitive then key else key.map Char.toLower)) with
    | none => exact setRootSplit_AWF a _ v r h hr
    | some out =>
      obtain ⟨nid, m, sx⟩ := out
      have hvalid : nid < a.nodes.length := findClosestA_valid a h _ _ hf
      cases m with
      | full => exact setValueAt_AWF a v nid h
      | noMatch => exact setValueAt_AWF a v nid h
      | prefixMatch i =>
        show AWF (if i = (if a.caseSensitive then key
            else key.map Char.toLower).length then
          setInsertParent a v nid i
        else if i < (anode a nid).key.length then
          setSplitNode a (if a.caseSensitive then key else key.map Char.toLower) v
            nid i sx
        else
          setAddChild a (if a.caseSensitive then key else key.map Char.toLower) v
            nid sx)
        by_cases h1 : i = (if a.caseSensitive then key else key.map Char.toLower).length
        · rw [if_pos h1]
          exact setInsertParent_AWF a v nid i h hvalid
        · rw [if_neg h1]
          by_cases h2 : i < (anode a nid).key.length
          · rw [if_pos h2]
            exact setSplitNode_AWF a _ v nid i sx h hvalid
          · rw [if_neg h2]
            exact setAddChild_AWF a _ v nid sx h hvalid

/-- Every arena reachable from the empty arena by `set` calls is
well-formed. -/
theorem buildArena_AWF (cs : Bool) (entries : List (List Char × Nat)) :
    AWF (buildArena cs entries) := by
  suffices hsuf : ∀ a : Arena, AWF a →
      AWF (entries.foldl (fun a e => setArena a e.1 e.2) a) from
    hsuf ⟨[], Option.none, cs⟩ (AWF_empty cs)
  induction entries with
  | nil => intro a ha; exact ha
  | cons e es ih =>
    intro a ha
    rw [List.foldl_cons]
    exact ih _ (setArena_AWF a e.1 e.2 ha)

/-- A non-root node has exactly one parent: its parent back-reference names a
node whose children list holds it exactly once, and no other children list
holds it. -/
theorem AWF_unique_parent (a : Arena) (h : AWF a) (j r : Nat)
    (hr : a.root = some r) (hj : j < a.nodes.length) (hjr : j ≠ r) :
    ∃ pid, (anode a j).parent = some pid ∧ pid < a.nodes.length ∧
      List.count j (anode a pid).children = 1 ∧
      ∀ q, q < a.nodes.length → j ∈ (anode a q).children → q = pid := by
  cases hp : (anode a j).parent with
  | none =>
    exfalso
    have h2 := h.rootAll j hj hp
    rw [hr] at h2
    injection h2 with h3
    exact hjr h3.symm
  | some pid =>
    obtain ⟨h1, h2⟩ := h.pmem j hj pid hp
    refine ⟨pid, rfl, h1, ?_, ?_⟩
    · exact List.count_eq_one_of_mem (h.cnodup pid h1) h2
    · intro q hq hjq
      have h3 := (h.coh q hq j hjq).2
      rw [hp] at h3
      injection h3 with h4
      exact h4.symm

/-- Root insertion preserves the non-empty-keys invariant (tree model). -/
theorem set_NE (t : Trie) (key : List Char) (v : Nat) (h : optNE t.root = true) :
    optNE (set t key v).root = true := by
  rw [set_eq_setM]
  exact setM_NE t.ce v t.root (foldK t.caseSensitive key) h

/-- Every trie built by `set` calls satisfies the non-empty-keys invariant:
only the root may carry an empty key segment. -/
theorem buildTrie_NE (cs : Bool) (entries : List (List Char × Nat)) :
    optNE (buildTrie cs entries).root = true := by
  suffices hsuf : ∀ t : Trie, optNE t.root = true →
      optNE ((entries.foldl (fun t e => set t e.1 e.2) t)).root = true from
    hsuf (mkTrie cs) rfl
  induction entries with
  | nil => intro t ht; exact ht
  | cons e es ih =>
    intro t ht
    rw [List.foldl_cons]
    exact ih _ (set_NE t e.1 e.2 ht)

/-- C9: structural invariants of every trie reachable from the empty trie
by `set` calls: (1) every node other than the root has a non-empty key
segment — `optNE` checks every strict descendant of the (possibly
empty-keyed, virtual) root; (2) the full key the traversal reports for a
node is the concatenation of the key segments along the root-to-node path
(the code materialises full keys only during traversal); (3) in the
heap-level arena model of `set`'s pointer surgery, every non-root node's
parent back-reference names a node whose children list contains it exactly
once, and no other children list contains it. -/
theorem set_structural_invariants :
    (∀ (cs : Bool) (entries : List (List Char × Nat)),
      optNE (buildTrie cs entries).root = true) ∧
    (∀ (t : Trie) (kp : KeyPointer) (r : Node) (res : ClosestResult),
      t.root = some r → (findClosestMatchingNode t kp).1 = some res →
      res.node = nodeAt r res.path ∧ res.fullKey = r.key ++ pathKeys r res.path) ∧
    (∀ (cs : Bool) (entries : List (List Char × Nat)) (r j : Nat),
      (buildArena cs entries).root = some r →
      j < (buildArena cs entries).nodes.length → j ≠ r →
      ∃ pid, (anode (buildArena cs entries) j).parent = some pid ∧
        pid < (buildArena cs entries).nodes.length ∧
        List.count j (anode (buildArena cs entries) pid).children = 1 ∧
        ∀ q, q < (buildArena cs entries).nodes.length →
          j ∈ (anode (buildArena cs entries) q).children → q = pid) := by
  refine ⟨buildTrie_NE, ?_, ?_⟩
  · intro t kp r res hr hres
    exact fcmn_fullKey_path t kp r res hr hres
  · intro cs entries r j hr hj hjr
    exact AWF_unique_parent (buildArena cs entries) (buildArena_AWF cs entries) j r hr hj hjr

/-- C9 witness: the path/fullKey coherence conjunct applied to the concrete
trie `trieC3` at the window `ab`, hypotheses discharged by evaluation. -/
theorem set_structural_invariants_witness :
    trieC3.root = some (trieC3.root.getD default) ∧
    (findClosestMatchingNode trieC3 (keyAsPointer ['a', 'b'])).1 =
      some (((findClosestMatchingNode trieC3 (keyAsPointer ['a', 'b'])).1).getD ⟨default, [], MatchType.noMatch, [], 0⟩) ∧
    ((((findClosestMatchingNode trieC3 (keyAsPointer ['a', 'b'])).1).getD ⟨default, [], MatchType.noMatch, [], 0⟩).node =
      nodeAt (trieC3.root.getD default)
        ((((findClosestMatchingNode trieC3 (keyAsPointer ['a', 'b'])).1).getD ⟨default, [], MatchType.noMatch, [], 0⟩).path) ∧
     (((findClosestMatchingNode trieC3 (keyAsPointer ['a', 'b'])).1).getD ⟨default, [], MatchType.noMatch, [], 0⟩).fullKey =
      (trieC3.root.getD default).key ++ pathKeys (trieC3.root.getD default)
        ((((findClosestMatchingNode trieC3 (keyAsPointer ['a', 'b'])).1).getD ⟨default, [], MatchType.noMatch, [], 0⟩).path)) :=
  ⟨rfl, rfl,
    set_structural_invariants.2.1 trieC3 (keyAsPointer ['a', 'b'])
      (trieC3.root.getD default)
      (((findClosestMatchingNode trieC3 (keyAsPointer ['a', 'b'])).1).getD ⟨default, [], MatchType.noMatch, [], 0⟩)
      rfl rfl⟩

end TrieMap
